import Mathlib

/-!
# Particle deposition engine of HiPACE++ (`src/particles/deposition/DepositionUtil.H`)

A shallow embedding of `SharedMemoryDeposition` and of its three strategies:

* the GPU strategy (linked lists per tile, deposition into a shared memory tile, fold back),
* the CPU strategy (particles binned by tile, four colour loop over the tiles),
* the simple loop over the particles.

Conventions of the embedding.

* C++ `int` quantities are `Int`; `/` and `%` of C++ are `Int.tdiv` and `Int.tmod`.
  Coordinates of the box and of the cells and the particle count are assumed to fit the machine
  type, which matters for `ll_guard` (`INT_MAX`).  The tile size of the CPU strategy is a free
  runtime setting: the sums `box.length(d) + tile - 1` are taken modulo `2^32` as the machine
  computes them (`wrapInt`), and the theorems that need the exact sum say so (`TileCountsFit`).
* Particle indices are `Nat`.
* An `Array3` is the function giving the value at `(i, j, n)`; its memory layout is not part of
  the model, so an access is just an evaluation of that function.
* `AMREX_ALWAYS_ASSERT` is a failure of the call when its condition is false.
* Values live in a type `R` with exact addition (the theorems ask for `AddCommMonoid R`).
* Parallel loops are run in one sequential order.  The order in which the binning kernel
  handles the particles is a parameter `order`.
-/

namespace Hipace

/-! ## Fields -/

/-- Modelled from the spec: `Array3` (`utils/GPUUtil.H`) is not among the sources.  A view of
a field is the function giving the value stored at cell `(i, j)` and component `n`. -/
abbrev Field (R : Type) := Int → Int → Int → R

/-- The assignment `arr(i, j, n) = v`. -/
def Field.set {R : Type} (f : Field R) (i j n : Int) (v : R) : Field R :=
  fun i' j' n' => if i' = i ∧ j' = j ∧ n' = n then v else f i' j' n'

/-- The atomic add `Gpu::Atomic::Add(arr.ptr(i, j, n), v)`. -/
def Field.add {R : Type} [Add R] (f : Field R) (i j n : Int) (v : R) : Field R :=
  f.set i j n (f i j n + v)

/-- The box of the field: `smallEnd` and `bigEnd` in the two tiled directions. -/
structure Box where
  lo_x : Int
  lo_y : Int
  hi_x : Int
  hi_y : Int

/-- Length of the box in direction 0, `box.length(0)`. -/
def Box.length0 (b : Box) : Int := b.hi_x - b.lo_x + 1

/-- Length of the box in direction 1, `box.length(1)`. -/
def Box.length1 (b : Box) : Int := b.hi_y - b.lo_y + 1

/-- Membership of a cell in the box. -/
def Box.contains (b : Box) (x y : Int) : Prop :=
  b.lo_x ≤ x ∧ x ≤ b.hi_x ∧ b.lo_y ≤ y ∧ y ≤ b.hi_y

instance (b : Box) (x y : Int) : Decidable (b.contains x y) := by
  unfold Box.contains; infer_instance

/-! ## Inputs of a call -/

/-- Template parameters of `SharedMemoryDeposition`. -/
structure Template where
  stencil_x : Int
  stencil_y : Int
  dynamic_comps : Bool
  max_depos : Nat
  max_cache : Nat

/-- The particles of a call: `num_particles` and the functors `is_valid`, `get_start_cell`
(with the particle tile data they close over). -/
structure Particles where
  num_particles : Nat
  is_valid : Nat → Bool
  get_start_cell : Nat → Int × Int

/-- The type of the functor `do_deposit (ip, ptd, field, idx_cache, idx_depos)`: it returns the
array it was handed, updated. -/
abbrev DepositFn (R : Type) := Nat → Field R → (Nat → Int) → (Nat → Int) → Field R

/-- The process wide settings read by the engine. -/
structure Settings where
  m_do_shared_depos : Bool
  m_do_tiling : Bool
  m_tile_size : Int

/-! ## Loops -/

/-- The iterations of `for (i = start; i < bound; i += stride)`, at most `fuel` of them. -/
def forLoop (bound stride : Int) : Nat → Int → List Int
  | 0, _ => []
  | fuel + 1, i => if i < bound then i :: forLoop bound stride fuel (i + stride) else []

/-- The values taken by `i` in `for (i = start; i < bound; i += stride)`. -/
def forRange (start bound stride : Int) : List Int :=
  forLoop bound stride (bound - start).toNat start

/-! ## GPU strategy: constants -/

abbrev threads_per_tile : Int := 256
abbrev tile_x : Int := 16
abbrev tile_y : Int := 16
abbrev combine_threads : Int := 4
abbrev combine_stride : Int := threads_per_tile / combine_threads

/-- Width of the shared memory tile, `tile_x + stencil_x - 1`. -/
def tile_s_x (t : Template) : Int := tile_x + t.stencil_x - 1

/-- Height of the shared memory tile, `tile_y + stencil_y - 1`. -/
def tile_s_y (t : Template) : Int := tile_y + t.stencil_y - 1

/-- Number of tiles in x on the GPU, `(box.length(0) + tile_x - 1) / tile_x`. -/
def ntile_x (box : Box) : Int := (box.length0 + tile_x - 1).tdiv tile_x

/-- Number of tiles in y on the GPU. -/
def ntile_y (box : Box) : Int := (box.length1 + tile_y - 1).tdiv tile_y

/-- End marker of the linked lists, `std::numeric_limits<int>::max()`. -/
def ll_guard : Nat := 2147483647

/-! ## GPU strategy: the binning kernel -/

/-- The three device vectors of the linked lists.  An entry of `ll_next` that was never
written is `none`. -/
structure LinkedLists where
  ll_start : Int → Nat
  ll_count : Int → Int
  ll_next : Nat → Option Nat

/-- State of the vectors before the binning kernel: `ll_start` filled with `ll_guard`,
`ll_count` with zero, `ll_next` not initialised. -/
def LinkedLists.init : LinkedLists :=
  { ll_start := fun _ => ll_guard, ll_count := fun _ => 0, ll_next := fun _ => none }

/-- Tile index `idx` computed by the binning kernel for a start cell. -/
def binTile (box : Box) (cell : Int × Int) : Int :=
  let tile_id_x := (cell.1 - box.lo_x).tdiv tile_x
  let tile_id_y := (cell.2 - box.lo_y).tdiv tile_y
  tile_id_x + tile_id_y * ntile_x box

/-- Cell id inside the tile, `loc_id`, computed by the binning kernel. -/
def binLocId (box : Box) (cell : Int × Int) : Int :=
  let tile_id_x := (cell.1 - box.lo_x).tdiv tile_x
  let tile_id_y := (cell.2 - box.lo_y).tdiv tile_y
  let loc_id_x := cell.1 - box.lo_x - tile_id_x * tile_x
  let loc_id_y := cell.2 - box.lo_y - tile_id_y * tile_y
  loc_id_x + loc_id_y * tile_x

/-- Index into `ll_count` used by a particle. -/
def countIndex (box : Box) (cell : Int × Int) : Int :=
  binTile box cell * combine_stride + (binLocId box cell).tmod combine_stride

/-- Index into `ll_start` used by a particle that read `count` from its counter. -/
def headIndex (box : Box) (cell : Int × Int) (count : Int) : Int :=
  binTile box cell * threads_per_tile + (binLocId box cell).tmod combine_stride
    + (count.tmod combine_threads) * combine_stride

/-- Body of the binning kernel for particle `ip`: atomic add on the counter, then atomic
exchange on the list head. -/
def binParticle (p : Particles) (box : Box) (ip : Nat) (st : LinkedLists) : LinkedLists :=
  if p.is_valid ip then
    let cell := p.get_start_cell ip
    let count := st.ll_count (countIndex box cell)
    let head := headIndex box cell count
    { ll_count := Function.update st.ll_count (countIndex box cell) (count + 1)
      ll_next := Function.update st.ll_next ip (some (st.ll_start head))
      ll_start := Function.update st.ll_start head ip }
  else st

/-- The binning kernel, its bodies run in the order `order`. -/
def buildLinkedLists (p : Particles) (box : Box) (order : List Nat) : LinkedLists :=
  order.foldl (fun st ip => binParticle p box ip st) LinkedLists.init

/-! ## GPU strategy: the deposition kernel -/

/-- Whether entry `n` of an index array takes part: `!dynamic_comps || idx[n] != -1`. -/
def compEnabled (t : Template) (idx : Nat → Int) (n : Nat) : Bool :=
  !t.dynamic_comps || idx n != -1

/-- Decoded tile coordinates of a block: `tile_id_y` is the quotient and `tile_id_x` the
remainder of `tile_id` by `ntile_x`. -/
def tile_id_y (box : Box) (tile_id : Int) : Int := tile_id.tdiv (ntile_x box)

def tile_id_x (box : Box) (tile_id : Int) : Int := tile_id.tmod (ntile_x box)

def tile_begin_x (box : Box) (tile_id : Int) : Int := box.lo_x + tile_id_x box tile_id * tile_x

def tile_begin_y (box : Box) (tile_id : Int) : Int := box.lo_y + tile_id_y box tile_id * tile_y

def tile_end_x (t : Template) (box : Box) (tile_id : Int) : Int :=
  min (tile_begin_x box tile_id + tile_s_x t) (box.hi_x + 1)

def tile_end_y (t : Template) (box : Box) (tile_id : Int) : Int :=
  min (tile_begin_y box tile_id + tile_s_y t) (box.hi_y + 1)

/-- The cell `(sx, sy)` handled at loop value `s` of the staging and fold back loops. -/
def slotCell (t : Template) (box : Box) (tile_id s : Int) : Int × Int :=
  let sy := s.tdiv (tile_s_x t)
  let sx := s - sy * tile_s_x t
  (sx + tile_begin_x box tile_id, sy + tile_begin_y box tile_id)

/-- Staging of one cell: load the cached components, zero the deposited ones. -/
def stageCell {R : Type} [Zero R] (t : Template) (idx_cache idx_depos : Nat → Int)
    (field : Field R) (sx sy : Int) (shared_arr : Field R) : Field R :=
  let loaded := (List.range t.max_cache).foldl
    (fun sh n => if compEnabled t idx_cache n then
        sh.set sx sy n (field sx sy (idx_cache n)) else sh) shared_arr
  (List.range t.max_depos).foldl
    (fun sh n => if compEnabled t idx_depos n then
        sh.set sx sy (n + t.max_cache) 0 else sh) loaded

/-- Staging loop of one thread of a block. -/
def stageThread {R : Type} [Zero R] (t : Template) (box : Box) (idx_cache idx_depos : Nat → Int)
    (field : Field R) (tile_id thread : Int) (shared_arr : Field R) : Field R :=
  (forRange thread (tile_s_x t * tile_s_y t) threads_per_tile).foldl
    (fun sh s =>
      let c := slotCell t box tile_id s
      if c.1 ≤ box.hi_x ∧ c.2 ≤ box.hi_y then
        stageCell t idx_cache idx_depos field c.1 c.2 sh
      else sh) shared_arr

/-- Local component index handed to `do_deposit` for cached entry `n`. -/
def loc_idx_cache (t : Template) (idx_cache : Nat → Int) (n : Nat) : Int :=
  if t.dynamic_comps && idx_cache n == -1 then -1 else n

/-- Local component index handed to `do_deposit` for deposited entry `n`. -/
def loc_idx_depos (t : Template) (idx_depos : Nat → Int) (n : Nat) : Int :=
  if t.dynamic_comps && idx_depos n == -1 then -1 else n + t.max_cache

/-- The loop `while (current_idx != ll_guard)` of one thread, `body` standing for the call of
`do_deposit`.  At most `fuel` calls are made; `none` when the fuel runs out or when an entry
of `ll_next` is read that was never written. -/
def walkList {σ : Type} (body : Nat → σ → σ) (ll_next : Nat → Option Nat) :
    Nat → Nat → σ → Option σ
  | 0, current_idx, s => if current_idx = ll_guard then some s else none
  | fuel + 1, current_idx, s =>
    if current_idx = ll_guard then some s
    else match ll_next current_idx with
      | none => none
      | some next => walkList body ll_next fuel next (body current_idx s)

/-- The list walks of the 256 threads of block `tile_id`. -/
def walkThreads {σ : Type} (body : Nat → σ → σ) (ll : LinkedLists) (fuel : Nat) (tile_id : Int)
    (s : σ) : Option σ :=
  (forRange 0 threads_per_tile 1).foldlM
    (fun s thread =>
      walkList body ll.ll_next fuel (ll.ll_start (tile_id * threads_per_tile + thread)) s) s

/-- Fold back of one cell: atomic adds of the deposited components into the field. -/
def foldBackCell {R : Type} [Add R] (t : Template) (idx_depos : Nat → Int)
    (shared_arr : Field R) (sx sy : Int) (field : Field R) : Field R :=
  (List.range t.max_depos).foldl
    (fun f n => if compEnabled t idx_depos n then
        f.add sx sy (idx_depos n) (shared_arr sx sy (n + t.max_cache)) else f) field

/-- Fold back loop of one thread of a block. -/
def foldBackThread {R : Type} [Add R] (t : Template) (box : Box) (idx_depos : Nat → Int)
    (shared_arr : Field R) (tile_id thread : Int) (field : Field R) : Field R :=
  (forRange thread (tile_s_x t * tile_s_y t) threads_per_tile).foldl
    (fun f s =>
      let c := slotCell t box tile_id s
      if c.1 ≤ box.hi_x ∧ c.2 ≤ box.hi_y then
        foldBackCell t idx_depos shared_arr c.1 c.2 f
      else f) field

/-- Shared memory tile of a block after the staging loops of all its threads. -/
def stageBlock {R : Type} [Zero R] (t : Template) (box : Box) (idx_cache idx_depos : Nat → Int)
    (field : Field R) (tile_id : Int) (shared_ptr : Field R) : Field R :=
  (forRange 0 threads_per_tile 1).foldl
    (fun sh thread => stageThread t box idx_cache idx_depos field tile_id thread sh) shared_ptr

/-- Field after the fold back loops of all threads of a block. -/
def foldBackBlock {R : Type} [Add R] (t : Template) (box : Box) (idx_depos : Nat → Int)
    (shared_arr : Field R) (tile_id : Int) (field : Field R) : Field R :=
  (forRange 0 threads_per_tile 1).foldl
    (fun f thread => foldBackThread t box idx_depos shared_arr tile_id thread f) field

/-- One block of the deposition kernel: stage, barrier, walk the lists, barrier, fold back.
`shared_ptr` is the content of the shared memory when the block starts. -/
def depositBlock {R : Type} [Add R] [Zero R] (t : Template) (p : Particles) (box : Box)
    (do_deposit : DepositFn R) (idx_cache idx_depos : Nat → Int) (ll : LinkedLists)
    (shared_ptr : Field R) (tile_id : Int) (field : Field R) : Option (Field R) :=
  let staged := stageBlock t box idx_cache idx_depos field tile_id shared_ptr
  match walkThreads
      (fun ip sh => do_deposit ip sh (loc_idx_cache t idx_cache) (loc_idx_depos t idx_depos))
      ll p.num_particles tile_id staged with
  | none => none
  | some shared_arr => some (foldBackBlock t box idx_depos shared_arr tile_id field)

/-- The GPU strategy: binning kernel, then one block per tile.  `shared_ptr tile_id` is the
uninitialised content of the shared memory seen by block `tile_id`. -/
def sharedPath {R : Type} [Add R] [Zero R] (t : Template) (p : Particles) (box : Box)
    (do_deposit : DepositFn R) (idx_cache idx_depos : Nat → Int) (order : List Nat)
    (shared_ptr : Int → Field R) (field : Field R) : Option (Field R) :=
  let ll := buildLinkedLists p box order
  (forRange 0 (ntile_x box * ntile_y box) 1).foldlM
    (fun f tile_id =>
      depositBlock t p box do_deposit idx_cache idx_depos ll (shared_ptr tile_id) tile_id f) field

/-- The calls of `do_deposit` made by the GPU strategy, in the order of the model. -/
def sharedCalls (p : Particles) (box : Box) (order : List Nat) : Option (List Nat) :=
  let ll := buildLinkedLists p box order
  (forRange 0 (ntile_x box * ntile_y box) 1).foldlM
    (fun log tile_id =>
      walkThreads (fun ip l => l ++ [ip]) ll p.num_particles tile_id log) []

/-! ## CPU strategy -/

/-- Failure of a call. -/
inductive DepositError where
  | assertion_failed
  | list_walk_failed
  deriving DecidableEq

/-- The `int` that two's complement arithmetic gives for the exact value `x`: the
representative of `x` modulo `2^32` in `[-2^31, 2^31)`. -/
def wrapInt (x : Int) : Int := (x + 2147483648) % 4294967296 - 2147483648

/-- The values of the type `int`. -/
def IsInt (x : Int) : Prop := -2147483648 ≤ x ∧ x ≤ 2147483647

instance (x : Int) : Decidable (IsInt x) := by
  unfold IsInt; infer_instance

/-- The sums `box.length(0) + tile - 1` and `box.length(1) + tile - 1` do not overflow. -/
def TileCountsFit (box : Box) (tile : Int) : Prop :=
  IsInt (box.length0 + tile - 1) ∧ IsInt (box.length1 + tile - 1)

instance (box : Box) (tile : Int) : Decidable (TileCountsFit box tile) := by
  unfold TileCountsFit; infer_instance

/-- Number of tiles in x on the CPU, for tile size `tile`:
`(box.length(0) + tile_x - 1) / tile_x` in `int`. -/
def host_ntile_x (box : Box) (tile : Int) : Int := (wrapInt (box.length0 + tile - 1)).tdiv tile

/-- Number of tiles in y on the CPU: `(box.length(1) + tile_y - 1) / tile_y` in `int`. -/
def host_ntile_y (box : Box) (tile : Int) : Int := (wrapInt (box.length1 + tile - 1)).tdiv tile

/-- Tile coordinate in x of a start cell on the CPU, `(cell_x - lo_x) / tile_x`. -/
def host_tile_id_x (box : Box) (tile : Int) (cell : Int × Int) : Int :=
  (cell.1 - box.lo_x).tdiv tile

/-- Tile coordinate in y of a start cell on the CPU, `(cell_y - lo_y) / tile_y`. -/
def host_tile_id_y (box : Box) (tile : Int) (cell : Int × Int) : Int :=
  (cell.2 - box.lo_y).tdiv tile

/-- The bin of a particle: its tile, or the extra bin `ntile_x * ntile_y` when invalid. -/
def hostBin (p : Particles) (box : Box) (tile : Int) (ip : Nat) : Int :=
  if p.is_valid ip then
    let cell := p.get_start_cell ip
    let tile_id_x := host_tile_id_x box tile cell
    let tile_id_y := host_tile_id_y box tile cell
    tile_id_x * host_ntile_y box tile + tile_id_y
  else host_ntile_x box tile * host_ntile_y box tile

/-- Modelled from the spec: `amrex::DenseBins::build` is library code that is not part of the
sources.  The permutation array of a stable counting sort of the items `0 .. n-1` into
`nbins` bins: the items of bin 0 in increasing order, then those of bin 1, and so on. -/
def binsPermutation (n nbins : Nat) (bin : Nat → Int) : List Nat :=
  (List.range nbins).flatMap
    (fun (b : Nat) => (List.range n).filter (fun ip => bin ip = (b : Int)))

/-- Modelled from the spec: `amrex::DenseBins::offsetsPtr` is library code that is not part of
the sources.  Entry `b` is the number of items in the bins before `b`, so bin `b` occupies
`[offsets b, offsets (b + 1))` of the permutation array. -/
def binsOffsets (n : Nat) (bin : Nat → Int) (b : Nat) : Nat :=
  ((List.range b).map
    (fun (b' : Nat) => ((List.range n).filter (fun ip => bin ip = (b' : Int))).length)).sum

/-- The four colour loop over the tiles, `body` standing for the call of `do_deposit`. -/
def tiledLoop {σ : Type} (body : Nat → σ → σ) (p : Particles) (box : Box) (tile : Int)
    (s : σ) : σ :=
  let ntx := host_ntile_x box tile
  let nty := host_ntile_y box tile
  let nbins := (ntx * nty + 1).toNat
  let a_indices := binsPermutation p.num_particles nbins (hostBin p box tile)
  let a_offsets := binsOffsets p.num_particles (hostBin p box tile)
  (forRange 0 2 1).foldl (fun s tile_perm_x =>
    (forRange 0 2 1).foldl (fun s tile_perm_y =>
      (forRange tile_perm_x ntx 2).foldl (fun s itile_x =>
        (forRange tile_perm_y nty 2).foldl (fun s itile_y =>
          let tile_id := itile_x * nty + itile_y
          (forRange (a_offsets tile_id.toNat) (a_offsets (tile_id + 1).toNat) 1).foldl
            (fun s ip => body (a_indices.getD ip.toNat 0) s) s) s) s) s) s

/-- The CPU strategy: assertion on the tile size, binning, four colour loop. -/
def tiledPath {R : Type} (t : Template) (tile : Int) (p : Particles) (box : Box)
    (do_deposit : DepositFn R) (idx_cache idx_depos : Nat → Int) (field : Field R) :
    Except DepositError (Field R) :=
  if tile ≥ t.stencil_x ∧ tile ≥ t.stencil_y then
    .ok (tiledLoop (fun ip f => do_deposit ip f idx_cache idx_depos) p box tile field)
  else .error .assertion_failed

/-- The calls of `do_deposit` made by the CPU strategy, in order. -/
def tiledCalls (t : Template) (tile : Int) (p : Particles) (box : Box) :
    Except DepositError (List Nat) :=
  if tile ≥ t.stencil_x ∧ tile ≥ t.stencil_y then
    .ok (tiledLoop (fun ip l => l ++ [ip]) p box tile [])
  else .error .assertion_failed

/-! ## Simple loop -/

/-- The simple loop over the particles, `body` standing for the call of `do_deposit`. -/
def simpleLoop {σ : Type} (body : Nat → σ → σ) (p : Particles) (s : σ) : σ :=
  (List.range p.num_particles).foldl (fun s ip => if p.is_valid ip then body ip s else s) s

/-- The simple loop strategy. -/
def fallbackPath {R : Type} (p : Particles) (do_deposit : DepositFn R)
    (idx_cache idx_depos : Nat → Int) (field : Field R) : Field R :=
  simpleLoop (fun ip f => do_deposit ip f idx_cache idx_depos) p field

/-- The three strategies. -/
inductive Strategy where
  | shared_memory
  | tiling
  | simple_loop
  deriving DecidableEq

/-- The branch taken by `SharedMemoryDeposition`: with `AMREX_USE_GPU` the test is on
`m_do_shared_depos`, without it on `m_do_tiling`; the `else` branch is the simple loop. -/
def selectStrategy (amrex_use_gpu : Bool) (h : Settings) : Strategy :=
  if amrex_use_gpu then
    if h.m_do_shared_depos then .shared_memory else .simple_loop
  else
    if h.m_do_tiling then .tiling else .simple_loop

/-- The entry point. -/
def SharedMemoryDeposition {R : Type} [Add R] [Zero R] (amrex_use_gpu : Bool) (h : Settings)
    (t : Template) (p : Particles) (do_deposit : DepositFn R) (field : Field R) (box : Box)
    (idx_cache idx_depos : Nat → Int) (order : List Nat) (shared_ptr : Int → Field R) :
    Except DepositError (Field R) :=
  if amrex_use_gpu then
    if h.m_do_shared_depos then
      match sharedPath t p box do_deposit idx_cache idx_depos order shared_ptr field with
      | some f => .ok f
      | none => .error .list_walk_failed
    else .ok (fallbackPath p do_deposit idx_cache idx_depos field)
  else
    if h.m_do_tiling then
      tiledPath t h.m_tile_size p box do_deposit idx_cache idx_depos field
    else .ok (fallbackPath p do_deposit idx_cache idx_depos field)

/-! ## Deposit functors of the stencil kind -/

/-- What a particle whose start cell is `cell` can read of the cached components of `view`:
entry `m` at offset `(dx, dy)` of its footprint.  Entries that are not enabled and offsets
outside the footprint read as zero. -/
def cacheReading {R : Type} [Zero R] (t : Template) (cell : Int × Int) (view : Field R)
    (idx_cache : Nat → Int) : Nat → Int → Int → R :=
  fun m dx dy =>
    if m < t.max_cache ∧ compEnabled t idx_cache m = true ∧
        0 ≤ dx ∧ dx < t.stencil_x ∧ 0 ≤ dy ∧ dy < t.stencil_y then
      view (cell.1 + dx) (cell.2 + dy) (idx_cache m)
    else 0

/-- What particle `ip` adds to component `c` of cell `(x, y)` of `view`: for every enabled
deposited entry `n` with `idx_depos n = c` and `(x, y)` in the footprint, the weight
`w ip readings n dx dy`, which may depend on the cached readings. -/
def depositTerm {R : Type} [Add R] [Zero R] (t : Template) (p : Particles)
    (w : Nat → (Nat → Int → Int → R) → Nat → Int → Int → R)
    (ip : Nat) (view : Field R) (idx_cache idx_depos : Nat → Int) (x y c : Int) : R :=
  let cell := p.get_start_cell ip
  ((List.range t.max_depos).map (fun n =>
    if compEnabled t idx_depos n = true ∧ idx_depos n = c ∧
        cell.1 ≤ x ∧ x < cell.1 + t.stencil_x ∧ cell.2 ≤ y ∧ y < cell.2 + t.stencil_y then
      w ip (cacheReading t cell view idx_cache) n (x - cell.1) (y - cell.2)
    else 0)).sum

/-- A `do_deposit` that only reads the cached components and adds into the deposited
components, both inside the stencil footprint of its particle. -/
def stencilDeposit {R : Type} [Add R] [Zero R] (t : Template) (p : Particles)
    (w : Nat → (Nat → Int → Int → R) → Nat → Int → Int → R) : DepositFn R :=
  fun ip view idx_cache idx_depos x y c =>
    view x y c + depositTerm t p w ip view idx_cache idx_depos x y c

/-! ## Auxiliary definitions of the proofs -/

/-- Following `next` from `cur` visits exactly the particles of `l`, in order, and then reaches
`ll_guard`. -/
def Chain (next : Nat → Option Nat) : Nat → List Nat → Prop
  | cur, [] => cur = ll_guard
  | cur, ip :: l => cur = ip ∧ ip ≠ ll_guard ∧ ∃ nx, next ip = some nx ∧ Chain next nx l

/-- What the binning kernel has built after handling the particles `done`: the list of every
head is `lists h`. -/
structure BinInv (p : Particles) (box : Box) (done : List Nat) (st : LinkedLists)
    (lists : Int → List Nat) : Prop where
  chain : ∀ h, Chain st.ll_next (st.ll_start h) (lists h)
  mem_done : ∀ h ip, ip ∈ lists h → ip ∈ done ∧ p.is_valid ip = true
  head : ∀ h ip, ip ∈ lists h → ∃ c, 0 ≤ c ∧ h = headIndex box (p.get_start_cell ip) c
  complete : ∀ ip, ip ∈ done → p.is_valid ip = true → ∃ h, ip ∈ lists h
  nodup : ∀ h, (lists h).Nodup
  disjoint : ∀ h h' ip, ip ∈ lists h → ip ∈ lists h' → h = h'
  count_nonneg : ∀ i, 0 ≤ st.ll_count i

/-- In-box condition used throughout: the start cell of every valid particle is in the box. -/
def StartCellsInBox (p : Particles) (box : Box) : Prop :=
  ∀ ip, ip < p.num_particles → p.is_valid ip = true →
    box.contains (p.get_start_cell ip).1 (p.get_start_cell ip).2

/-- The tiles `(itile_x, itile_y)` in the order in which the four colour loop visits them. -/
def colourTiles (ntx nty : Int) : List (Int × Int) :=
  (forRange 0 2 1).flatMap (fun tile_perm_x =>
    (forRange 0 2 1).flatMap (fun tile_perm_y =>
      (forRange tile_perm_x ntx 2).flatMap (fun itile_x =>
        (forRange tile_perm_y nty 2).map (fun itile_y => (itile_x, itile_y)))))

/-- Tile coordinates of the start cell of a particle on the CPU. -/
def hostTile (p : Particles) (box : Box) (tile : Int) (ip : Nat) : Int × Int :=
  (host_tile_id_x box tile (p.get_start_cell ip), host_tile_id_y box tile (p.get_start_cell ip))

/-- Value that staging writes into local component `c` of a cell: the cached field component
for `c < max_cache`, zero above. -/
def stagedValue {R : Type} [Zero R] (t : Template) (idx_cache : Nat → Int) (field : Field R) :
    Field R :=
  fun x y c => if c < (t.max_cache : Int) then field x y (idx_cache c.toNat) else 0

/-- Local components of the enabled cached entries. -/
def isCacheComp (t : Template) (idx_cache : Nat → Int) (c : Int) : Prop :=
  0 ≤ c ∧ c < t.max_cache ∧ compEnabled t idx_cache c.toNat = true

/-- Local components of the enabled deposited entries. -/
def isDeposComp (t : Template) (idx_depos : Nat → Int) (c : Int) : Prop :=
  (t.max_cache : Int) ≤ c ∧ c < t.max_cache + t.max_depos ∧
    compEnabled t idx_depos (c - t.max_cache).toNat = true

/-- Cells of the view `shared_arr` of a block: `[tile_begin, tile_end)` in both directions. -/
def inTileRange (t : Template) (box : Box) (tile_id x y : Int) : Prop :=
  tile_begin_x box tile_id ≤ x ∧ x < tile_end_x t box tile_id ∧
    tile_begin_y box tile_id ≤ y ∧ y < tile_end_y t box tile_id

instance (t : Template) (box : Box) (tile_id x y : Int) :
    Decidable (inTileRange t box tile_id x y) := by
  unfold inTileRange; infer_instance

/-- What the fold back adds to component `c` of the field at a cell of the tile. -/
def scratchSum {R : Type} [Add R] [Zero R] (t : Template) (idx_depos : Nat → Int)
    (shared_arr : Field R) (x y c : Int) : R :=
  ((List.range t.max_depos).map (fun n =>
    if compEnabled t idx_depos n = true ∧ idx_depos n = c then
      shared_arr x y (n + t.max_cache) else 0)).sum

/-- The loop values of the staging and fold back loops of all threads of a block. -/
def blockSlots (t : Template) : List Int :=
  (forRange 0 threads_per_tile 1).flatMap
    (fun thread => forRange thread (tile_s_x t * tile_s_y t) threads_per_tile)

/-- Shared memory tile of a block after its threads have walked their lists, `l` being the
particles they walk in the order of the model. -/
def blockScratch {R : Type} [Zero R] (t : Template) (box : Box) (do_deposit : DepositFn R)
    (idx_cache idx_depos : Nat → Int) (l : List Nat) (shared_ptr field : Field R)
    (tile_id : Int) : Field R :=
  l.foldl
    (fun sh ip => do_deposit ip sh (loc_idx_cache t idx_cache) (loc_idx_depos t idx_depos))
    (stageBlock t box idx_cache idx_depos field tile_id shared_ptr)

/-- Field after the blocks of the deposition kernel, block `T` depositing the particles
`L T`. -/
def blocksResult {R : Type} [Add R] [Zero R] (t : Template) (box : Box)
    (do_deposit : DepositFn R) (idx_cache idx_depos : Nat → Int) (L : Int → List Nat)
    (shared_ptr : Int → Field R) (field : Field R) : Field R :=
  (forRange 0 (ntile_x box * ntile_y box) 1).foldl
    (fun f T => foldBackBlock t box idx_depos
      (blockScratch t box do_deposit idx_cache idx_depos (L T) (shared_ptr T) f T) T f) field

/-- Field components named by an enabled entry of `idx_depos`. -/
def isDeposited (t : Template) (idx_depos : Nat → Int) (c : Int) : Prop :=
  ∃ n, n < t.max_depos ∧ compEnabled t idx_depos n = true ∧ idx_depos n = c

/-- Membership of a cell in the stencil footprint of particle `ip`. -/
def inFootprint (t : Template) (p : Particles) (ip : Nat) (x y : Int) : Prop :=
  (p.get_start_cell ip).1 ≤ x ∧ x < (p.get_start_cell ip).1 + t.stencil_x ∧
    (p.get_start_cell ip).2 ≤ y ∧ y < (p.get_start_cell ip).2 + t.stencil_y

instance (t : Template) (p : Particles) (ip : Nat) (x y : Int) :
    Decidable (inFootprint t p ip x y) := by
  unfold inFootprint; infer_instance

/-- The stencil footprint of every valid particle lies inside the box. -/
def FootprintsInBox (t : Template) (p : Particles) (box : Box) : Prop :=
  ∀ ip, ip < p.num_particles → p.is_valid ip = true →
    box.contains (p.get_start_cell ip).1 (p.get_start_cell ip).2 ∧
    box.contains ((p.get_start_cell ip).1 + t.stencil_x - 1)
      ((p.get_start_cell ip).2 + t.stencil_y - 1)

/-- Three particles on a row of a four by two box; particle 1 is not valid. -/
def demoParticles : Particles :=
  { num_particles := 3, is_valid := fun ip => ip != 1, get_start_cell := fun ip => ((ip : Int), 0) }

def demoBox : Box := { lo_x := 0, lo_y := 0, hi_x := 3, hi_y := 1 }

/-- One deposited and one cached entry, stencil of a single cell, components can be disabled. -/
def demoTemplate : Template :=
  { stencil_x := 1, stencil_y := 1, dynamic_comps := true, max_depos := 1, max_cache := 1 }

/-- Two valid particles with start cell `(0, 0)`. -/
def pairParticles : Particles :=
  { num_particles := 2, is_valid := fun _ => true, get_start_cell := fun _ => (0, 0) }

/-- The box of the single cell `(0, 0)`. -/
def cellBox : Box := { lo_x := 0, lo_y := 0, hi_x := 0, hi_y := 0 }

/-- Weights of a functor that deposits what it reads in cached entry 0 of its cell. -/
def readWeight : Nat → (Nat → Int → Int → Int) → Nat → Int → Int → Int :=
  fun _ readings _ _ _ => readings 0 0 0

/-- A box of 22 by 6 cells: the cells `0 .. 19` by `0 .. 3` and one guard cell around them. -/
def guardedBox : Box := { lo_x := -1, lo_y := -1, hi_x := 20, hi_y := 4 }

/-- One particle for each of the 80 cells `0 .. 19` by `0 .. 3`; the three by three stencil of
the particle of cell `(i, j)` starts at `(i - 1, j - 1)`. -/
def gridParticles : Particles :=
  { num_particles := 80, is_valid := fun _ => true
    get_start_cell := fun ip => ((ip : Int) % 20 - 1, (ip : Int) / 20 - 1) }

def gridTemplate : Template :=
  { stencil_x := 3, stencil_y := 3, dynamic_comps := false, max_depos := 1, max_cache := 0 }

/-- Three particles, none of them valid. -/
def idleParticles : Particles :=
  { num_particles := 3, is_valid := fun _ => false, get_start_cell := fun _ => (0, 0) }

/-- A `do_deposit` that overwrites the whole array with 42. -/
def eraseDeposit : DepositFn Int := fun _ _ _ _ => fun _ _ _ => 42

/-- An instantiation with `dynamic_comps = false`. -/
def staticTemplate : Template :=
  { stencil_x := 1, stencil_y := 1, dynamic_comps := false, max_depos := 1, max_cache := 1 }

/-- The result of running one strategy. -/
def runStrategy {R : Type} [Add R] [Zero R] (s : Strategy) (h : Settings)
    (t : Template) (p : Particles) (do_deposit : DepositFn R) (field : Field R) (box : Box)
    (idx_cache idx_depos : Nat → Int) (order : List Nat) (shared_ptr : Int → Field R) :
    Except DepositError (Field R) :=
  match s with
  | Strategy.shared_memory =>
    match sharedPath t p box do_deposit idx_cache idx_depos order shared_ptr field with
    | some f => .ok f
    | none => .error .list_walk_failed
  | Strategy.tiling => tiledPath t h.m_tile_size p box do_deposit idx_cache idx_depos field
  | Strategy.simple_loop => .ok (fallbackPath p do_deposit idx_cache idx_depos field)

/-- Two particles with start cells `(0, 0)` and `(8, 0)`. -/
def farParticles : Particles :=
  { num_particles := 2, is_valid := fun _ => true, get_start_cell := fun ip => (8 * (ip : Int), 0) }

/-- Six particles with start cell `(0, 0)`, particle 3 invalid. -/
def stackedParticles : Particles :=
  { num_particles := 6, is_valid := fun ip => ip != 3, get_start_cell := fun _ => (0, 0) }

/-- The cells staged by a block, in the order of the model: the cells of the loop values of
its threads that pass the test `sx <= hi_x && sy <= hi_y`. -/
def stagedCells (t : Template) (box : Box) (tile_id : Int) : List (Int × Int) :=
  ((blockSlots t).map (slotCell t box tile_id)).filter
    (fun c => decide (c.1 ≤ box.hi_x ∧ c.2 ≤ box.hi_y))

/-- Modelled from the spec: `Array3` (`utils/GPUUtil.H`) and the `amrex::Array4` it wraps are
not among the sources.  A view over the cells `[begin, end)` with `ncomp` components is
addressable storage in which entry `(i, j, n)` lies at offset
`(i - begin_x) + (j - begin_y) * jstride + n * nstride` from the pointer of the view, with
`jstride = end_x - begin_x` and `nstride = jstride * (end_y - begin_y)`. -/
def array3Offset (begin_x begin_y end_x end_y : Int) (i j n : Int) : Int :=
  (i - begin_x) + (j - begin_y) * (end_x - begin_x)
    + n * ((end_x - begin_x) * (end_y - begin_y))

/-- Offset in `shared_ptr` of entry `(i, j, n)` of the view `shared_arr` of a block. -/
def sharedOffset (t : Template) (box : Box) (tile_id i j n : Int) : Int :=
  array3Offset (tile_begin_x box tile_id) (tile_begin_y box tile_id)
    (tile_end_x t box tile_id) (tile_end_y t box tile_id) i j n

/-- Number of entries of `shared_ptr`, `tile_s_x * tile_s_y * (max_cache + max_depos)`. -/
def shared_ptr_size (t : Template) : Int :=
  tile_s_x t * tile_s_y t * (t.max_cache + t.max_depos)

/-- The tiles of the colour `(tile_perm_x, tile_perm_y)` in the order of the two inner tile
loops of the four colour loop. -/
def colourClass (ntx nty tile_perm_x tile_perm_y : Int) : List (Int × Int) :=
  (forRange tile_perm_x ntx 2).flatMap (fun itile_x =>
    (forRange tile_perm_y nty 2).map (fun itile_y => (itile_x, itile_y)))

/-- The loop over the particles of tile `a = (itile_x, itile_y)`, the innermost loop of the
four colour loop. -/
def tileLoop {σ : Type} (body : Nat → σ → σ) (p : Particles) (box : Box) (tile : Int)
    (a : Int × Int) (s : σ) : σ :=
  let ntx := host_ntile_x box tile
  let nty := host_ntile_y box tile
  let nbins := (ntx * nty + 1).toNat
  let a_indices := binsPermutation p.num_particles nbins (hostBin p box tile)
  let a_offsets := binsOffsets p.num_particles (hostBin p box tile)
  let tile_id := a.1 * nty + a.2
  (forRange (a_offsets tile_id.toNat) (a_offsets (tile_id + 1).toNat) 1).foldl
    (fun s ip => body (a_indices.getD ip.toNat 0) s) s

/-- The four colour loop with the tiles of colour `(tile_perm_x, tile_perm_y)` handled in the
order `orders tile_perm_x tile_perm_y`. -/
def tiledLoopIn {σ : Type} (orders : Int → Int → List (Int × Int)) (body : Nat → σ → σ)
    (p : Particles) (box : Box) (tile : Int) (s : σ) : σ :=
  (forRange 0 2 1).foldl (fun s tile_perm_x =>
    (forRange 0 2 1).foldl (fun s tile_perm_y =>
      (orders tile_perm_x tile_perm_y).foldl (fun s a => tileLoop body p box tile a s) s) s) s

/-- A deposit step (`D ip f` is the field after the call for particle `ip` on the field `f`)
that reads and writes the field only inside the stencil footprint of its particle: outside
the footprint the field is unchanged, and inside it the result depends only on what the field
held inside the footprint. -/
def LocalToFootprint {R : Type} (t : Template) (p : Particles) (D : Nat → Field R → Field R) :
    Prop :=
  ∀ ip,
    (∀ (f : Field R) x y c, ¬ inFootprint t p ip x y → D ip f x y c = f x y c) ∧
    (∀ (f g : Field R), (∀ x y c, inFootprint t p ip x y → f x y c = g x y c) →
      ∀ x y c, inFootprint t p ip x y → D ip f x y c = D ip g x y c)

/-- A three by three stencil with one cached and one deposited entry. -/
def cachedGridTemplate : Template :=
  { stencil_x := 3, stencil_y := 3, dynamic_comps := false, max_depos := 1, max_cache := 1 }

/-- The content of the linked lists after the binning kernel has handled one more particle,
`lists h` being the particles reachable from head `h` before: a valid particle is prepended to
the list of its head. -/
def nextLists (p : Particles) (box : Box) (ip : Nat) (st : LinkedLists)
    (lists : Int → List Nat) : Int → List Nat :=
  if p.is_valid ip then
    Function.update lists
      (headIndex box (p.get_start_cell ip) (st.ll_count (countIndex box (p.get_start_cell ip))))
      (ip :: lists (headIndex box (p.get_start_cell ip)
        (st.ll_count (countIndex box (p.get_start_cell ip)))))
  else lists

/-- The binning kernel together with the content of its lists. -/
def binGhost (p : Particles) (box : Box) (order : List Nat) :
    LinkedLists × (Int → List Nat) :=
  order.foldl (fun g ip => (binParticle p box ip g.1, nextLists p box ip g.1 g.2))
    (LinkedLists.init, fun _ => [])

/-- Valid particles that use the counter `s`. -/
def usesCounter (p : Particles) (box : Box) (s : Int) (ip : Nat) : Bool :=
  p.is_valid ip && decide (countIndex box (p.get_start_cell ip) = s)

/-- Valid particles of tile `T` whose cell id inside the tile is `r` modulo 64. -/
def inResidueClass (p : Particles) (box : Box) (T r : Int) (ip : Nat) : Bool :=
  p.is_valid ip && (decide (binTile box (p.get_start_cell ip) = T) &&
    decide (binLocId box (p.get_start_cell ip) % 64 = r))

/-- What the binning kernel has built after the particles `done`, with the counters: every
counter holds the number of particles that used it, and the four lists of a counter have the
lengths of a round robin distribution. -/
structure RoundRobinInv (p : Particles) (box : Box) (done : List Nat) (st : LinkedLists)
    (lists : Int → List Nat) : Prop where
  chain : ∀ h, Chain st.ll_next (st.ll_start h) (lists h)
  mem_done : ∀ h ip, ip ∈ lists h → ip ∈ done
  count_eq : ∀ s, st.ll_count s = ((done.filter (usesCounter p box s)).length : Int)
  length_eq : ∀ T r j : Int, 0 ≤ r → r < 64 → 0 ≤ j → j < 4 →
    ((lists (T * 256 + r + j * 64)).length : Int) = (st.ll_count (T * 64 + r) + 3 - j) / 4

/-! # Theorems -/

/-! ## Loops as lists -/

theorem forLoop_ge (bound stride : Int) (hs : 0 < stride) :
    ∀ (fuel : Nat) (start x : Int), x ∈ forLoop bound stride fuel start → start ≤ x := by
  intro fuel
  induction fuel with
  | zero => intro start x hx; simp [forLoop] at hx
  | succ k ih =>
    intro start x hx
    unfold forLoop at hx
    split at hx
    · rcases List.mem_cons.1 hx with h | h
      · omega
      · have := ih _ _ h; omega
    · simp at hx

theorem mem_forLoop (bound stride : Int) (hs : 0 < stride) :
    ∀ (fuel : Nat) (start x : Int), (bound - start).toNat ≤ fuel →
      (x ∈ forLoop bound stride fuel start ↔
        start ≤ x ∧ x < bound ∧ stride ∣ (x - start)) := by
  intro fuel
  induction fuel with
  | zero =>
    intro start x hf
    simp only [forLoop, List.not_mem_nil, false_iff]
    omega
  | succ k ih =>
    intro start x hf
    unfold forLoop
    split
    · rename_i hlt
      rw [List.mem_cons, ih (start + stride) x (by omega)]
      constructor
      · rintro (h | ⟨h1, h2, h3⟩)
        · subst h; simp [hlt]
        · refine ⟨by omega, h2, ?_⟩
          have : x - start = (x - (start + stride)) + stride := by ring
          rw [this]; exact dvd_add h3 (dvd_refl _)
      · rintro ⟨h1, h2, h3⟩
        by_cases hx : x = start
        · exact Or.inl hx
        · right
          have hpos : 0 < x - start := by omega
          have hle : stride ≤ x - start := Int.le_of_dvd hpos h3
          refine ⟨by omega, h2, ?_⟩
          have : x - (start + stride) = (x - start) - stride := by ring
          rw [this]; exact dvd_sub h3 (dvd_refl _)
    · rename_i hlt
      simp only [List.not_mem_nil, false_iff]
      omega

theorem mem_forRange (start bound stride : Int) (hs : 0 < stride) (x : Int) :
    x ∈ forRange start bound stride ↔ start ≤ x ∧ x < bound ∧ stride ∣ (x - start) :=
  mem_forLoop bound stride hs _ start x (le_refl _)

theorem mem_forRange_one (start bound x : Int) :
    x ∈ forRange start bound 1 ↔ start ≤ x ∧ x < bound := by
  rw [mem_forRange start bound 1 (by decide)]
  simp

theorem nodup_forLoop (bound stride : Int) (hs : 0 < stride) :
    ∀ (fuel : Nat) (start : Int), (forLoop bound stride fuel start).Nodup := by
  intro fuel
  induction fuel with
  | zero => intro start; simp [forLoop]
  | succ k ih =>
    intro start
    unfold forLoop
    split
    · refine List.nodup_cons.2 ⟨?_, ih _⟩
      intro h
      have := forLoop_ge bound stride hs _ _ _ h
      omega
    · exact List.nodup_nil

theorem nodup_forRange (start bound stride : Int) (hs : 0 < stride) :
    (forRange start bound stride).Nodup :=
  nodup_forLoop bound stride hs _ _

/-- A loop with unit stride over naturals is `List.range'`. -/
theorem forLoop_one_nat : ∀ (fuel a b : Nat), b - a ≤ fuel →
    (forLoop (b : Int) 1 fuel (a : Int)).map Int.toNat = List.range' a (b - a) := by
  intro fuel
  induction fuel with
  | zero =>
    intro a b h
    have : b - a = 0 := by omega
    simp [forLoop, this]
  | succ k ih =>
    intro a b h
    unfold forLoop
    split
    · rename_i hlt
      have hab : a < b := by exact_mod_cast hlt
      have h1 : b - a = (b - (a + 1)) + 1 := by omega
      have h2 : ((a : Int) + 1) = ((a + 1 : Nat) : Int) := by push_cast; ring
      rw [List.map_cons, h2, ih (a + 1) b (by omega), h1, List.range'_succ]
      simp
    · rename_i hlt
      have hab : ¬ a < b := by exact_mod_cast hlt
      have : b - a = 0 := by omega
      simp [this]

theorem forRange_one_nat (a b : Nat) :
    (forRange (a : Int) (b : Int) 1).map Int.toNat = List.range' a (b - a) := by
  apply forLoop_one_nat
  omega

/-! ## Folds -/

theorem foldl_flatMap {α β σ : Type} (g : α → List β) (f : σ → β → σ) :
    ∀ (l : List α) (s : σ),
      l.foldl (fun s a => (g a).foldl f s) s = (l.flatMap g).foldl f s := by
  intro l
  induction l with
  | nil => intro s; rfl
  | cons a l ih => intro s; simp [List.flatMap_cons, List.foldl_append, ih]

theorem foldl_map' {α β σ : Type} (g : α → β) (f : σ → β → σ) :
    ∀ (l : List α) (s : σ), l.foldl (fun s a => f s (g a)) s = (l.map g).foldl f s := by
  intro l
  induction l with
  | nil => intro s; rfl
  | cons a l ih => intro s; simp [ih]

theorem foldl_filter' {α σ : Type} (q : α → Bool) (f : σ → α → σ) :
    ∀ (l : List α) (s : σ),
      l.foldl (fun s a => if q a then f s a else s) s = (l.filter q).foldl f s := by
  intro l
  induction l with
  | nil => intro s; rfl
  | cons a l ih =>
    intro s
    by_cases h : q a = true <;> simp [List.filter_cons, h, ih]

theorem foldl_log {α : Type} : ∀ (l acc : List α),
    l.foldl (fun acc a => acc ++ [a]) acc = acc ++ l := by
  intro l
  induction l with
  | nil => intro acc; simp
  | cons a l ih => intro acc; simp [ih]

theorem foldlM_some {α σ : Type} (f : σ → α → Option σ) (g : σ → α → σ) :
    ∀ (l : List α) (s : σ), (∀ a ∈ l, ∀ s, f s a = some (g s a)) →
      l.foldlM f s = some (l.foldl g s) := by
  intro l
  induction l with
  | nil => intro s _; rfl
  | cons a l ih =>
    intro s h
    rw [List.foldlM_cons, h a (List.mem_cons_self _ _) s]
    simp only [Option.some_bind, Option.bind_eq_bind, List.foldl_cons]
    exact ih _ (fun b hb s => h b (List.mem_cons_of_mem _ hb) s)

theorem Chain.update {next : Nat → Option Nat} {ip : Nat} (v : Option Nat) :
    ∀ {l : List Nat} {cur : Nat}, Chain next cur l → ip ∉ l →
      Chain (Function.update next ip v) cur l := by
  intro l
  induction l with
  | nil => intro cur h _; exact h
  | cons a l ih =>
    intro cur h hn
    obtain ⟨h1, h2, nx, h3, h4⟩ := h
    have hne : a ≠ ip := fun e => hn (e ▸ List.mem_cons_self _ _)
    refine ⟨h1, h2, nx, ?_, ih h4 (fun hm => hn (List.mem_cons_of_mem _ hm))⟩
    rw [Function.update_noteq hne]; exact h3

theorem BinInv.init (p : Particles) (box : Box) :
    BinInv p box [] LinkedLists.init (fun _ => []) where
  chain := fun _ => rfl
  mem_done := fun _ _ h => by simp at h
  head := fun _ _ h => by simp at h
  complete := fun _ h => by simp at h
  nodup := fun _ => List.nodup_nil
  disjoint := fun _ _ _ h => by simp at h
  count_nonneg := fun _ => le_refl _

theorem BinInv.step {p : Particles} {box : Box} {done : List Nat} {st : LinkedLists}
    {lists : Int → List Nat} (inv : BinInv p box done st lists) (ip : Nat)
    (hfresh : ip ∉ done) (hg : ip ≠ ll_guard) :
    ∃ lists', BinInv p box (done ++ [ip]) (binParticle p box ip st) lists' := by
  by_cases hv : p.is_valid ip = true
  · set cell := p.get_start_cell ip with hcell
    set count := st.ll_count (countIndex box cell) with hcount
    set head := headIndex box cell count with hhead
    have hnot : ∀ h, ip ∉ lists h := fun h hm => hfresh (inv.mem_done h ip hm).1
    refine ⟨Function.update lists head (ip :: lists head), ?_⟩
    have hst : binParticle p box ip st =
        { ll_count := Function.update st.ll_count (countIndex box cell) (count + 1)
          ll_next := Function.update st.ll_next ip (some (st.ll_start head))
          ll_start := Function.update st.ll_start head ip } := by
      simp [binParticle, hv, hcell, hcount, hhead]
    rw [hst]
    constructor
    · intro h
      by_cases hh : h = head
      · subst hh
        simp only [Function.update_same]
        exact ⟨rfl, hg, st.ll_start head, by simp, (inv.chain head).update _ (hnot head)⟩
      · simp only [Function.update_noteq hh]
        exact (inv.chain h).update _ (hnot h)
    · intro h q hq
      by_cases hh : h = head
      · subst hh
        simp only [Function.update_same, List.mem_cons] at hq
        rcases hq with rfl | hq
        · exact ⟨by simp, hv⟩
        · exact ⟨List.mem_append_left _ (inv.mem_done head q hq).1, (inv.mem_done head q hq).2⟩
      · simp only [Function.update_noteq hh] at hq
        exact ⟨List.mem_append_left _ (inv.mem_done h q hq).1, (inv.mem_done h q hq).2⟩
    · intro h q hq
      by_cases hh : h = head
      · subst hh
        simp only [Function.update_same, List.mem_cons] at hq
        rcases hq with rfl | hq
        · exact ⟨count, inv.count_nonneg _, rfl⟩
        · exact inv.head head q hq
      · simp only [Function.update_noteq hh] at hq
        exact inv.head h q hq
    · intro q hq hqv
      rcases List.mem_append.1 hq with hq | hq
      · obtain ⟨h, hm⟩ := inv.complete q hq hqv
        refine ⟨h, ?_⟩
        by_cases hh : h = head
        · subst hh; simp [hm]
        · simp [Function.update_noteq hh, hm]
      · have : q = ip := by simpa using hq
        subst this
        exact ⟨head, by simp⟩
    · intro h
      by_cases hh : h = head
      · subst hh
        simp only [Function.update_same]
        exact List.nodup_cons.2 ⟨hnot head, inv.nodup head⟩
      · simp only [Function.update_noteq hh]
        exact inv.nodup h
    · intro h h' q hq hq'
      by_cases hh : h = head <;> by_cases hh' : h' = head
      · rw [hh, hh']
      · subst hh
        simp only [Function.update_same, List.mem_cons, Function.update_noteq hh'] at hq hq'
        rcases hq with rfl | hq
        · exact absurd hq' (hnot h')
        · exact inv.disjoint _ _ q hq hq'
      · subst hh'
        simp only [Function.update_same, List.mem_cons, Function.update_noteq hh] at hq hq'
        rcases hq' with rfl | hq'
        · exact absurd hq (hnot h)
        · exact inv.disjoint _ _ q hq hq'
      · simp only [Function.update_noteq hh, Function.update_noteq hh'] at hq hq'
        exact inv.disjoint _ _ q hq hq'
    · intro i
      by_cases hi : i = countIndex box cell
      · subst hi
        simp only [Function.update_same]
        have := inv.count_nonneg (countIndex box cell)
        omega
      · simp only [Function.update_noteq hi]
        exact inv.count_nonneg i
  · refine ⟨lists, ?_⟩
    have hst : binParticle p box ip st = st := by simp [binParticle, hv]
    rw [hst]
    exact
      { chain := inv.chain
        mem_done := fun h q hq =>
          ⟨List.mem_append_left _ (inv.mem_done h q hq).1, (inv.mem_done h q hq).2⟩
        head := inv.head
        complete := fun q hq hqv => by
          rcases List.mem_append.1 hq with hq | hq
          · exact inv.complete q hq hqv
          · have : q = ip := by simpa using hq
            subst this
            exact absurd hqv hv
        nodup := inv.nodup
        disjoint := inv.disjoint
        count_nonneg := inv.count_nonneg }

theorem buildLinkedLists_inv (p : Particles) (box : Box) :
    ∀ (order : List Nat), order.Nodup → (∀ ip ∈ order, ip ≠ ll_guard) →
      ∃ lists, BinInv p box order (buildLinkedLists p box order) lists := by
  intro order
  induction order using List.reverseRecOn with
  | nil => intro _ _; exact ⟨_, BinInv.init p box⟩
  | append_singleton l a ih =>
    intro hnd hg
    have hnd' := List.nodup_append.1 hnd
    obtain ⟨lists, inv⟩ := ih hnd'.1 (fun ip hip => hg ip (List.mem_append_left _ hip))
    have hfresh : a ∉ l := fun hm => hnd'.2.2 hm (List.mem_singleton_self a)
    have := inv.step a hfresh (hg a (by simp))
    simpa [buildLinkedLists, List.foldl_append] using this

/-- A walk along a chain calls `body` on its particles in order and ends. -/
theorem walkList_chain {σ : Type} (body : Nat → σ → σ) (next : Nat → Option Nat) :
    ∀ (l : List Nat) (fuel cur : Nat) (s : σ), Chain next cur l → l.length ≤ fuel →
      walkList body next fuel cur s = some (l.foldl (fun s ip => body ip s) s) := by
  intro l
  induction l with
  | nil =>
    intro fuel cur s hc _
    have : cur = ll_guard := hc
    cases fuel <;> simp [walkList, this]
  | cons a l ih =>
    intro fuel cur s hc hlen
    obtain ⟨h1, h2, nx, h3, h4⟩ := hc
    subst h1
    cases fuel with
    | zero => simp at hlen
    | succ k =>
      simp only [walkList, h2, if_false, h3, List.foldl_cons]
      exact ih k nx _ h4 (by simpa using hlen)

/-! ## Tile arithmetic of the GPU strategy -/

theorem tdiv16 {a : Int} (h : 0 ≤ a) : a.tdiv 16 = a / 16 :=
  Int.tdiv_eq_ediv h (by decide)

theorem ntile_x_eq {box : Box} (h : 0 ≤ box.length0) : ntile_x box = (box.length0 + 15) / 16 := by
  unfold ntile_x
  rw [show box.length0 + tile_x - 1 = box.length0 + 15 by simp [tile_x]; ring]
  exact Int.tdiv_eq_ediv (by omega) (by decide)

theorem ntile_y_eq {box : Box} (h : 0 ≤ box.length1) : ntile_y box = (box.length1 + 15) / 16 := by
  unfold ntile_y
  rw [show box.length1 + tile_y - 1 = box.length1 + 15 by simp [tile_y]; ring]
  exact Int.tdiv_eq_ediv (by omega) (by decide)

/-- Tile coordinates of a cell of the box. -/
theorem cell_tile_bounds {box : Box} {cell : Int × Int} (hc : box.contains cell.1 cell.2) :
    (cell.1 - box.lo_x).tdiv tile_x = (cell.1 - box.lo_x) / 16 ∧
    (cell.2 - box.lo_y).tdiv tile_y = (cell.2 - box.lo_y) / 16 ∧
    0 ≤ (cell.1 - box.lo_x) / 16 ∧ (cell.1 - box.lo_x) / 16 < ntile_x box ∧
    0 ≤ (cell.2 - box.lo_y) / 16 ∧ (cell.2 - box.lo_y) / 16 < ntile_y box := by
  obtain ⟨h1, h2, h3, h4⟩ := hc
  have hx : ntile_x box = (box.length0 + 15) / 16 := ntile_x_eq (by unfold Box.length0; omega)
  have hy : ntile_y box = (box.length1 + 15) / 16 := ntile_y_eq (by unfold Box.length1; omega)
  rw [hx, hy]
  unfold Box.length0 Box.length1
  refine ⟨tdiv16 (by omega), tdiv16 (by omega), ?_, ?_, ?_, ?_⟩ <;> omega

theorem binTile_eq {box : Box} {cell : Int × Int} (hc : box.contains cell.1 cell.2) :
    binTile box cell = (cell.1 - box.lo_x) / 16 + (cell.2 - box.lo_y) / 16 * ntile_x box := by
  obtain ⟨h1, h2, -⟩ := cell_tile_bounds hc
  simp only [binTile, h1, h2]

theorem binTile_bounds {box : Box} {cell : Int × Int} (hc : box.contains cell.1 cell.2) :
    0 ≤ binTile box cell ∧ binTile box cell < ntile_x box * ntile_y box := by
  obtain ⟨-, -, h3, h4, h5, h6⟩ := cell_tile_bounds hc
  rw [binTile_eq hc]
  constructor
  · have : 0 ≤ (cell.2 - box.lo_y) / 16 * ntile_x box := mul_nonneg h5 (by omega)
    omega
  · have : ((cell.2 - box.lo_y) / 16 + 1) * ntile_x box ≤ ntile_y box * ntile_x box :=
      mul_le_mul_of_nonneg_right (by omega) (by omega)
    nlinarith

theorem tile_id_x_binTile {box : Box} {cell : Int × Int} (hc : box.contains cell.1 cell.2) :
    tile_id_x box (binTile box cell) = (cell.1 - box.lo_x) / 16 := by
  obtain ⟨-, -, h3, h4, h5, h6⟩ := cell_tile_bounds hc
  have hb := binTile_bounds hc
  unfold tile_id_x
  rw [Int.tmod_eq_emod hb.1 (by omega), binTile_eq hc, Int.add_mul_emod_self]
  exact Int.emod_eq_of_lt h3 h4

theorem tile_id_y_binTile {box : Box} {cell : Int × Int} (hc : box.contains cell.1 cell.2) :
    tile_id_y box (binTile box cell) = (cell.2 - box.lo_y) / 16 := by
  obtain ⟨-, -, h3, h4, h5, h6⟩ := cell_tile_bounds hc
  have hb := binTile_bounds hc
  unfold tile_id_y
  rw [Int.tdiv_eq_ediv hb.1 (by omega), binTile_eq hc,
    Int.add_mul_ediv_right _ _ (by omega), Int.ediv_eq_zero_of_lt h3 h4]
  simp

/-- The start cell of a particle lies in the sixteen by sixteen core of its tile. -/
theorem tile_begin_binTile {box : Box} {cell : Int × Int} (hc : box.contains cell.1 cell.2) :
    tile_begin_x box (binTile box cell) ≤ cell.1 ∧
    cell.1 < tile_begin_x box (binTile box cell) + 16 ∧
    tile_begin_y box (binTile box cell) ≤ cell.2 ∧
    cell.2 < tile_begin_y box (binTile box cell) + 16 := by
  unfold tile_begin_x tile_begin_y
  rw [tile_id_x_binTile hc, tile_id_y_binTile hc]
  obtain ⟨h1, h2, h3, h4⟩ := hc
  simp only [tile_x, tile_y]
  omega

theorem binLocId_bounds {box : Box} {cell : Int × Int} (hc : box.contains cell.1 cell.2) :
    0 ≤ binLocId box cell ∧ binLocId box cell < 256 := by
  obtain ⟨h1, h2, -⟩ := cell_tile_bounds hc
  obtain ⟨g1, g2, g3, g4⟩ := hc
  simp only [binLocId, h1, h2, tile_x, tile_y]
  omega

/-- The list head of a particle belongs to the block of its tile. -/
theorem headIndex_bounds {box : Box} {cell : Int × Int} (hc : box.contains cell.1 cell.2)
    {c : Int} (h0 : 0 ≤ c) :
    binTile box cell * 256 ≤ headIndex box cell c ∧
    headIndex box cell c < binTile box cell * 256 + 256 := by
  obtain ⟨l1, l2⟩ := binLocId_bounds hc
  have e1 : (binLocId box cell).tmod combine_stride = binLocId box cell % 64 :=
    Int.tmod_eq_emod l1 (by decide)
  have e2 : c.tmod combine_threads = c % 4 := Int.tmod_eq_emod h0 (by decide)
  unfold headIndex
  rw [e1, e2]
  simp only [threads_per_tile, combine_stride, combine_threads]
  omega

/-! ## The lists walked by the blocks -/

theorem nodup_length_le_of_perm_range {l order : List Nat} {n : Nat} (hl : l.Nodup)
    (hsub : ∀ ip ∈ l, ip ∈ order) (hperm : order.Perm (List.range n)) : l.length ≤ n := by
  have h1 : l.Subperm order := List.subperm_of_subset hl hsub
  have h2 := h1.length_le
  have h3 := hperm.length_eq
  simp at h3
  omega

/-- The particles walked by each block of the deposition kernel. -/
theorem shared_lists_exist (p : Particles) (box : Box) (order : List Nat)
    (horder : order.Perm (List.range p.num_particles)) (hn : p.num_particles ≤ ll_guard) :
    ∃ L : Int → List Nat,
      (∀ (σ : Type) (body : Nat → σ → σ) (s : σ) (T : Int),
        walkThreads body (buildLinkedLists p box order) p.num_particles T s =
          some ((L T).foldl (fun s ip => body ip s) s)) ∧
      (∀ T ip, ip ∈ L T → ip < p.num_particles ∧ p.is_valid ip = true) ∧
      (StartCellsInBox p box →
        (∀ T ip, ip ∈ L T → binTile box (p.get_start_cell ip) = T) ∧
        ((forRange 0 (ntile_x box * ntile_y box) 1).flatMap L).Perm
          ((List.range p.num_particles).filter p.is_valid)) := by
  have hmem : ∀ ip, ip ∈ order ↔ ip < p.num_particles := fun ip => by
    rw [horder.mem_iff]; simp
  have hnd : order.Nodup := horder.nodup_iff.2 (List.nodup_range _)
  obtain ⟨lists, inv⟩ := buildLinkedLists_inv p box order hnd
    (fun ip hip => by have := (hmem ip).1 hip; omega)
  have hvalid : ∀ h ip, ip ∈ lists h → ip < p.num_particles ∧ p.is_valid ip = true := by
    intro h ip hip
    obtain ⟨h1, h2⟩ := inv.mem_done h ip hip
    exact ⟨(hmem ip).1 h1, h2⟩
  refine ⟨fun T => (forRange 0 threads_per_tile 1).flatMap
      (fun thread => lists (T * threads_per_tile + thread)), ?_, ?_, ?_⟩
  · intro σ body s T
    unfold walkThreads
    rw [foldlM_some _ (fun s thread =>
      (lists (T * threads_per_tile + thread)).foldl (fun s ip => body ip s) s)]
    · rw [foldl_flatMap]
    · intro thread _ s
      apply walkList_chain _ _ _ _ _ _ (inv.chain _)
      exact nodup_length_le_of_perm_range (inv.nodup _)
        (fun ip hip => (inv.mem_done _ ip hip).1) horder
  · intro T ip hip
    obtain ⟨thread, -, hip⟩ := List.mem_flatMap.1 hip
    exact hvalid _ ip hip
  · intro hbox
    have hlist : ∀ h ip, ip ∈ lists h →
        binTile box (p.get_start_cell ip) * 256 ≤ h ∧
        h < binTile box (p.get_start_cell ip) * 256 + 256 := by
      intro h ip hip
      obtain ⟨h1, h2⟩ := hvalid h ip hip
      obtain ⟨c, hc0, hc⟩ := inv.head h ip hip
      have := headIndex_bounds (hbox ip h1 h2) hc0
      rw [hc]
      exact this
    have key : ∀ T ip, ip ∈ (forRange 0 threads_per_tile 1).flatMap
        (fun thread => lists (T * threads_per_tile + thread)) →
          binTile box (p.get_start_cell ip) = T := by
      intro T ip hip
      obtain ⟨thread, hth, hip⟩ := List.mem_flatMap.1 hip
      rw [mem_forRange_one] at hth
      obtain ⟨h3, h4⟩ := hlist _ ip hip
      simp only [threads_per_tile] at h3 h4 hth
      omega
    refine ⟨key, ?_⟩
    rw [List.perm_ext_iff_of_nodup]
    · intro ip
      rw [List.mem_flatMap, List.mem_filter, List.mem_range]
      constructor
      · rintro ⟨T, -, hT⟩
        obtain ⟨thread, -, hip⟩ := List.mem_flatMap.1 hT
        exact hvalid _ ip hip
      · rintro ⟨h1, h2⟩
        obtain ⟨h, hh⟩ := inv.complete ip ((hmem ip).2 h1) h2
        obtain ⟨h3, h4⟩ := hlist h ip hh
        have hb := binTile_bounds (hbox ip h1 h2)
        refine ⟨binTile box (p.get_start_cell ip), ?_, ?_⟩
        · rw [mem_forRange_one]; exact hb
        · rw [List.mem_flatMap]
          refine ⟨h - binTile box (p.get_start_cell ip) * 256, ?_, ?_⟩
          · rw [mem_forRange_one]; simp only [threads_per_tile]; omega
          · have : binTile box (p.get_start_cell ip) * threads_per_tile +
                (h - binTile box (p.get_start_cell ip) * 256) = h := by
              simp only [threads_per_tile]; ring
            rw [this]; exact hh
    · rw [List.nodup_flatMap]
      constructor
      · intro T _
        rw [List.nodup_flatMap]
        refine ⟨fun thread _ => inv.nodup _, ?_⟩
        refine (nodup_forRange 0 threads_per_tile 1 (by decide)).imp ?_
        intro a b hab
        show List.Disjoint _ _
        intro ip h1 h2
        have := inv.disjoint _ _ ip h1 h2
        exact hab (by omega)
      · refine (nodup_forRange 0 _ 1 (by decide)).imp ?_
        intro a b hab
        show List.Disjoint _ _
        intro ip h1 h2
        exact hab ((key a ip h1).symm.trans (key b ip h2))
    · exact (List.nodup_range _).filter _

/-! ## The bins of the CPU strategy -/

theorem map_getD_slice {α : Type} (pre mid post : List α) (d : α) :
    (List.range' pre.length mid.length).map (fun i => (pre ++ mid ++ post).getD i d) = mid := by
  apply List.ext_getElem
  · simp
  · intro i h1 h2
    simp only [List.getElem_map, List.getElem_range', one_mul]
    rw [List.getD_eq_getElem?_getD, List.append_assoc,
      List.getElem?_append_right (by omega)]
    have : pre.length + i - pre.length = i := by omega
    rw [this, List.getElem?_append_left h2]
    simp [h2]

theorem binsOffsets_succ (n : Nat) (bin : Nat → Int) (b : Nat) :
    binsOffsets n bin (b + 1) =
      binsOffsets n bin b + ((List.range n).filter (fun ip => bin ip = (b : Int))).length := by
  unfold binsOffsets
  rw [List.range_succ, List.map_append, List.sum_append]
  simp

theorem binsPermutation_split (n nbins : Nat) (bin : Nat → Int) (b : Nat) (hb : b < nbins) :
    ∃ pre post, binsPermutation n nbins bin =
        pre ++ (List.range n).filter (fun ip => bin ip = (b : Int)) ++ post ∧
      pre.length = binsOffsets n bin b := by
  obtain ⟨k, rfl⟩ : ∃ k, nbins = (b + 1) + k := ⟨nbins - (b + 1), by omega⟩
  refine ⟨(List.range b).flatMap
      (fun b => (List.range n).filter (fun ip => bin ip = (b : Int))),
    ((List.range k).map (fun x => b + 1 + x)).flatMap
      (fun b => (List.range n).filter (fun ip => bin ip = (b : Int))), ?_, ?_⟩
  · unfold binsPermutation
    rw [List.range_add, List.flatMap_append, List.range_succ, List.flatMap_append]
    simp
  · rw [List.length_flatMap]
    simp [binsOffsets, Function.comp_def]

/-- The loop over the slice of a bin visits the particles of that bin. -/
theorem bin_slice (n nbins : Nat) (bin : Nat → Int) (b : Nat) (hb : b < nbins) :
    (forRange (binsOffsets n bin b) (binsOffsets n bin (b + 1)) 1).map
        (fun i => (binsPermutation n nbins bin).getD i.toNat 0) =
      (List.range n).filter (fun ip => bin ip = (b : Int)) := by
  obtain ⟨pre, post, h1, h2⟩ := binsPermutation_split n nbins bin b hb
  have h3 := forRange_one_nat (binsOffsets n bin b) (binsOffsets n bin (b + 1))
  have h4 : (forRange (binsOffsets n bin b) (binsOffsets n bin (b + 1)) 1).map
        (fun i => (binsPermutation n nbins bin).getD i.toNat 0) =
      ((forRange (binsOffsets n bin b) (binsOffsets n bin (b + 1)) 1).map Int.toNat).map
        (fun i => (binsPermutation n nbins bin).getD i 0) := by
    rw [List.map_map]; rfl
  rw [h4, h3, binsOffsets_succ, h1, ← h2]
  have : pre.length + ((List.range n).filter (fun ip => bin ip = (b : Int))).length
      - pre.length = ((List.range n).filter (fun ip => bin ip = (b : Int))).length := by omega
  rw [this]
  exact map_getD_slice _ _ _ _

/-! ## Tile arithmetic of the CPU strategy -/

theorem host_tile_bounds {lo hi c tile : Int} (ht : 0 < tile) (h1 : lo ≤ c) (h2 : c ≤ hi) :
    (c - lo).tdiv tile = (c - lo) / tile ∧ 0 ≤ (c - lo) / tile ∧
      (c - lo) / tile < (hi - lo + 1 + tile - 1).tdiv tile := by
  rw [Int.tdiv_eq_ediv (by omega) (by omega), Int.tdiv_eq_ediv (by omega) (by omega)]
  refine ⟨rfl, Int.ediv_nonneg (by omega) (by omega), ?_⟩
  have h3 : (c - lo) / tile * tile ≤ c - lo := Int.ediv_mul_le _ (by omega)
  have h4 : (c - lo) / tile + 1 ≤ (hi - lo + 1 + tile - 1) / tile := by
    rw [Int.le_ediv_iff_mul_le ht]
    nlinarith
  omega

theorem wrapInt_eq {x : Int} (h : IsInt x) : wrapInt x = x := by
  obtain ⟨h1, h2⟩ := h
  unfold wrapInt
  omega

/-- Without overflow the tile counts of the CPU strategy are the rounded up quotients. -/
theorem host_ntile_eq {box : Box} {tile : Int} (hfit : TileCountsFit box tile) :
    host_ntile_x box tile = (box.hi_x - box.lo_x + 1 + tile - 1).tdiv tile ∧
    host_ntile_y box tile = (box.hi_y - box.lo_y + 1 + tile - 1).tdiv tile := by
  unfold host_ntile_x host_ntile_y
  rw [wrapInt_eq hfit.1, wrapInt_eq hfit.2]
  exact ⟨rfl, rfl⟩

/-- Bin of a valid particle whose start cell is in the box. -/
theorem hostBin_valid {p : Particles} {box : Box} {tile : Int} (ht : 0 < tile)
    (hfit : TileCountsFit box tile) {ip : Nat}
    (hv : p.is_valid ip = true)
    (hc : box.contains (p.get_start_cell ip).1 (p.get_start_cell ip).2) :
    ∃ ix iy, 0 ≤ ix ∧ ix < host_ntile_x box tile ∧ 0 ≤ iy ∧ iy < host_ntile_y box tile ∧
      ix = host_tile_id_x box tile (p.get_start_cell ip) ∧
      iy = host_tile_id_y box tile (p.get_start_cell ip) ∧
      hostBin p box tile ip = ix * host_ntile_y box tile + iy := by
  obtain ⟨g1, g2, g3, g4⟩ := hc
  obtain ⟨a1, a2, a3⟩ := host_tile_bounds ht g1 g2
  obtain ⟨b1, b2, b3⟩ := host_tile_bounds ht g3 g4
  rw [← (host_ntile_eq hfit).1] at a3
  rw [← (host_ntile_eq hfit).2] at b3
  refine ⟨_, _, a2, a3, b2, b3, a1.symm, b1.symm, ?_⟩
  simp [hostBin, host_tile_id_x, host_tile_id_y, hv, a1, b1]

theorem tile_index_bounds {ix iy ntx nty : Int} (h1 : 0 ≤ ix) (h2 : ix < ntx) (h3 : 0 ≤ iy)
    (h4 : iy < nty) : 0 ≤ ix * nty + iy ∧ ix * nty + iy < ntx * nty := by
  constructor
  · have : 0 ≤ ix * nty := mul_nonneg h1 (by omega)
    omega
  · have : (ix + 1) * nty ≤ ntx * nty := mul_le_mul_of_nonneg_right (by omega) (by omega)
    nlinarith

theorem tile_index_inj {ix iy ix' iy' nty : Int} (h3 : 0 ≤ iy) (h4 : iy < nty)
    (h3' : 0 ≤ iy') (h4' : iy' < nty) (h : ix * nty + iy = ix' * nty + iy') :
    ix = ix' ∧ iy = iy' := by
  have hx : ix = ix' := by
    have e1 : (ix * nty + iy) / nty = ix := by
      rw [add_comm, Int.add_mul_ediv_right _ _ (by omega), Int.ediv_eq_zero_of_lt h3 h4]; simp
    have e2 : (ix' * nty + iy') / nty = ix' := by
      rw [add_comm, Int.add_mul_ediv_right _ _ (by omega), Int.ediv_eq_zero_of_lt h3' h4']; simp
    rw [← e1, ← e2, h]
  subst hx
  exact ⟨rfl, by omega⟩

/-! ## The tiles in the order of the four colour loop -/

theorem mem_colourTiles (ntx nty : Int) (a : Int × Int) :
    a ∈ colourTiles ntx nty ↔ 0 ≤ a.1 ∧ a.1 < ntx ∧ 0 ≤ a.2 ∧ a.2 < nty := by
  obtain ⟨ix, iy⟩ := a
  simp only [colourTiles, List.mem_flatMap, List.mem_map, mem_forRange_one,
    mem_forRange _ _ 2 (by decide : (0:Int) < 2), Prod.mk.injEq]
  constructor
  · rintro ⟨px, hpx, py, hpy, x, hx, y, hy, rfl, rfl⟩
    omega
  · rintro ⟨h1, h2, h3, h4⟩
    exact ⟨ix % 2, by omega, iy % 2, by omega, ix, by omega, iy, by omega, rfl, rfl⟩

theorem nodup_flatMap_key {α β : Type} (l : List α) (g : α → List β) (key : β → α)
    (hl : l.Nodup) (hg : ∀ a ∈ l, (g a).Nodup) (hk : ∀ a ∈ l, ∀ b ∈ g a, key b = a) :
    (l.flatMap g).Nodup := by
  rw [List.nodup_flatMap]
  refine ⟨hg, hl.imp_of_mem ?_⟩
  intro a b ha hb hab
  show List.Disjoint _ _
  intro x hx hx'
  exact hab ((hk a ha x hx).symm.trans (hk b hb x hx'))

theorem nodup_colourTiles (ntx nty : Int) : (colourTiles ntx nty).Nodup := by
  unfold colourTiles
  apply nodup_flatMap_key _ _ (fun a => a.1 % 2) (nodup_forRange _ _ _ (by decide))
  · intro px hpx
    apply nodup_flatMap_key _ _ (fun a => a.2 % 2) (nodup_forRange _ _ _ (by decide))
    · intro py hpy
      apply nodup_flatMap_key _ _ (fun a => a.1) (nodup_forRange _ _ _ (by decide))
      · intro ix _
        exact (nodup_forRange _ _ _ (by decide)).map (fun a b h => by simpa using h)
      · intro ix _ b hb
        simp only [List.mem_map] at hb
        obtain ⟨y, -, rfl⟩ := hb
        rfl
    · intro py hpy b hb
      simp only [List.mem_flatMap, List.mem_map, mem_forRange_one,
        mem_forRange _ _ 2 (by decide : (0:Int) < 2)] at hb hpy
      obtain ⟨x, hx, y, hy, rfl⟩ := hb
      simp only
      omega
  · intro px hpx b hb
    simp only [List.mem_flatMap, List.mem_map, mem_forRange_one,
      mem_forRange _ _ 2 (by decide : (0:Int) < 2)] at hb hpx
    obtain ⟨py, hpy, x, hx, y, hy, rfl⟩ := hb
    simp only
    omega

/-- The four colour loop is a loop over `colourTiles` and, in each tile, over its bin. -/
theorem tiledLoop_eq {σ : Type} (body : Nat → σ → σ) (p : Particles) (box : Box) (tile : Int)
    (s : σ) :
    tiledLoop body p box tile s =
      ((colourTiles (host_ntile_x box tile) (host_ntile_y box tile)).flatMap (fun a =>
        (forRange
          (binsOffsets p.num_particles (hostBin p box tile)
            (a.1 * host_ntile_y box tile + a.2).toNat)
          (binsOffsets p.num_particles (hostBin p box tile)
            (a.1 * host_ntile_y box tile + a.2 + 1).toNat) 1).map
          (fun i => (binsPermutation p.num_particles
            (host_ntile_x box tile * host_ntile_y box tile + 1).toNat
            (hostBin p box tile)).getD i.toNat 0))).foldl (fun s ip => body ip s) s := by
  unfold tiledLoop colourTiles
  simp only [← foldl_flatMap, ← foldl_map', List.foldl_map]

theorem flatMap_congr' {α β : Type} (f g : α → List β) :
    ∀ (l : List α), (∀ a ∈ l, f a = g a) → l.flatMap f = l.flatMap g := by
  intro l
  induction l with
  | nil => intro _; rfl
  | cons a l ih =>
    intro h
    rw [List.flatMap_cons, List.flatMap_cons, h a (List.mem_cons_self _ _),
      ih (fun b hb => h b (List.mem_cons_of_mem _ hb))]

/-- The particles deposited by the four colour loop, tile by tile, when every valid particle
is binned in a tile of the grid. -/
theorem tiled_lists_exist_of (p : Particles) (box : Box) (tile : Int)
    (hgrid : ∀ ip, ip < p.num_particles → p.is_valid ip = true →
      ∃ ix iy, 0 ≤ ix ∧ ix < host_ntile_x box tile ∧ 0 ≤ iy ∧ iy < host_ntile_y box tile ∧
        ix = host_tile_id_x box tile (p.get_start_cell ip) ∧
        iy = host_tile_id_y box tile (p.get_start_cell ip) ∧
        hostBin p box tile ip = ix * host_ntile_y box tile + iy) :
    ∃ L : Int × Int → List Nat,
      (∀ (σ : Type) (body : Nat → σ → σ) (s : σ), tiledLoop body p box tile s =
        ((colourTiles (host_ntile_x box tile) (host_ntile_y box tile)).flatMap L).foldl
          (fun s ip => body ip s) s) ∧
      (∀ a ∈ colourTiles (host_ntile_x box tile) (host_ntile_y box tile), ∀ ip, ip ∈ L a →
        ip < p.num_particles ∧ p.is_valid ip = true ∧ hostTile p box tile ip = a) ∧
      ((colourTiles (host_ntile_x box tile) (host_ntile_y box tile)).flatMap L).Perm
        ((List.range p.num_particles).filter p.is_valid) := by
  refine ⟨fun a => (List.range p.num_particles).filter
      (fun ip => hostBin p box tile ip = a.1 * host_ntile_y box tile + a.2), ?_, ?_, ?_⟩
  · intro σ body s
    rw [tiledLoop_eq]
    congr 1
    apply flatMap_congr'
    intro a ha
    rw [mem_colourTiles] at ha
    obtain ⟨t0, t1⟩ := tile_index_bounds ha.1 ha.2.1 ha.2.2.1 ha.2.2.2
    have e1 : (a.1 * host_ntile_y box tile + a.2 + 1).toNat = (a.1 * host_ntile_y box tile + a.2).toNat + 1 := by omega
    have e2 : (((a.1 * host_ntile_y box tile + a.2).toNat : Nat) : Int) = a.1 * host_ntile_y box tile + a.2 :=
      Int.toNat_of_nonneg t0
    rw [e1, bin_slice _ _ _ _ (by omega), e2]
  · intro a ha ip hip
    rw [mem_colourTiles] at ha
    obtain ⟨t0, t1⟩ := tile_index_bounds ha.1 ha.2.1 ha.2.2.1 ha.2.2.2
    simp only [List.mem_filter, List.mem_range, decide_eq_true_eq] at hip
    obtain ⟨hlt, hbin⟩ := hip
    have hv : p.is_valid ip = true := by
      by_contra hv
      simp only [hostBin, hv] at hbin
      simp only [Bool.false_eq_true, ↓reduceIte] at hbin
      omega
    obtain ⟨ix, iy, b1, b2, b3, b4, ex, ey, hb⟩ := hgrid ip hlt hv
    rw [hb] at hbin
    obtain ⟨i1, i2⟩ := tile_index_inj b3 b4 ha.2.2.1 ha.2.2.2 hbin
    refine ⟨hlt, hv, ?_⟩
    unfold hostTile
    rw [← ex, ← ey, i1, i2]
  · rw [List.perm_ext_iff_of_nodup]
    · intro ip
      simp only [List.mem_flatMap, List.mem_filter, List.mem_range, decide_eq_true_eq]
      constructor
      · rintro ⟨a, ha, hlt, hbin⟩
        refine ⟨hlt, ?_⟩
        rw [mem_colourTiles] at ha
        obtain ⟨t0, t1⟩ := tile_index_bounds ha.1 ha.2.1 ha.2.2.1 ha.2.2.2
        by_contra hv
        simp only [hostBin, hv] at hbin
        simp only [Bool.false_eq_true, ↓reduceIte] at hbin
        omega
      · rintro ⟨hlt, hv⟩
        obtain ⟨ix, iy, b1, b2, b3, b4, ex, ey, hb⟩ := hgrid ip hlt hv
        exact ⟨(ix, iy), (mem_colourTiles _ _ _).2 ⟨b1, b2, b3, b4⟩, hlt, hb⟩
    · apply nodup_flatMap_key _ _
        (fun ip => ((hostBin p box tile ip) / host_ntile_y box tile, (hostBin p box tile ip) % host_ntile_y box tile))
        (nodup_colourTiles _ _)
      · intro a _
        exact (List.nodup_range _).filter _
      · intro a ha ip hip
        rw [mem_colourTiles] at ha
        simp only [List.mem_filter, List.mem_range, decide_eq_true_eq] at hip
        rw [hip.2]
        have e1 : (a.1 * host_ntile_y box tile + a.2) / host_ntile_y box tile = a.1 := by
          rw [add_comm, Int.add_mul_ediv_right _ _ (by omega),
            Int.ediv_eq_zero_of_lt ha.2.2.1 ha.2.2.2]
          simp
        have e2 : (a.1 * host_ntile_y box tile + a.2) % host_ntile_y box tile = a.2 := by
          rw [add_comm, Int.add_mul_emod_self, Int.emod_eq_of_lt ha.2.2.1 ha.2.2.2]
        rw [e1, e2]
    · exact (List.nodup_range _).filter _

/-- The simple loop calls `body` on the valid particles in increasing order. -/
theorem simpleLoop_eq {σ : Type} (body : Nat → σ → σ) (p : Particles) (s : σ) :
    simpleLoop body p s =
      ((List.range p.num_particles).filter p.is_valid).foldl (fun s ip => body ip s) s := by
  unfold simpleLoop
  exact foldl_filter' p.is_valid (fun s ip => body ip s) _ s

/-- A fold whose steps add, cell by cell, an amount that does not depend on the state as long
as the state agrees with the initial one on the region `A`, which the steps leave alone. -/
theorem foldl_add_stable {α R : Type} [AddCommMonoid R] (A : Int → Int → Int → Prop)
    (step : α → Field R → Field R) (d : α → Field R) (f0 : Field R) :
    ∀ (l : List α),
      (∀ a ∈ l, ∀ f : Field R, (∀ x y c, A x y c → f x y c = f0 x y c) →
        ∀ x y c, step a f x y c = f x y c + d a x y c) →
      (∀ a ∈ l, ∀ x y c, A x y c → d a x y c = 0) →
      ∀ x y c, (l.foldl (fun f a => step a f) f0) x y c =
        f0 x y c + (l.map (fun a => d a x y c)).sum := by
  intro l
  induction l using List.reverseRecOn with
  | nil => intro _ _ x y c; simp
  | append_singleton l a ih =>
    intro h1 h2 x y c
    have ih' := ih (fun b hb => h1 b (List.mem_append_left _ hb))
      (fun b hb => h2 b (List.mem_append_left _ hb))
    rw [List.foldl_append, List.foldl_cons, List.foldl_nil]
    rw [h1 a (by simp) _ ?_ x y c, ih' x y c]
    · simp [add_assoc]
    · intro x y c hA
      rw [ih' x y c]
      have : (l.map (fun b => d b x y c)).sum = 0 := by
        apply List.sum_eq_zero
        intro r hr
        obtain ⟨b, hb, rfl⟩ := List.mem_map.1 hr
        exact h2 b (List.mem_append_left _ hb) x y c hA
      rw [this, add_zero]

theorem foldl_add {α R : Type} [AddCommMonoid R]
    (step : α → Field R → Field R) (d : α → Field R) (f0 : Field R) (l : List α)
    (h : ∀ a ∈ l, ∀ (f : Field R) x y c, step a f x y c = f x y c + d a x y c) (x y c : Int) :
    (l.foldl (fun f a => step a f) f0) x y c = f0 x y c + (l.map (fun a => d a x y c)).sum :=
  foldl_add_stable (fun _ _ _ => False) step d f0 l (fun a ha f _ => h a ha f)
    (fun _ _ _ _ _ hA => hA.elim) x y c

/-- A fold whose steps overwrite the entries they hit with a value depending on the entry
only. -/
theorem foldl_set {α R : Type} (hit : α → Int → Int → Int → Prop) (val : Field R)
    (step : α → Field R → Field R) :
    ∀ (l : List α) (f0 : Field R),
      (∀ a ∈ l, ∀ (f : Field R) x y c, (hit a x y c → step a f x y c = val x y c) ∧
        (¬ hit a x y c → step a f x y c = f x y c)) →
      ∀ x y c, ((∃ a ∈ l, hit a x y c) → (l.foldl (fun f a => step a f) f0) x y c = val x y c) ∧
        ((∀ a ∈ l, ¬ hit a x y c) → (l.foldl (fun f a => step a f) f0) x y c = f0 x y c) := by
  intro l
  induction l with
  | nil =>
    intro f0 _ x y c
    exact ⟨fun ⟨a, ha, _⟩ => by simp at ha, fun _ => rfl⟩
  | cons a l ih =>
    intro f0 h x y c
    have ih' := ih (step a f0) (fun b hb => h b (List.mem_cons_of_mem _ hb)) x y c
    have ha := h a (List.mem_cons_self _ _) f0 x y c
    rw [List.foldl_cons]
    constructor
    · rintro ⟨b, hb, hhit⟩
      by_cases hl : ∃ b ∈ l, hit b x y c
      · exact ih'.1 hl
      · have hl' : ∀ b ∈ l, ¬ hit b x y c := fun b hb hh => hl ⟨b, hb, hh⟩
        rw [ih'.2 hl']
        rcases List.mem_cons.1 hb with rfl | hb
        · exact ha.1 hhit
        · exact absurd hhit (hl' b hb)
    · intro hno
      rw [ih'.2 (fun b hb => hno b (List.mem_cons_of_mem _ hb))]
      exact ha.2 (hno a (List.mem_cons_self _ _))

theorem sum_ite_unique {α R : Type} [AddCommMonoid R] (P : α → Prop) [DecidablePred P] (g : R) :
    ∀ (l : List α), l.Nodup → (∀ a ∈ l, ∀ b ∈ l, P a → P b → a = b) →
      [Decidable (∃ a ∈ l, P a)] →
      (l.map (fun a => if P a then g else 0)).sum = if ∃ a ∈ l, P a then g else 0 := by
  intro l
  induction l with
  | nil => intro _ _ _; simp
  | cons a l ih =>
    intro hnd hu _
    have hnd' := List.nodup_cons.1 hnd
    have ih' := @ih hnd'.2
      (fun b hb b' hb' => hu b (List.mem_cons_of_mem _ hb) b' (List.mem_cons_of_mem _ hb'))
      (Classical.dec _)
    rw [List.map_cons, List.sum_cons, ih']
    by_cases hPa : P a
    · have hno : ¬ ∃ b ∈ l, P b := by
        rintro ⟨b, hb, hPb⟩
        have := hu a (List.mem_cons_self _ _) b (List.mem_cons_of_mem _ hb) hPa hPb
        exact hnd'.1 (this ▸ hb)
      have hyes : ∃ b ∈ a :: l, P b := ⟨a, List.mem_cons_self _ _, hPa⟩
      simp [hPa, hno, hyes]
    · by_cases hl : ∃ b ∈ l, P b
      · have hyes : ∃ b ∈ a :: l, P b := by
          obtain ⟨b, hb, hPb⟩ := hl
          exact ⟨b, List.mem_cons_of_mem _ hb, hPb⟩
        simp [hPa, hl, hyes]
      · have hno : ¬ ∃ b ∈ a :: l, P b := by
          rintro ⟨b, hb, hPb⟩
          rcases List.mem_cons.1 hb with rfl | hb
          · exact hPa hPb
          · exact hl ⟨b, hb, hPb⟩
        simp [hPa, hl, hno]

theorem mem_blockSlots (t : Template) (s : Int) :
    s ∈ blockSlots t ↔ 0 ≤ s ∧ s < tile_s_x t * tile_s_y t := by
  simp only [blockSlots, List.mem_flatMap, mem_forRange_one,
    mem_forRange _ _ threads_per_tile (by decide : (0:Int) < threads_per_tile)]
  constructor
  · rintro ⟨th, hth, h1, h2, -⟩
    omega
  · rintro ⟨h1, h2⟩
    refine ⟨s % 256, ⟨by omega, by simp only [threads_per_tile]; omega⟩, by omega, h2, ?_⟩
    simp only [threads_per_tile]
    omega

theorem nodup_blockSlots (t : Template) : (blockSlots t).Nodup := by
  unfold blockSlots
  apply nodup_flatMap_key _ _ (fun s => s % 256) (nodup_forRange _ _ _ (by decide))
  · intro th _
    exact nodup_forRange _ _ _ (by decide)
  · intro th hth s hs
    rw [mem_forRange_one] at hth
    rw [mem_forRange _ _ threads_per_tile (by decide)] at hs
    simp only [threads_per_tile] at hs hth
    show s % 256 = th
    omega

theorem slotCell_eq {t : Template} (box : Box) (tile_id : Int) {s : Int} (hs : 0 ≤ s)
    (hW : 0 < tile_s_x t) :
    slotCell t box tile_id s =
      (s % tile_s_x t + tile_begin_x box tile_id, s / tile_s_x t + tile_begin_y box tile_id) := by
  unfold slotCell
  rw [Int.tdiv_eq_ediv hs (by omega)]
  have := Int.emod_def s (tile_s_x t)
  simp only [Prod.mk.injEq, and_true]
  rw [this]; ring

theorem slotCell_inj {t : Template} (box : Box) (tile_id : Int) {s s' : Int} (hs : 0 ≤ s)
    (hs' : 0 ≤ s') (hW : 0 < tile_s_x t)
    (h : slotCell t box tile_id s = slotCell t box tile_id s') : s = s' := by
  rw [slotCell_eq box tile_id hs hW, slotCell_eq box tile_id hs' hW] at h
  simp only [Prod.mk.injEq] at h
  have h1 := Int.emod_add_ediv s (tile_s_x t)
  have h2 := Int.emod_add_ediv s' (tile_s_x t)
  have e1 : s % tile_s_x t = s' % tile_s_x t := by omega
  have e2 : s / tile_s_x t = s' / tile_s_x t := by omega
  rw [← h1, ← h2, e1, e2]

/-- The cells reached by the loops of a block are those of its view `shared_arr`. -/
theorem exists_slot_iff (t : Template) (box : Box) (tile_id x y : Int)
    (hx : 1 ≤ t.stencil_x) (hy : 1 ≤ t.stencil_y) :
    (∃ s ∈ blockSlots t, slotCell t box tile_id s = (x, y) ∧ x ≤ box.hi_x ∧ y ≤ box.hi_y) ↔
      inTileRange t box tile_id x y := by
  have hW : 0 < tile_s_x t := by simp only [tile_s_x, tile_x]; omega
  have hH : 0 < tile_s_y t := by simp only [tile_s_y, tile_y]; omega
  unfold inTileRange tile_end_x tile_end_y
  constructor
  · rintro ⟨s, hs, hc, h1, h2⟩
    rw [mem_blockSlots] at hs
    rw [slotCell_eq box tile_id hs.1 hW] at hc
    simp only [Prod.mk.injEq] at hc
    have a1 := Int.emod_nonneg s (ne_of_gt hW)
    have a2 := Int.emod_lt_of_pos s hW
    have a3 : 0 ≤ s / tile_s_x t := Int.ediv_nonneg hs.1 (by omega)
    have a4 : s / tile_s_x t < tile_s_y t :=
      Int.ediv_lt_of_lt_mul hW (by rw [mul_comm]; exact hs.2)
    omega
  · rintro ⟨h1, h2, h3, h4⟩
    have b1 : 0 ≤ x - tile_begin_x box tile_id := by omega
    have b2 : x - tile_begin_x box tile_id < tile_s_x t := by omega
    have b3 : 0 ≤ y - tile_begin_y box tile_id := by omega
    have b4 : y - tile_begin_y box tile_id < tile_s_y t := by omega
    have hs0 : 0 ≤ (x - tile_begin_x box tile_id) +
        (y - tile_begin_y box tile_id) * tile_s_x t := by
      have := mul_nonneg b3 (le_of_lt hW)
      omega
    refine ⟨(x - tile_begin_x box tile_id) + (y - tile_begin_y box tile_id) * tile_s_x t,
      ?_, ?_, by omega, by omega⟩
    · rw [mem_blockSlots]
      refine ⟨hs0, ?_⟩
      have : (y - tile_begin_y box tile_id + 1) * tile_s_x t ≤ tile_s_y t * tile_s_x t :=
        mul_le_mul_of_nonneg_right (by omega) (le_of_lt hW)
      nlinarith
    · rw [slotCell_eq box tile_id hs0 hW, Int.add_mul_emod_self,
        Int.add_mul_ediv_right _ _ (ne_of_gt hW), Int.emod_eq_of_lt b1 b2,
        Int.ediv_eq_zero_of_lt b1 b2]
      simp

/-! ## Staging and fold back of a block, cell by cell -/

theorem Field.set_apply {R : Type} (f : Field R) (i j n : Int) (v : R) (x y c : Int) :
    f.set i j n v x y c = if x = i ∧ y = j ∧ c = n then v else f x y c := rfl

theorem stageCell_spec {R : Type} [Zero R] (t : Template) (idx_cache idx_depos : Nat → Int)
    (field : Field R) (sx sy : Int) (sh : Field R) (x y c : Int) :
    ((x = sx ∧ y = sy) ∧ (isCacheComp t idx_cache c ∨ isDeposComp t idx_depos c) →
      stageCell t idx_cache idx_depos field sx sy sh x y c =
        stagedValue t idx_cache field x y c) ∧
    (¬ ((x = sx ∧ y = sy) ∧ (isCacheComp t idx_cache c ∨ isDeposComp t idx_depos c)) →
      stageCell t idx_cache idx_depos field sx sy sh x y c = sh x y c) := by
  have hload := foldl_set
    (fun (n : Nat) x y c => compEnabled t idx_cache n = true ∧ x = sx ∧ y = sy ∧ c = (n : Int))
    (stagedValue t idx_cache field)
    (fun n (sh : Field R) => if compEnabled t idx_cache n then
        sh.set sx sy n (field sx sy (idx_cache n)) else sh)
    (List.range t.max_cache) sh
    (by
      intro n hn f x y c
      rw [List.mem_range] at hn
      constructor
      · rintro ⟨h1, rfl, rfl, rfl⟩
        simp [h1, Field.set_apply, stagedValue, hn]
      · intro h
        by_cases h1 : compEnabled t idx_cache n = true
        · simp only [h1, if_true, Field.set_apply]
          rw [if_neg (fun hh => h ⟨h1, hh⟩)]
        · simp [h1]) x y c
  have hzero := foldl_set
    (fun (n : Nat) x y c =>
      compEnabled t idx_depos n = true ∧ x = sx ∧ y = sy ∧ c = (n : Int) + t.max_cache)
    (stagedValue t idx_cache field)
    (fun n (sh : Field R) => if compEnabled t idx_depos n then
        sh.set sx sy (n + t.max_cache) 0 else sh)
    (List.range t.max_depos)
    ((List.range t.max_cache).foldl
      (fun sh n => if compEnabled t idx_cache n then
        sh.set sx sy n (field sx sy (idx_cache n)) else sh) sh)
    (by
      intro n hn f x y c
      constructor
      · rintro ⟨h1, rfl, rfl, rfl⟩
        have hlt : ¬ ((n : Int) + t.max_cache < t.max_cache) := by omega
        simp [h1, Field.set_apply, stagedValue, hlt]
      · intro h
        by_cases h1 : compEnabled t idx_depos n = true
        · simp only [h1, if_true, Field.set_apply]
          rw [if_neg (fun hh => h ⟨h1, hh⟩)]
        · simp [h1]) x y c
  have hC : (∃ n ∈ List.range t.max_cache,
      compEnabled t idx_cache n = true ∧ x = sx ∧ y = sy ∧ c = (n : Int)) ↔
      ((x = sx ∧ y = sy) ∧ isCacheComp t idx_cache c) := by
    unfold isCacheComp
    constructor
    · rintro ⟨n, hn, h1, h2, h3, rfl⟩
      rw [List.mem_range] at hn
      exact ⟨⟨h2, h3⟩, by omega, by omega, by simpa using h1⟩
    · rintro ⟨⟨h2, h3⟩, h4, h5, h6⟩
      refine ⟨c.toNat, List.mem_range.2 (by omega), h6, h2, h3, by omega⟩
  have hD : (∃ n ∈ List.range t.max_depos,
      compEnabled t idx_depos n = true ∧ x = sx ∧ y = sy ∧ c = (n : Int) + t.max_cache) ↔
      ((x = sx ∧ y = sy) ∧ isDeposComp t idx_depos c) := by
    unfold isDeposComp
    constructor
    · rintro ⟨n, hn, h1, h2, h3, rfl⟩
      rw [List.mem_range] at hn
      refine ⟨⟨h2, h3⟩, by omega, by omega, ?_⟩
      have : ((n : Int) + t.max_cache - t.max_cache).toNat = n := by omega
      rw [this]; exact h1
    · rintro ⟨⟨h2, h3⟩, h4, h5, h6⟩
      refine ⟨(c - t.max_cache).toNat, List.mem_range.2 (by omega), h6, h2, h3, by omega⟩
  unfold stageCell
  constructor
  · rintro ⟨hxy, hcd⟩
    by_cases hd : isDeposComp t idx_depos c
    · exact hzero.1 (hD.2 ⟨hxy, hd⟩)
    · have hc : isCacheComp t idx_cache c := hcd.resolve_right hd
      have := hzero.2 (fun n hn hh => hd (hD.1 ⟨n, hn, hh⟩).2)
      simp only at this ⊢
      rw [this]
      exact hload.1 (hC.2 ⟨hxy, hc⟩)
  · intro hno
    have h1 := hzero.2 (fun n hn hh => hno ⟨(hD.1 ⟨n, hn, hh⟩).1, Or.inr (hD.1 ⟨n, hn, hh⟩).2⟩)
    have h2 := hload.2 (fun n hn hh => hno ⟨(hC.1 ⟨n, hn, hh⟩).1, Or.inl (hC.1 ⟨n, hn, hh⟩).2⟩)
    simp only at h1 h2 ⊢
    rw [h1, h2]

theorem stageBlock_eq {R : Type} [Zero R] (t : Template) (box : Box)
    (idx_cache idx_depos : Nat → Int) (field : Field R) (tile_id : Int) (sp : Field R) :
    stageBlock t box idx_cache idx_depos field tile_id sp =
      (blockSlots t).foldl (fun sh s =>
        if (slotCell t box tile_id s).1 ≤ box.hi_x ∧ (slotCell t box tile_id s).2 ≤ box.hi_y then
          stageCell t idx_cache idx_depos field (slotCell t box tile_id s).1
            (slotCell t box tile_id s).2 sh
        else sh) sp := by
  unfold stageBlock stageThread blockSlots
  rw [← foldl_flatMap]

/-- Content of the shared memory tile after staging. -/
theorem stageBlock_spec {R : Type} [Zero R] (t : Template) (box : Box)
    (idx_cache idx_depos : Nat → Int) (field : Field R) (tile_id : Int) (sp : Field R)
    (hx : 1 ≤ t.stencil_x) (hy : 1 ≤ t.stencil_y) (x y c : Int) :
    (inTileRange t box tile_id x y ∧ (isCacheComp t idx_cache c ∨ isDeposComp t idx_depos c) →
      stageBlock t box idx_cache idx_depos field tile_id sp x y c =
        stagedValue t idx_cache field x y c) ∧
    (¬ (inTileRange t box tile_id x y ∧
        (isCacheComp t idx_cache c ∨ isDeposComp t idx_depos c)) →
      stageBlock t box idx_cache idx_depos field tile_id sp x y c = sp x y c) := by
  rw [stageBlock_eq]
  have h := foldl_set
    (fun (s : Int) x y c => (slotCell t box tile_id s = (x, y) ∧ x ≤ box.hi_x ∧ y ≤ box.hi_y) ∧
      (isCacheComp t idx_cache c ∨ isDeposComp t idx_depos c))
    (stagedValue t idx_cache field)
    (fun s (sh : Field R) =>
      if (slotCell t box tile_id s).1 ≤ box.hi_x ∧ (slotCell t box tile_id s).2 ≤ box.hi_y then
        stageCell t idx_cache idx_depos field (slotCell t box tile_id s).1
          (slotCell t box tile_id s).2 sh
      else sh)
    (blockSlots t) sp
    (by
      intro s _ f x y c
      have hc := stageCell_spec t idx_cache idx_depos field (slotCell t box tile_id s).1
        (slotCell t box tile_id s).2 f x y c
      beta_reduce
      constructor
      · rintro ⟨⟨h1, h2, h3⟩, h4⟩
        have e1 : x = (slotCell t box tile_id s).1 := by rw [h1]
        have e2 : y = (slotCell t box tile_id s).2 := by rw [h1]
        rw [if_pos ⟨e1 ▸ h2, e2 ▸ h3⟩]
        exact hc.1 ⟨⟨e1, e2⟩, h4⟩
      · intro hno
        by_cases hcond : (slotCell t box tile_id s).1 ≤ box.hi_x ∧
            (slotCell t box tile_id s).2 ≤ box.hi_y
        · rw [if_pos hcond]
          apply hc.2
          rintro ⟨⟨e1, e2⟩, h4⟩
          exact hno ⟨⟨Prod.ext e1.symm e2.symm, e1 ▸ hcond.1, e2 ▸ hcond.2⟩, h4⟩
        · rw [if_neg hcond]) x y c
  constructor
  · rintro ⟨hr, hcd⟩
    obtain ⟨s, hs, hs'⟩ := (exists_slot_iff t box tile_id x y hx hy).2 hr
    exact h.1 ⟨s, hs, hs', hcd⟩
  · intro hno
    apply h.2
    rintro s hs ⟨hs', hcd⟩
    exact hno ⟨(exists_slot_iff t box tile_id x y hx hy).1 ⟨s, hs, hs'⟩, hcd⟩

theorem foldBackCell_apply {R : Type} [AddCommMonoid R] (t : Template) (idx_depos : Nat → Int)
    (sh : Field R) (sx sy : Int) (f : Field R) (x y c : Int) :
    foldBackCell t idx_depos sh sx sy f x y c =
      f x y c + (if x = sx ∧ y = sy then scratchSum t idx_depos sh x y c else 0) := by
  unfold foldBackCell
  rw [foldl_add
    (fun n (f : Field R) => if compEnabled t idx_depos n then
        f.add sx sy (idx_depos n) (sh sx sy (n + t.max_cache)) else f)
    (fun n x y c => if compEnabled t idx_depos n = true ∧ x = sx ∧ y = sy ∧ c = idx_depos n
      then sh sx sy (n + t.max_cache) else 0)]
  · congr 1
    by_cases hxy : x = sx ∧ y = sy
    · obtain ⟨rfl, rfl⟩ := hxy
      simp only [true_and, and_self, if_true, scratchSum]
      congr 1
      apply List.map_congr_left
      intro n _
      simp only [eq_comm]
    · rw [if_neg hxy]
      apply List.sum_eq_zero
      intro r hr
      obtain ⟨n, -, rfl⟩ := List.mem_map.1 hr
      rw [if_neg]
      rintro ⟨-, h1, h2, -⟩
      exact hxy ⟨h1, h2⟩
  · intro n _ f x y c
    by_cases h1 : compEnabled t idx_depos n = true
    · simp only [h1, if_true, Field.add, Field.set_apply, true_and]
      by_cases h2 : x = sx ∧ y = sy ∧ c = idx_depos n
      · obtain ⟨rfl, rfl, rfl⟩ := h2
        simp
      · simp [h2]
    · simp [h1]

/-- Field after the fold back of a block. -/
theorem foldBackBlock_apply {R : Type} [AddCommMonoid R] (t : Template) (box : Box)
    (idx_depos : Nat → Int) (sh : Field R) (tile_id : Int) (field : Field R)
    (hx : 1 ≤ t.stencil_x) (hy : 1 ≤ t.stencil_y) (x y c : Int) :
    foldBackBlock t box idx_depos sh tile_id field x y c =
      field x y c +
        (if inTileRange t box tile_id x y then scratchSum t idx_depos sh x y c else 0) := by
  have hW : 0 < tile_s_x t := by simp only [tile_s_x, tile_x]; omega
  have e : foldBackBlock t box idx_depos sh tile_id field =
      (blockSlots t).foldl (fun f s =>
        if (slotCell t box tile_id s).1 ≤ box.hi_x ∧ (slotCell t box tile_id s).2 ≤ box.hi_y then
          foldBackCell t idx_depos sh (slotCell t box tile_id s).1
            (slotCell t box tile_id s).2 f
        else f) field := by
    unfold foldBackBlock foldBackThread blockSlots
    rw [← foldl_flatMap]
  rw [e, foldl_add
    (fun s (f : Field R) =>
      if (slotCell t box tile_id s).1 ≤ box.hi_x ∧ (slotCell t box tile_id s).2 ≤ box.hi_y then
        foldBackCell t idx_depos sh (slotCell t box tile_id s).1
          (slotCell t box tile_id s).2 f
      else f)
    (fun s x y c => if slotCell t box tile_id s = (x, y) ∧ x ≤ box.hi_x ∧ y ≤ box.hi_y
      then scratchSum t idx_depos sh x y c else 0)]
  · congr 1
    rw [sum_ite_unique (fun s => slotCell t box tile_id s = (x, y) ∧ x ≤ box.hi_x ∧ y ≤ box.hi_y)
      _ _ (nodup_blockSlots t)]
    · simp only [exists_slot_iff t box tile_id x y hx hy]
    · intro a ha b hb hPa hPb
      rw [mem_blockSlots] at ha hb
      exact slotCell_inj box tile_id ha.1 hb.1 hW (hPa.1.trans hPb.1.symm)
  · intro s _ f x y c
    by_cases hcond : (slotCell t box tile_id s).1 ≤ box.hi_x ∧
        (slotCell t box tile_id s).2 ≤ box.hi_y
    · rw [if_pos hcond, foldBackCell_apply]
      congr 1
      by_cases hxy : x = (slotCell t box tile_id s).1 ∧ y = (slotCell t box tile_id s).2
      · rw [if_pos hxy, if_pos]
        exact ⟨Prod.ext hxy.1.symm hxy.2.symm, hxy.1 ▸ hcond.1, hxy.2 ▸ hcond.2⟩
      · rw [if_neg hxy, if_neg]
        rintro ⟨h1, -⟩
        exact hxy ⟨by rw [h1], by rw [h1]⟩
    · rw [if_neg hcond, if_neg, add_zero]
      rintro ⟨h1, h2, h3⟩
      exact hcond ⟨by rw [h1]; exact h2, by rw [h1]; exact h3⟩

/-! ## The GPU strategy, block by block -/

/-- The GPU strategy returns, and its result is the fold over the blocks. -/
theorem sharedPath_some (p : Particles) (box : Box) (order : List Nat)
    (horder : order.Perm (List.range p.num_particles)) (hn : p.num_particles ≤ ll_guard) :
    ∃ L : Int → List Nat,
      (∀ (R : Type) [Add R] [Zero R] (t : Template) (do_deposit : DepositFn R)
        (idx_cache idx_depos : Nat → Int) (shared_ptr : Int → Field R) (field : Field R),
        sharedPath t p box do_deposit idx_cache idx_depos order shared_ptr field =
          some (blocksResult t box do_deposit idx_cache idx_depos L shared_ptr field)) ∧
      sharedCalls p box order = some ((forRange 0 (ntile_x box * ntile_y box) 1).flatMap L) ∧
      (∀ T ip, ip ∈ L T → ip < p.num_particles ∧ p.is_valid ip = true) ∧
      (StartCellsInBox p box →
        (∀ T ip, ip ∈ L T → binTile box (p.get_start_cell ip) = T) ∧
        ((forRange 0 (ntile_x box * ntile_y box) 1).flatMap L).Perm
          ((List.range p.num_particles).filter p.is_valid)) := by
  obtain ⟨L, hwalk, hvalid, hrest⟩ := shared_lists_exist p box order horder hn
  refine ⟨L, ?_, ?_, hvalid, hrest⟩
  · intro R _ _ t do_deposit idx_cache idx_depos shared_ptr field
    unfold sharedPath blocksResult
    apply foldlM_some
    intro T _ f
    unfold depositBlock blockScratch
    simp only [hwalk]
  · unfold sharedCalls
    rw [foldlM_some _ (fun log T => log ++ L T)]
    · congr 1
      generalize forRange 0 (ntile_x box * ntile_y box) 1 = tiles
      have : ∀ (tiles : List Int) (acc : List Nat),
          tiles.foldl (fun log T => log ++ L T) acc = acc ++ tiles.flatMap L := by
        intro tiles
        induction tiles with
        | nil => intro acc; simp
        | cons a l ih => intro acc; simp [ih, List.flatMap_cons]
      simpa using this tiles []
    · intro T _ log
      rw [hwalk, foldl_log]

theorem foldl_preserve {α R : Type} (step : α → Field R → Field R) (x y c : Int) :
    ∀ (l : List α) (f0 : Field R), (∀ a ∈ l, ∀ f : Field R, step a f x y c = f x y c) →
      (l.foldl (fun f a => step a f) f0) x y c = f0 x y c := by
  intro l
  induction l with
  | nil => intro f0 _; rfl
  | cons a l ih =>
    intro f0 h
    rw [List.foldl_cons, ih _ (fun b hb f => h b (List.mem_cons_of_mem _ hb) f)]
    exact h a (List.mem_cons_self _ _) f0

theorem scratchSum_eq_zero_of_not_deposited {R : Type} [AddCommMonoid R] (t : Template)
    (idx_depos : Nat → Int) (sh : Field R) (x y c : Int) (h : ¬ isDeposited t idx_depos c) :
    scratchSum t idx_depos sh x y c = 0 := by
  unfold scratchSum
  apply List.sum_eq_zero
  intro r hr
  obtain ⟨n, hn, rfl⟩ := List.mem_map.1 hr
  rw [if_neg]
  rintro ⟨h1, h2⟩
  exact h ⟨n, List.mem_range.1 hn, h1, h2⟩

theorem tile_id_nonneg {box : Box} (hne : box.lo_x ≤ box.hi_x) {T : Int} (hT : 0 ≤ T) :
    0 ≤ tile_id_x box T ∧ 0 ≤ tile_id_y box T := by
  have hx : ntile_x box = (box.length0 + 15) / 16 := ntile_x_eq (by unfold Box.length0; omega)
  have hpos : 0 < ntile_x box := by rw [hx]; unfold Box.length0; omega
  unfold tile_id_x tile_id_y
  rw [Int.tmod_eq_emod hT (le_of_lt hpos), Int.tdiv_eq_ediv hT (le_of_lt hpos)]
  exact ⟨Int.emod_nonneg _ (ne_of_gt hpos), Int.ediv_nonneg hT (le_of_lt hpos)⟩

theorem inTileRange_in_box {t : Template} {box : Box} (hne : box.lo_x ≤ box.hi_x) {T : Int}
    (hT : 0 ≤ T) {x y : Int} (h : inTileRange t box T x y) : box.contains x y := by
  obtain ⟨h1, h2⟩ := tile_id_nonneg hne hT
  unfold inTileRange tile_end_x tile_end_y tile_begin_x tile_begin_y at h
  unfold Box.contains
  simp only [tile_x, tile_y] at h
  omega

/-- Frame of the blocks: only the deposited components of cells of the box change. -/
theorem blocksResult_frame {R : Type} [AddCommMonoid R] (t : Template) (box : Box)
    (do_deposit : DepositFn R) (idx_cache idx_depos : Nat → Int) (L : Int → List Nat)
    (shared_ptr : Int → Field R) (field : Field R)
    (hx : 1 ≤ t.stencil_x) (hy : 1 ≤ t.stencil_y) (hne : box.lo_x ≤ box.hi_x)
    (x y c : Int) (h : ¬ (box.contains x y ∧ isDeposited t idx_depos c)) :
    blocksResult t box do_deposit idx_cache idx_depos L shared_ptr field x y c = field x y c := by
  unfold blocksResult
  apply foldl_preserve
    (fun T f => foldBackBlock t box idx_depos
      (blockScratch t box do_deposit idx_cache idx_depos (L T) (shared_ptr T) f T) T f)
  intro T hT f
  rw [mem_forRange_one] at hT
  rw [foldBackBlock_apply t box idx_depos _ T f hx hy]
  by_cases hr : inTileRange t box T x y
  · rw [if_pos hr, scratchSum_eq_zero_of_not_deposited, add_zero]
    exact fun hd => h ⟨inTileRange_in_box hne hT.1 hr, hd⟩
  · rw [if_neg hr, add_zero]

/-- With no particle in any list, the blocks leave the field as it is. -/
theorem blocksResult_nil {R : Type} [AddCommMonoid R] (t : Template) (box : Box)
    (do_deposit : DepositFn R) (idx_cache idx_depos : Nat → Int) (L : Int → List Nat)
    (shared_ptr : Int → Field R) (field : Field R)
    (hx : 1 ≤ t.stencil_x) (hy : 1 ≤ t.stencil_y) (hL : ∀ T, L T = []) (x y c : Int) :
    blocksResult t box do_deposit idx_cache idx_depos L shared_ptr field x y c = field x y c := by
  unfold blocksResult
  apply foldl_preserve
    (fun T f => foldBackBlock t box idx_depos
      (blockScratch t box do_deposit idx_cache idx_depos (L T) (shared_ptr T) f T) T f)
  intro T _ f
  rw [foldBackBlock_apply t box idx_depos _ T f hx hy]
  by_cases hr : inTileRange t box T x y
  · rw [if_pos hr]
    have : scratchSum t idx_depos
        (blockScratch t box do_deposit idx_cache idx_depos (L T) (shared_ptr T) f T) x y c
        = 0 := by
      unfold scratchSum
      apply List.sum_eq_zero
      intro r hr'
      obtain ⟨n, hn, rfl⟩ := List.mem_map.1 hr'
      rw [List.mem_range] at hn
      split
      · rename_i hen
        unfold blockScratch
        rw [hL T, List.foldl_nil]
        have hD : isDeposComp t idx_depos ((n : Int) + t.max_cache) := by
          refine ⟨by omega, by omega, ?_⟩
          have : ((n : Int) + t.max_cache - t.max_cache).toNat = n := by omega
          rw [this]; exact hen.1
        rw [(stageBlock_spec t box idx_cache idx_depos f T (shared_ptr T) hx hy x y _).1
          ⟨hr, Or.inr hD⟩]
        unfold stagedValue
        rw [if_neg (by omega)]
      · rfl
    rw [this, add_zero]
  · rw [if_neg hr, add_zero]

/-! ## Deposit functors of the stencil kind on the three strategies -/

theorem FootprintsInBox.start {t : Template} {p : Particles} {box : Box}
    (h : FootprintsInBox t p box) : StartCellsInBox p box :=
  fun ip h1 h2 => (h ip h1 h2).1

theorem depositTerm_eq_zero_of_not_footprint {R : Type} [AddCommMonoid R] (t : Template)
    (p : Particles) (w : Nat → (Nat → Int → Int → R) → Nat → Int → Int → R) (ip : Nat)
    (view : Field R) (idx_cache idx_depos : Nat → Int) (x y c : Int)
    (h : ¬ inFootprint t p ip x y) :
    depositTerm t p w ip view idx_cache idx_depos x y c = 0 := by
  unfold depositTerm
  apply List.sum_eq_zero
  intro r hr
  obtain ⟨n, hn, rfl⟩ := List.mem_map.1 hr
  rw [if_neg]
  rintro ⟨-, -, h3⟩
  exact h h3

theorem depositTerm_congr {R : Type} [Add R] [Zero R] (t : Template)
    (p : Particles) (w : Nat → (Nat → Int → Int → R) → Nat → Int → Int → R) (ip : Nat)
    (view view' : Field R) (idx_cache idx_cache' idx_depos : Nat → Int) (x y c : Int)
    (h : w ip (cacheReading t (p.get_start_cell ip) view idx_cache) =
      w ip (cacheReading t (p.get_start_cell ip) view' idx_cache')) :
    depositTerm t p w ip view idx_cache idx_depos x y c =
      depositTerm t p w ip view' idx_cache' idx_depos x y c := by
  unfold depositTerm
  simp only [h]

theorem loc_idx_cache_enabled {t : Template} {idx_cache : Nat → Int} {n : Nat}
    (h : compEnabled t idx_cache n = true) : loc_idx_cache t idx_cache n = n := by
  unfold compEnabled at h
  unfold loc_idx_cache
  cases hd : t.dynamic_comps
  · simp
  · simp only [hd, Bool.not_true, Bool.false_or, bne_iff_ne, ne_eq] at h
    simp [h]

theorem loc_idx_depos_enabled {t : Template} {idx_depos : Nat → Int} {n : Nat}
    (h : compEnabled t idx_depos n = true) :
    loc_idx_depos t idx_depos n = n + t.max_cache := by
  unfold compEnabled at h
  unfold loc_idx_depos
  cases hd : t.dynamic_comps
  · simp
  · simp only [hd, Bool.not_true, Bool.false_or, bne_iff_ne, ne_eq] at h
    simp [h]

theorem filter_valid_eq_nil {p : Particles}
    (hnone : ∀ ip, ip < p.num_particles → p.is_valid ip = false) :
    (List.range p.num_particles).filter p.is_valid = [] := by
  rw [List.filter_eq_nil_iff]
  intro ip hip
  rw [List.mem_range] at hip
  simp [hnone ip hip]

/-- C5: when no particle below `num_particles` is valid (in particular when there is none),
every strategy leaves the field as it was, whatever `do_deposit` is: the GPU strategy returns
the field unchanged (its fold back adds the zeros of staging), the simple loop too, and the CPU
strategy returns it unchanged whenever its assertion on the tile size holds (otherwise the call
aborts without a result). -/
theorem C5_no_valid_particle_leaves_field_unchanged {R : Type} [AddCommMonoid R] (t : Template)
    (tile : Int) (p : Particles) (box : Box) (do_deposit : DepositFn R)
    (idx_cache idx_depos : Nat → Int) (order : List Nat) (shared_ptr : Int → Field R)
    (field : Field R) (hx : 1 ≤ t.stencil_x) (hy : 1 ≤ t.stencil_y)
    (horder : order.Perm (List.range p.num_particles)) (hn : p.num_particles ≤ ll_guard)
    (hnone : ∀ ip, ip < p.num_particles → p.is_valid ip = false) :
    sharedPath t p box do_deposit idx_cache idx_depos order shared_ptr field = some field ∧
    tiledPath t tile p box do_deposit idx_cache idx_depos field =
      (if t.stencil_x ≤ tile ∧ t.stencil_y ≤ tile then .ok field
        else .error .assertion_failed) ∧
    fallbackPath p do_deposit idx_cache idx_depos field = field := by
  have hnil := filter_valid_eq_nil hnone
  refine ⟨?_, ?_, ?_⟩
  · obtain ⟨L, h1, -, h3, -⟩ := sharedPath_some p box order horder hn
    have hL : ∀ T, L T = [] := by
      intro T
      rw [List.eq_nil_iff_forall_not_mem]
      intro ip hip
      obtain ⟨a, b⟩ := h3 T ip hip
      rw [hnone ip a] at b
      exact absurd b (by decide)
    rw [h1 R t do_deposit idx_cache idx_depos shared_ptr field]
    congr 1
    funext x y c
    exact blocksResult_nil t box do_deposit idx_cache idx_depos L shared_ptr field hx hy hL x y c
  · unfold tiledPath
    by_cases ha : t.stencil_x ≤ tile ∧ t.stencil_y ≤ tile
    · rw [if_pos ⟨ha.1, ha.2⟩, if_pos ha]
      obtain ⟨L, h1, -, h3⟩ := tiled_lists_exist_of p box tile (fun ip h1 h2 => by
        rw [hnone ip h1] at h2
        exact absurd h2 (by decide))
      rw [hnil] at h3
      rw [h1, h3.eq_nil]
      rfl
    · rw [if_neg (fun h => ha ⟨h.1, h.2⟩), if_neg ha]
  · unfold fallbackPath
    rw [simpleLoop_eq, hnil]
    rfl

theorem C5_witness :
    sharedPath demoTemplate idleParticles demoBox eraseDeposit (fun _ => 0) (fun _ => 1)
      [0, 1, 2] (fun _ _ _ _ => 7) (fun _ _ _ => 5) = some (fun _ _ _ => 5) ∧
    tiledPath demoTemplate 2 idleParticles demoBox eraseDeposit (fun _ => 0) (fun _ => 1)
      (fun _ _ _ => 5) =
      (if demoTemplate.stencil_x ≤ 2 ∧ demoTemplate.stencil_y ≤ 2 then .ok (fun _ _ _ => 5)
        else .error .assertion_failed) ∧
    fallbackPath idleParticles eraseDeposit (fun _ => 0) (fun _ => 1) (fun _ _ _ => 5) =
      (fun _ _ _ => 5) :=
  C5_no_valid_particle_leaves_field_unchanged demoTemplate 2 idleParticles demoBox
    eraseDeposit (fun _ => 0) (fun _ => 1) [0, 1, 2] (fun _ _ _ _ => 7) (fun _ _ _ => 5)
    (by decide) (by decide) (by decide) (by decide) (fun _ _ => rfl)

/-! ## C6 -/

set_option maxRecDepth 100000 in
/-- C6, as stated, fails for an index map that lists a component as cached and as deposited:
component 0 is `idx_cache[0]` and `idx_depos[0]`, the field is zero, two particles each
deposit 1 into the single cell of the box; after the GPU strategy component 0 holds 2. -/
theorem C6_counterexample :
    (fun (_ : Nat) => (0 : Int)) 0 = 0 ∧
    (sharedPath demoTemplate pairParticles cellBox
      (stencilDeposit demoTemplate pairParticles (fun _ _ _ _ _ => (1 : Int)))
      (fun _ => 0) (fun _ => 0) [0, 1] (fun _ _ _ _ => 0) (fun _ _ _ => 0)).map
        (fun f => f 0 0 0) = some 2 := by
  decide

/-- C6, amended: on the GPU strategy, for every `do_deposit`, every index map and every
particle set, the call returns and the only field entries that can differ from their value
before the call are the entries of a cell of the box in a component `idx_depos[n]` of an
enabled deposited entry `n`; so every component listed in `idx_cache` that is not also such a
deposited component has the same value at every cell after the call as before it. -/
theorem C6_only_deposited_components_change {R : Type} [AddCommMonoid R] (t : Template)
    (p : Particles) (box : Box) (do_deposit : DepositFn R)
    (idx_cache idx_depos : Nat → Int) (order : List Nat) (shared_ptr : Int → Field R)
    (field : Field R) (hx : 1 ≤ t.stencil_x) (hy : 1 ≤ t.stencil_y)
    (hne : box.lo_x ≤ box.hi_x)
    (horder : order.Perm (List.range p.num_particles)) (hn : p.num_particles ≤ ll_guard) :
    ∃ f, sharedPath t p box do_deposit idx_cache idx_depos order shared_ptr field = some f ∧
      (∀ x y c, ¬ (box.contains x y ∧ isDeposited t idx_depos c) → f x y c = field x y c) ∧
      (∀ m, m < t.max_cache → ¬ isDeposited t idx_depos (idx_cache m) →
        ∀ x y, f x y (idx_cache m) = field x y (idx_cache m)) := by
  obtain ⟨L, h1, -⟩ := sharedPath_some p box order horder hn
  have hframe := blocksResult_frame t box do_deposit idx_cache idx_depos L shared_ptr field
    hx hy hne
  exact ⟨_, h1 R t do_deposit idx_cache idx_depos shared_ptr field, hframe,
    fun m _ hm x y => hframe x y _ (fun h => hm h.2)⟩

theorem C6_witness :
    ∃ f, sharedPath demoTemplate demoParticles demoBox eraseDeposit (fun _ => 0) (fun _ => 1)
        [2, 0, 1] (fun _ _ _ _ => 7) (fun _ _ _ => 5) = some f ∧
      (∀ x y c, ¬ (demoBox.contains x y ∧ isDeposited demoTemplate (fun _ => 1) c) →
        f x y c = (fun _ _ _ => 5) x y c) ∧
      (∀ m, m < demoTemplate.max_cache →
        ¬ isDeposited demoTemplate (fun _ => 1) ((fun _ => 0) m) →
        ∀ x y, f x y ((fun _ => 0) m) = (fun _ _ _ => 5) x y ((fun _ => 0) m)) :=
  C6_only_deposited_components_change demoTemplate demoParticles demoBox eraseDeposit
    (fun _ => 0) (fun _ => 1) [2, 0, 1] (fun _ _ _ _ => 7) (fun _ _ _ => 5)
    (by decide) (by decide) (by decide) (by decide) (by decide)

/-! ## C7 -/

theorem compEnabled_sentinel {t : Template} (hdyn : t.dynamic_comps = true) {idx : Nat → Int}
    {n : Nat} (h : idx n = -1) : ¬ compEnabled t idx n = true := by
  unfold compEnabled
  simp [hdyn, h]

theorem isDeposited_dynamic {t : Template} (hdyn : t.dynamic_comps = true)
    (idx_depos : Nat → Int) (c : Int) :
    isDeposited t idx_depos c ↔ ∃ n, n < t.max_depos ∧ idx_depos n ≠ -1 ∧ idx_depos n = c := by
  unfold isDeposited compEnabled
  simp [hdyn]

set_option maxRecDepth 100000 in
/-- C7, as stated, fails for `dynamic_comps = false`: with both index maps equal to the
sentinel -1, the local indices handed to `do_deposit` are 0 and 1, staging reads component -1
of the field into the tile and zeroes the deposited component of the tile, and the fold back
adds into component -1 of the field. -/
theorem C7_counterexample :
    loc_idx_cache staticTemplate (fun _ => -1) 0 = 0 ∧
    loc_idx_depos staticTemplate (fun _ => -1) 0 = 1 ∧
    stageBlock staticTemplate cellBox (fun _ => -1) (fun _ => -1)
      (fun _ _ c => if c = -1 then (5 : Int) else 0) 0 (fun _ _ _ => 7) 0 0 0 = 5 ∧
    stageBlock staticTemplate cellBox (fun _ => -1) (fun _ => -1)
      (fun _ _ c => if c = -1 then (5 : Int) else 0) 0 (fun _ _ _ => 7) 0 0 1 = 0 ∧
    (sharedPath staticTemplate pairParticles cellBox
      (stencilDeposit staticTemplate pairParticles (fun _ _ _ _ _ => (1 : Int)))
      (fun _ => -1) (fun _ => -1) [0, 1] (fun _ _ _ _ => 7)
      (fun _ _ c => if c = -1 then (5 : Int) else 0)).map (fun f => f 0 0 (-1)) = some 7 := by
  decide

/-- C7, amended: in an instantiation with `dynamic_comps = true`, an entry of `idx_cache` or
`idx_depos` equal to -1 is skipped: the local index handed to `do_deposit` for it is -1,
staging leaves its component of the shared memory tile as it was at every cell, the staged
tile does not depend on component -1 of the field, and the call returns a field in which every
component that is not named by an entry of `idx_depos` other than -1 has its value from before
the call at every cell. -/
theorem C7_sentinel_entries_skipped_when_dynamic {R : Type} [AddCommMonoid R] (t : Template)
    (p : Particles) (box : Box) (do_deposit : DepositFn R)
    (idx_cache idx_depos : Nat → Int) (order : List Nat) (shared_ptr : Int → Field R)
    (field : Field R) (hdyn : t.dynamic_comps = true)
    (hx : 1 ≤ t.stencil_x) (hy : 1 ≤ t.stencil_y) (hne : box.lo_x ≤ box.hi_x)
    (horder : order.Perm (List.range p.num_particles)) (hn : p.num_particles ≤ ll_guard) :
    (∀ n, idx_cache n = -1 → loc_idx_cache t idx_cache n = -1) ∧
    (∀ n, idx_depos n = -1 → loc_idx_depos t idx_depos n = -1) ∧
    (∀ (T : Int) (f sp : Field R) (n : Nat) (x y : Int), n < t.max_cache → idx_cache n = -1 →
      stageBlock t box idx_cache idx_depos f T sp x y n = sp x y n) ∧
    (∀ (T : Int) (f sp : Field R) (n : Nat) (x y : Int), n < t.max_depos → idx_depos n = -1 →
      stageBlock t box idx_cache idx_depos f T sp x y (n + t.max_cache) =
        sp x y (n + t.max_cache)) ∧
    (∀ (T : Int) (f f' sp : Field R), (∀ x y c, c ≠ -1 → f x y c = f' x y c) →
      stageBlock t box idx_cache idx_depos f T sp =
        stageBlock t box idx_cache idx_depos f' T sp) ∧
    (∃ f, sharedPath t p box do_deposit idx_cache idx_depos order shared_ptr field = some f ∧
      ∀ x y c, (¬ ∃ n, n < t.max_depos ∧ idx_depos n ≠ -1 ∧ idx_depos n = c) →
        f x y c = field x y c) := by
  refine ⟨?_, ?_, ?_, ?_, ?_, ?_⟩
  · intro n h
    simp [loc_idx_cache, hdyn, h]
  · intro n h
    simp [loc_idx_depos, hdyn, h]
  · intro T f sp n x y hn' h
    apply (stageBlock_spec t box idx_cache idx_depos f T sp hx hy x y n).2
    rintro ⟨-, hc | hd⟩
    · have e : ((n : Int)).toNat = n := by omega
      have := hc.2.2
      rw [e] at this
      exact compEnabled_sentinel hdyn h this
    · have := hd.1
      omega
  · intro T f sp n x y hn' h
    apply (stageBlock_spec t box idx_cache idx_depos f T sp hx hy x y _).2
    rintro ⟨-, hc | hd⟩
    · have := hc.2.1
      omega
    · have e : ((n : Int) + t.max_cache - t.max_cache).toNat = n := by omega
      have := hd.2.2
      rw [e] at this
      exact compEnabled_sentinel hdyn h this
  · intro T f f' sp hff
    funext x y c
    have s1 := stageBlock_spec t box idx_cache idx_depos f T sp hx hy x y c
    have s2 := stageBlock_spec t box idx_cache idx_depos f' T sp hx hy x y c
    by_cases hhit : inTileRange t box T x y ∧
        (isCacheComp t idx_cache c ∨ isDeposComp t idx_depos c)
    · rw [s1.1 hhit, s2.1 hhit]
      unfold stagedValue
      split
      · rename_i hlt
        apply hff
        rcases hhit.2 with hc | hd
        · intro hneg
          exact compEnabled_sentinel hdyn hneg hc.2.2
        · have := hd.1
          omega
      · rfl
    · rw [s1.2 hhit, s2.2 hhit]
  · obtain ⟨L, h1, -⟩ := sharedPath_some p box order horder hn
    refine ⟨_, h1 R t do_deposit idx_cache idx_depos shared_ptr field, ?_⟩
    intro x y c hc
    apply blocksResult_frame t box do_deposit idx_cache idx_depos L shared_ptr field hx hy hne
    rintro ⟨-, hd⟩
    exact hc ((isDeposited_dynamic hdyn idx_depos c).1 hd)

theorem C7_witness :
    (∀ n, (fun (_ : Nat) => (-1 : Int)) n = -1 →
      loc_idx_cache demoTemplate (fun _ => -1) n = -1) ∧
    (∀ n, (fun (_ : Nat) => (-1 : Int)) n = -1 →
      loc_idx_depos demoTemplate (fun _ => -1) n = -1) ∧
    (∀ (T : Int) (f sp : Field Int) (n : Nat) (x y : Int), n < demoTemplate.max_cache →
      (fun (_ : Nat) => (-1 : Int)) n = -1 →
      stageBlock demoTemplate demoBox (fun _ => -1) (fun _ => -1) f T sp x y n = sp x y n) ∧
    (∀ (T : Int) (f sp : Field Int) (n : Nat) (x y : Int), n < demoTemplate.max_depos →
      (fun (_ : Nat) => (-1 : Int)) n = -1 →
      stageBlock demoTemplate demoBox (fun _ => -1) (fun _ => -1) f T sp x y
        (n + demoTemplate.max_cache) = sp x y (n + demoTemplate.max_cache)) ∧
    (∀ (T : Int) (f f' sp : Field Int), (∀ x y c, c ≠ -1 → f x y c = f' x y c) →
      stageBlock demoTemplate demoBox (fun _ => -1) (fun _ => -1) f T sp =
        stageBlock demoTemplate demoBox (fun _ => -1) (fun _ => -1) f' T sp) ∧
    (∃ f, sharedPath demoTemplate demoParticles demoBox eraseDeposit (fun _ => -1)
        (fun _ => -1) [2, 0, 1] (fun _ _ _ _ => 7) (fun _ _ _ => 5) = some f ∧
      ∀ x y c, (¬ ∃ n, n < demoTemplate.max_depos ∧ (fun (_ : Nat) => (-1 : Int)) n ≠ -1 ∧
        (fun (_ : Nat) => (-1 : Int)) n = c) → f x y c = (fun _ _ _ => 5) x y c) :=
  C7_sentinel_entries_skipped_when_dynamic demoTemplate demoParticles demoBox eraseDeposit
    (fun _ => -1) (fun _ => -1) [2, 0, 1] (fun _ _ _ _ => 7) (fun _ _ _ => 5)
    rfl (by decide) (by decide) (by decide) (by decide) (by decide)

/-! ## C8 -/

/-- C8, as stated, fails on a GPU build: with shared deposition switched on and tiling
switched off the GPU strategy runs, so the simple loop is not what runs whenever tiling is
disabled; and with shared deposition switched off and tiling switched on the simple loop runs,
although tiling is enabled and the GPU strategy is not used. -/
theorem C8_counterexample :
    selectStrategy true { m_do_shared_depos := true, m_do_tiling := false, m_tile_size := 16 }
      = Strategy.shared_memory ∧
    selectStrategy true { m_do_shared_depos := false, m_do_tiling := true, m_tile_size := 16 }
      = Strategy.simple_loop ∧
    SharedMemoryDeposition true
      { m_do_shared_depos := false, m_do_tiling := true, m_tile_size := 16 }
      demoTemplate demoParticles eraseDeposit (fun _ _ _ => 5) demoBox (fun _ => 0) (fun _ => 1)
      [0, 1, 2] (fun _ _ _ _ => 7) =
      .ok (fallbackPath demoParticles eraseDeposit (fun _ => 0) (fun _ => 1) (fun _ _ _ => 5)) :=
  ⟨rfl, rfl, rfl⟩

/-- C8, amended: `SharedMemoryDeposition` runs exactly one strategy, chosen by the build and by
the flag that this build reads: on a GPU build (`AMREX_USE_GPU`) the GPU strategy when
`m_do_shared_depos` is set and the simple loop otherwise, whatever `m_do_tiling` is; on a CPU
build the four colour strategy when `m_do_tiling` is set and the simple loop otherwise,
whatever `m_do_shared_depos` is.  The result of the call is the result of that strategy. -/
theorem C8_dispatch {R : Type} [Add R] [Zero R] (amrex_use_gpu : Bool) (h : Settings)
    (t : Template) (p : Particles) (do_deposit : DepositFn R) (field : Field R) (box : Box)
    (idx_cache idx_depos : Nat → Int) (order : List Nat) (shared_ptr : Int → Field R) :
    selectStrategy amrex_use_gpu h =
      (if amrex_use_gpu = true ∧ h.m_do_shared_depos = true then Strategy.shared_memory
        else if amrex_use_gpu = false ∧ h.m_do_tiling = true then Strategy.tiling
        else Strategy.simple_loop) ∧
    SharedMemoryDeposition amrex_use_gpu h t p do_deposit field box idx_cache idx_depos order
        shared_ptr =
      runStrategy (selectStrategy amrex_use_gpu h) h t p do_deposit field box idx_cache
        idx_depos order shared_ptr := by
  unfold selectStrategy SharedMemoryDeposition runStrategy
  cases amrex_use_gpu <;> cases h.m_do_shared_depos <;> cases h.m_do_tiling <;>
    exact ⟨rfl, rfl⟩

/-! ## C9 -/

/-- C9: on a CPU build with tiling switched on, the call fails with the assertion exactly when
the tile size is smaller than `stencil_x` or smaller than `stencil_y`; then no particle has
been binned or deposited (the log of calls is the failure too, and no field is returned), and
the result of `SharedMemoryDeposition` is this failure, not the result of the simple loop;
otherwise the four colour loop runs and its field is returned. -/
theorem C9_tile_size_assertion {R : Type} [Add R] [Zero R] (t : Template) (tile : Int)
    (shared_depos : Bool) (p : Particles) (do_deposit : DepositFn R) (field : Field R)
    (box : Box) (idx_cache idx_depos : Nat → Int) (order : List Nat)
    (shared_ptr : Int → Field R) :
    (tiledPath t tile p box do_deposit idx_cache idx_depos field = .error .assertion_failed ↔
      (tile < t.stencil_x ∨ tile < t.stencil_y)) ∧
    (tiledCalls t tile p box = .error .assertion_failed ↔
      (tile < t.stencil_x ∨ tile < t.stencil_y)) ∧
    (¬ (tile < t.stencil_x ∨ tile < t.stencil_y) →
      tiledPath t tile p box do_deposit idx_cache idx_depos field =
        .ok (tiledLoop (fun ip f => do_deposit ip f idx_cache idx_depos) p box tile field)) ∧
    SharedMemoryDeposition false
        { m_do_shared_depos := shared_depos, m_do_tiling := true, m_tile_size := tile }
        t p do_deposit field box idx_cache idx_depos order shared_ptr =
      tiledPath t tile p box do_deposit idx_cache idx_depos field ∧
    ((tile < t.stencil_x ∨ tile < t.stencil_y) →
      SharedMemoryDeposition false
        { m_do_shared_depos := shared_depos, m_do_tiling := true, m_tile_size := tile }
        t p do_deposit field box idx_cache idx_depos order shared_ptr =
      .error .assertion_failed) := by
  have hpath : (tiledPath t tile p box do_deposit idx_cache idx_depos field =
      .error .assertion_failed ↔ (tile < t.stencil_x ∨ tile < t.stencil_y)) := by
    unfold tiledPath
    by_cases ha : tile ≥ t.stencil_x ∧ tile ≥ t.stencil_y
    · rw [if_pos ha]
      constructor
      · intro h; cases h
      · intro h; omega
    · rw [if_neg ha]
      constructor
      · intro _; omega
      · intro _; rfl
  have hmain : SharedMemoryDeposition false
      { m_do_shared_depos := shared_depos, m_do_tiling := true, m_tile_size := tile }
      t p do_deposit field box idx_cache idx_depos order shared_ptr =
      tiledPath t tile p box do_deposit idx_cache idx_depos field := rfl
  refine ⟨hpath, ?_, ?_, hmain, fun h => hmain.trans (hpath.2 h)⟩
  · unfold tiledCalls
    by_cases ha : tile ≥ t.stencil_x ∧ tile ≥ t.stencil_y
    · rw [if_pos ha]
      constructor
      · intro h; cases h
      · intro h; omega
    · rw [if_neg ha]
      constructor
      · intro _; omega
      · intro _; rfl
  · intro h
    unfold tiledPath
    rw [if_pos (by constructor <;> omega)]

/-! ## C10 -/

theorem tile_gap {a b tile s : Int} (ht : 0 < tile) (hs : s ≤ tile) (ha : 0 ≤ a) (hb : 0 ≤ b)
    (hpar : a.tdiv tile % 2 = b.tdiv tile % 2)
    (hlt : a.tdiv tile < b.tdiv tile) : a + s ≤ b := by
  rw [Int.tdiv_eq_ediv ha (le_of_lt ht)] at hpar hlt
  rw [Int.tdiv_eq_ediv hb (le_of_lt ht)] at hpar hlt
  have h1 : a < (a / tile + 1) * tile := Int.lt_ediv_add_one_mul_self a ht
  have h2 : b / tile * tile ≤ b := Int.ediv_mul_le b (ne_of_gt ht)
  have h3 : a / tile + 2 ≤ b / tile := by omega
  have h4 : (a / tile + 2) * tile ≤ b / tile * tile :=
    mul_le_mul_of_nonneg_right h3 (le_of_lt ht)
  nlinarith

/-- C10: on the CPU, with the tile size at least the stencil size, two particles whose start
cells (in the box) lie in two distinct tiles of the same colour, that is with tile coordinates
of equal parity in x and in y, have stencil footprints without a common cell. -/
theorem C10_same_colour_footprints_disjoint (t : Template) (p : Particles) (box : Box)
    (tile : Int) (ip1 ip2 : Nat)
    (hassert : t.stencil_x ≤ tile ∧ t.stencil_y ≤ tile)
    (hlo1 : box.lo_x ≤ (p.get_start_cell ip1).1 ∧ box.lo_y ≤ (p.get_start_cell ip1).2)
    (hlo2 : box.lo_x ≤ (p.get_start_cell ip2).1 ∧ box.lo_y ≤ (p.get_start_cell ip2).2)
    (hdiff : hostTile p box tile ip1 ≠ hostTile p box tile ip2)
    (hcx : (hostTile p box tile ip1).1 % 2 = (hostTile p box tile ip2).1 % 2)
    (hcy : (hostTile p box tile ip1).2 % 2 = (hostTile p box tile ip2).2 % 2) :
    ∀ x y, ¬ (inFootprint t p ip1 x y ∧ inFootprint t p ip2 x y) := by
  rintro x y ⟨⟨a1, a2, a3, a4⟩, ⟨b1, b2, b3, b4⟩⟩
  have ht : 0 < tile := by omega
  unfold hostTile host_tile_id_x host_tile_id_y at hdiff hcx hcy
  simp only at hcx hcy
  by_cases hx : ((p.get_start_cell ip1).1 - box.lo_x).tdiv tile =
      ((p.get_start_cell ip2).1 - box.lo_x).tdiv tile
  · have hy : ((p.get_start_cell ip1).2 - box.lo_y).tdiv tile ≠
        ((p.get_start_cell ip2).2 - box.lo_y).tdiv tile := by
      intro hy
      exact hdiff (Prod.ext hx hy)
    rcases lt_or_gt_of_ne hy with hlt | hgt
    · have := tile_gap ht hassert.2 (by omega) (by omega) hcy hlt
      omega
    · have := tile_gap ht hassert.2 (by omega) (by omega) hcy.symm hgt
      omega
  · rcases lt_or_gt_of_ne hx with hlt | hgt
    · have := tile_gap ht hassert.1 (by omega) (by omega) hcx hlt
      omega
    · have := tile_gap ht hassert.1 (by omega) (by omega) hcx.symm hgt
      omega

theorem C10_witness :
    hostTile farParticles demoBox 4 0 = (0, 0) ∧ hostTile farParticles demoBox 4 1 = (2, 0) ∧
    ∀ x y, ¬ (inFootprint gridTemplate farParticles 0 x y ∧
      inFootprint gridTemplate farParticles 1 x y) :=
  ⟨by decide, by decide,
    C10_same_colour_footprints_disjoint gridTemplate farParticles demoBox 4 0 1
      (by decide) (by decide) (by decide) (by decide) (by decide) (by decide)⟩

/-! ## C15 -/

theorem countIndex_bounds {box : Box} {cell : Int × Int} (hc : box.contains cell.1 cell.2) :
    binTile box cell * 64 ≤ countIndex box cell ∧
    countIndex box cell < binTile box cell * 64 + 64 := by
  obtain ⟨l1, l2⟩ := binLocId_bounds hc
  have e1 : (binLocId box cell).tmod combine_stride = binLocId box cell % 64 :=
    Int.tmod_eq_emod l1 (by decide)
  unfold countIndex
  rw [e1]
  simp only [combine_stride, threads_per_tile, combine_threads]
  omega

theorem buildLinkedLists_count_nonneg (p : Particles) (box : Box) (l : List Nat)
    (hnd : l.Nodup) (hg : ∀ ip ∈ l, ip ≠ ll_guard) (i : Int) :
    0 ≤ (buildLinkedLists p box l).ll_count i := by
  obtain ⟨lists, inv⟩ := buildLinkedLists_inv p box l hnd hg
  exact inv.count_nonneg i

/-- C15: a valid particle with start cell in the box has tile coordinates inside the tile grid;
the head index `idx * 256 + loc_id % 64 + (count % 4) * 64` it is prepended to (for the count
it read, which is never negative) lies in `[idx * 256, (idx + 1) * 256)` and below
`ntile_x * ntile_y * 256`, and its counter index lies below `ntile_x * ntile_y * 64`; the
deposition kernel decodes `idx` to the same tile coordinates; and every particle walked by the
threads of block `T` has its start cell in the sixteen by sixteen core of tile `T` and its
footprint inside `[tile_begin, tile_begin + 16 + stencil - 1)` in both directions. -/
theorem C15_list_heads_stay_in_their_tile (t : Template) (p : Particles) (box : Box)
    (order : List Nat) (horder : order.Perm (List.range p.num_particles))
    (hn : p.num_particles ≤ ll_guard) (hbox : StartCellsInBox p box) :
    (∀ ip, ip < p.num_particles → p.is_valid ip = true → ∀ count : Int, 0 ≤ count →
      0 ≤ ((p.get_start_cell ip).1 - box.lo_x).tdiv tile_x ∧
      ((p.get_start_cell ip).1 - box.lo_x).tdiv tile_x < ntile_x box ∧
      0 ≤ ((p.get_start_cell ip).2 - box.lo_y).tdiv tile_y ∧
      ((p.get_start_cell ip).2 - box.lo_y).tdiv tile_y < ntile_y box ∧
      binTile box (p.get_start_cell ip) =
        ((p.get_start_cell ip).1 - box.lo_x).tdiv tile_x +
          ((p.get_start_cell ip).2 - box.lo_y).tdiv tile_y * ntile_x box ∧
      binTile box (p.get_start_cell ip) * 256 ≤ headIndex box (p.get_start_cell ip) count ∧
      headIndex box (p.get_start_cell ip) count < (binTile box (p.get_start_cell ip) + 1) * 256 ∧
      0 ≤ headIndex box (p.get_start_cell ip) count ∧
      headIndex box (p.get_start_cell ip) count < ntile_x box * ntile_y box * 256 ∧
      0 ≤ countIndex box (p.get_start_cell ip) ∧
      countIndex box (p.get_start_cell ip) < ntile_x box * ntile_y box * 64 ∧
      tile_id_x box (binTile box (p.get_start_cell ip)) =
        ((p.get_start_cell ip).1 - box.lo_x).tdiv tile_x ∧
      tile_id_y box (binTile box (p.get_start_cell ip)) =
        ((p.get_start_cell ip).2 - box.lo_y).tdiv tile_y) ∧
    (∀ pre, pre <+: order → ∀ i, 0 ≤ (buildLinkedLists p box pre).ll_count i) ∧
    (∀ T : Int, ∃ walked,
      walkThreads (fun ip l => l ++ [ip]) (buildLinkedLists p box order) p.num_particles T []
        = some walked ∧
      ∀ ip ∈ walked,
        tile_begin_x box T ≤ (p.get_start_cell ip).1 ∧
        (p.get_start_cell ip).1 < tile_begin_x box T + 16 ∧
        tile_begin_y box T ≤ (p.get_start_cell ip).2 ∧
        (p.get_start_cell ip).2 < tile_begin_y box T + 16 ∧
        ∀ x y, inFootprint t p ip x y →
          tile_begin_x box T ≤ x ∧ x < tile_begin_x box T + tile_s_x t ∧
          tile_begin_y box T ≤ y ∧ y < tile_begin_y box T + tile_s_y t) := by
  have hmem : ∀ ip, ip ∈ order ↔ ip < p.num_particles := fun ip => by
    rw [horder.mem_iff]; simp
  have hnd : order.Nodup := horder.nodup_iff.2 (List.nodup_range _)
  refine ⟨?_, ?_, ?_⟩
  · intro ip hlt hv count hcount
    have hc := hbox ip hlt hv
    obtain ⟨a1, a2, a3, a4, a5, a6⟩ := cell_tile_bounds hc
    obtain ⟨b1, b2⟩ := binTile_bounds hc
    obtain ⟨c1, c2⟩ := headIndex_bounds hc hcount
    obtain ⟨d1, d2⟩ := countIndex_bounds hc
    have e1 := tile_id_x_binTile hc
    have e2 := tile_id_y_binTile hc
    rw [a1, a2]
    refine ⟨a3, a4, a5, a6, ?_, c1, by omega, by omega, ?_, by omega, ?_, e1, e2⟩
    · simp only [binTile, a1, a2]
    · generalize ntile_x box * ntile_y box = N at b2 ⊢
      omega
    · generalize ntile_x box * ntile_y box = N at b2 ⊢
      omega
  · intro pre hpre i
    have hsub := hpre.sublist
    exact buildLinkedLists_count_nonneg p box pre (hnd.sublist hsub)
      (fun ip hip => by
        have := (hmem ip).1 (hsub.subset hip)
        omega) i
  · obtain ⟨L, h1, h2, h3⟩ := shared_lists_exist p box order horder hn
    obtain ⟨h4, -⟩ := h3 hbox
    intro T
    refine ⟨L T, ?_, ?_⟩
    · rw [h1, foldl_log]
      rfl
    · intro ip hip
      obtain ⟨hlt, hv⟩ := h2 T ip hip
      have hb := tile_begin_binTile (hbox ip hlt hv)
      rw [h4 T ip hip] at hb
      refine ⟨hb.1, hb.2.1, hb.2.2.1, hb.2.2.2, ?_⟩
      rintro x y ⟨f1, f2, f3, f4⟩
      unfold tile_s_x tile_s_y
      simp only [tile_x, tile_y]
      omega

theorem C15_witness :
    (∀ ip, ip < demoParticles.num_particles → demoParticles.is_valid ip = true →
      ∀ count : Int, 0 ≤ count →
      0 ≤ ((demoParticles.get_start_cell ip).1 - demoBox.lo_x).tdiv tile_x ∧
      ((demoParticles.get_start_cell ip).1 - demoBox.lo_x).tdiv tile_x < ntile_x demoBox ∧
      0 ≤ ((demoParticles.get_start_cell ip).2 - demoBox.lo_y).tdiv tile_y ∧
      ((demoParticles.get_start_cell ip).2 - demoBox.lo_y).tdiv tile_y < ntile_y demoBox ∧
      binTile demoBox (demoParticles.get_start_cell ip) =
        ((demoParticles.get_start_cell ip).1 - demoBox.lo_x).tdiv tile_x +
          ((demoParticles.get_start_cell ip).2 - demoBox.lo_y).tdiv tile_y * ntile_x demoBox ∧
      binTile demoBox (demoParticles.get_start_cell ip) * 256 ≤
        headIndex demoBox (demoParticles.get_start_cell ip) count ∧
      headIndex demoBox (demoParticles.get_start_cell ip) count <
        (binTile demoBox (demoParticles.get_start_cell ip) + 1) * 256 ∧
      0 ≤ headIndex demoBox (demoParticles.get_start_cell ip) count ∧
      headIndex demoBox (demoParticles.get_start_cell ip) count <
        ntile_x demoBox * ntile_y demoBox * 256 ∧
      0 ≤ countIndex demoBox (demoParticles.get_start_cell ip) ∧
      countIndex demoBox (demoParticles.get_start_cell ip) <
        ntile_x demoBox * ntile_y demoBox * 64 ∧
      tile_id_x demoBox (binTile demoBox (demoParticles.get_start_cell ip)) =
        ((demoParticles.get_start_cell ip).1 - demoBox.lo_x).tdiv tile_x ∧
      tile_id_y demoBox (binTile demoBox (demoParticles.get_start_cell ip)) =
        ((demoParticles.get_start_cell ip).2 - demoBox.lo_y).tdiv tile_y) ∧
    (∀ pre, pre <+: [2, 0, 1] → ∀ i, 0 ≤ (buildLinkedLists demoParticles demoBox pre).ll_count i) ∧
    (∀ T : Int, ∃ walked,
      walkThreads (fun ip l => l ++ [ip]) (buildLinkedLists demoParticles demoBox [2, 0, 1])
        demoParticles.num_particles T [] = some walked ∧
      ∀ ip ∈ walked,
        tile_begin_x demoBox T ≤ (demoParticles.get_start_cell ip).1 ∧
        (demoParticles.get_start_cell ip).1 < tile_begin_x demoBox T + 16 ∧
        tile_begin_y demoBox T ≤ (demoParticles.get_start_cell ip).2 ∧
        (demoParticles.get_start_cell ip).2 < tile_begin_y demoBox T + 16 ∧
        ∀ x y, inFootprint demoTemplate demoParticles ip x y →
          tile_begin_x demoBox T ≤ x ∧ x < tile_begin_x demoBox T + tile_s_x demoTemplate ∧
          tile_begin_y demoBox T ≤ y ∧ y < tile_begin_y demoBox T + tile_s_y demoTemplate) :=
  C15_list_heads_stay_in_their_tile demoTemplate demoParticles demoBox [2, 0, 1]
    (by decide) (by decide)
    (fun ip h _ => by
      have h3 : ip < 3 := h
      interval_cases ip <;> decide)

/-! ## C16 -/

theorem Chain.next_written {next : Nat → Option Nat} :
    ∀ {l : List Nat} {cur : Nat}, Chain next cur l → ∀ ip ∈ l, ∃ nx, next ip = some nx := by
  intro l
  induction l with
  | nil => intro cur _ ip hip; simp at hip
  | cons a l ih =>
    intro cur h ip hip
    obtain ⟨-, -, nx, h3, h4⟩ := h
    rcases List.mem_cons.1 hip with rfl | hip
    · exact ⟨nx, h3⟩
    · exact ih h4 ip hip

/-- C16: after the binning kernel has handled the particles in any order, the walk from every
list head ends at `ll_guard`: with fuel for as many calls as there are valid particles it
returns, it never reads an entry of `ll_next` that was not written, it visits at most as many
particles as there are valid ones, each of them valid and below `num_particles`, and none
twice; and no particle index is `ll_guard`. -/
theorem C16_list_walk_terminates (p : Particles) (box : Box) (order : List Nat)
    (horder : order.Perm (List.range p.num_particles)) (hn : p.num_particles ≤ ll_guard) :
    (∀ ip, ip < p.num_particles → ip ≠ ll_guard) ∧
    ∀ (head : Int) (fuel : Nat),
      ((List.range p.num_particles).filter p.is_valid).length ≤ fuel →
      ∃ visited,
        walkList (fun ip l => l ++ [ip]) (buildLinkedLists p box order).ll_next fuel
          ((buildLinkedLists p box order).ll_start head) [] = some visited ∧
        visited.length ≤ ((List.range p.num_particles).filter p.is_valid).length ∧
        visited.Nodup ∧
        (∀ ip ∈ visited, ip < p.num_particles ∧ p.is_valid ip = true ∧
          ∃ nx, (buildLinkedLists p box order).ll_next ip = some nx) := by
  have hmem : ∀ ip, ip ∈ order ↔ ip < p.num_particles := fun ip => by
    rw [horder.mem_iff]; simp
  have hnd : order.Nodup := horder.nodup_iff.2 (List.nodup_range _)
  refine ⟨fun ip h => by omega, ?_⟩
  obtain ⟨lists, inv⟩ := buildLinkedLists_inv p box order hnd
    (fun ip hip => by have := (hmem ip).1 hip; omega)
  intro head fuel hfuel
  have hvalid : ∀ ip ∈ lists head, ip < p.num_particles ∧ p.is_valid ip = true := by
    intro ip hip
    obtain ⟨h1, h2⟩ := inv.mem_done head ip hip
    exact ⟨(hmem ip).1 h1, h2⟩
  have hlen : (lists head).length ≤ ((List.range p.num_particles).filter p.is_valid).length := by
    apply List.Subperm.length_le
    apply List.subperm_of_subset (inv.nodup head)
    intro ip hip
    obtain ⟨h1, h2⟩ := hvalid ip hip
    exact List.mem_filter.2 ⟨List.mem_range.2 h1, h2⟩
  refine ⟨lists head, ?_, hlen, inv.nodup head, ?_⟩
  · rw [walkList_chain _ _ _ _ _ _ (inv.chain head) (le_trans hlen hfuel), foldl_log]
    rfl
  · intro ip hip
    exact ⟨(hvalid ip hip).1, (hvalid ip hip).2, (inv.chain head).next_written ip hip⟩

theorem C16_witness :
    (∀ ip, ip < stackedParticles.num_particles → ip ≠ ll_guard) ∧
    ∀ (head : Int) (fuel : Nat),
      ((List.range stackedParticles.num_particles).filter stackedParticles.is_valid).length
          ≤ fuel →
      ∃ visited,
        walkList (fun ip l => l ++ [ip])
          (buildLinkedLists stackedParticles cellBox [4, 0, 3, 5, 1, 2]).ll_next fuel
          ((buildLinkedLists stackedParticles cellBox [4, 0, 3, 5, 1, 2]).ll_start head) [] =
            some visited ∧
        visited.length ≤
          ((List.range stackedParticles.num_particles).filter
            stackedParticles.is_valid).length ∧
        visited.Nodup ∧
        (∀ ip ∈ visited,
          ip < stackedParticles.num_particles ∧ stackedParticles.is_valid ip = true ∧
          ∃ nx, (buildLinkedLists stackedParticles cellBox [4, 0, 3, 5, 1, 2]).ll_next ip =
            some nx) :=
  C16_list_walk_terminates stackedParticles cellBox [4, 0, 3, 5, 1, 2] (by decide) (by decide)

/-! ## C13 -/

theorem foldl_filter_map {α β σ : Type} (g : α → β) (q : β → Prop) [DecidablePred q]
    (f : σ → β → σ) :
    ∀ (l : List α) (s : σ),
      l.foldl (fun s a => if q (g a) then f s (g a) else s) s =
        ((l.map g).filter (fun b => decide (q b))).foldl f s := by
  intro l
  induction l with
  | nil => intro s; rfl
  | cons a l ih =>
    intro s
    by_cases h : q (g a) <;> simp [List.filter_cons, h, ih]

theorem stageBlock_eq_cells {R : Type} [Zero R] (t : Template) (box : Box)
    (idx_cache idx_depos : Nat → Int) (field : Field R) (tile_id : Int) (sp : Field R) :
    stageBlock t box idx_cache idx_depos field tile_id sp =
      (stagedCells t box tile_id).foldl
        (fun sh c => stageCell t idx_cache idx_depos field c.1 c.2 sh) sp := by
  rw [stageBlock_eq]
  exact foldl_filter_map (slotCell t box tile_id)
    (fun c => c.1 ≤ box.hi_x ∧ c.2 ≤ box.hi_y)
    (fun sh c => stageCell t idx_cache idx_depos field c.1 c.2 sh) (blockSlots t) sp

theorem mem_stagedCells (t : Template) (box : Box) (tile_id : Int)
    (hx : 1 ≤ t.stencil_x) (hy : 1 ≤ t.stencil_y) (x y : Int) :
    (x, y) ∈ stagedCells t box tile_id ↔ inTileRange t box tile_id x y := by
  rw [← exists_slot_iff t box tile_id x y hx hy]
  unfold stagedCells
  simp only [List.mem_filter, List.mem_map, decide_eq_true_eq]
  constructor
  · rintro ⟨⟨s, hs, hc⟩, h1, h2⟩
    exact ⟨s, hs, hc, h1, h2⟩
  · rintro ⟨s, hs, hc, h1, h2⟩
    exact ⟨⟨s, hs, hc⟩, h1, h2⟩

theorem nodup_stagedCells (t : Template) (box : Box) (tile_id : Int) (hx : 1 ≤ t.stencil_x) :
    (stagedCells t box tile_id).Nodup := by
  have hW : 0 < tile_s_x t := by simp only [tile_s_x, tile_x]; omega
  unfold stagedCells
  apply List.Nodup.filter
  apply List.Nodup.map_on _ (nodup_blockSlots t)
  intro a ha b hb hab
  rw [mem_blockSlots] at ha hb
  exact slotCell_inj box tile_id ha.1 hb.1 hW hab

theorem count_eq_one_of_nodup {α : Type} [BEq α] [LawfulBEq α] (a : α) :
    ∀ (l : List α), l.Nodup → a ∈ l → l.count a = 1 := by
  intro l
  induction l with
  | nil => intro _ h; simp at h
  | cons b l ih =>
    intro hnd h
    obtain ⟨h1, h2⟩ := List.nodup_cons.1 hnd
    by_cases hb : b = a
    · subst hb
      rw [List.count_cons_self, List.count_eq_zero_of_not_mem h1]
    · rw [List.count_cons_of_ne (Ne.symm hb)]
      rcases List.mem_cons.1 h with rfl | h
      · exact absurd rfl hb
      · exact ih h2 h

/-- C13: the staging loops of the 256 threads of a block visit the cells of
`[tile_begin, tile_end)` once each and no other cell; afterwards, at every such cell, local
component `n` holds `field(sx, sy, idx_cache[n])` for every enabled cached entry `n` and local
component `n + max_cache` holds 0 for every enabled deposited entry `n`. -/
theorem C13_staging_postcondition {R : Type} [Zero R] (t : Template) (box : Box)
    (idx_cache idx_depos : Nat → Int) (field shared_ptr : Field R) (tile_id : Int)
    (hx : 1 ≤ t.stencil_x) (hy : 1 ≤ t.stencil_y) :
    stageBlock t box idx_cache idx_depos field tile_id shared_ptr =
      (stagedCells t box tile_id).foldl
        (fun sh c => stageCell t idx_cache idx_depos field c.1 c.2 sh) shared_ptr ∧
    (∀ x y, ¬ inTileRange t box tile_id x y → (stagedCells t box tile_id).count (x, y) = 0) ∧
    (∀ x y, inTileRange t box tile_id x y →
      (stagedCells t box tile_id).count (x, y) = 1 ∧
      (∀ n, n < t.max_cache → compEnabled t idx_cache n = true →
        stageBlock t box idx_cache idx_depos field tile_id shared_ptr x y n =
          field x y (idx_cache n)) ∧
      (∀ n, n < t.max_depos → compEnabled t idx_depos n = true →
        stageBlock t box idx_cache idx_depos field tile_id shared_ptr x y (n + t.max_cache) =
          0)) := by
  refine ⟨stageBlock_eq_cells t box idx_cache idx_depos field tile_id shared_ptr, ?_, ?_⟩
  · intro x y h
    apply List.count_eq_zero_of_not_mem
    rw [mem_stagedCells t box tile_id hx hy]
    exact h
  · intro x y h
    refine ⟨?_, ?_, ?_⟩
    · exact count_eq_one_of_nodup (x, y) _ (nodup_stagedCells t box tile_id hx)
        ((mem_stagedCells t box tile_id hx hy x y).2 h)
    · intro n hn hen
      have hc : isCacheComp t idx_cache (n : Int) := ⟨by omega, by omega, by simpa using hen⟩
      rw [(stageBlock_spec t box idx_cache idx_depos field tile_id shared_ptr hx hy x y n).1
        ⟨h, Or.inl hc⟩]
      unfold stagedValue
      rw [if_pos (by omega)]
      simp
    · intro n hn hen
      have hd : isDeposComp t idx_depos ((n : Int) + t.max_cache) := by
        refine ⟨by omega, by omega, ?_⟩
        have : ((n : Int) + t.max_cache - t.max_cache).toNat = n := by omega
        rw [this]; exact hen
      rw [(stageBlock_spec t box idx_cache idx_depos field tile_id shared_ptr hx hy x y _).1
        ⟨h, Or.inr hd⟩]
      unfold stagedValue
      rw [if_neg (by omega)]

theorem C13_witness :
    stageBlock demoTemplate demoBox (fun _ => 0) (fun _ => 1) (fun _ _ _ => (5 : Int)) 0
        (fun _ _ _ => 7) =
      (stagedCells demoTemplate demoBox 0).foldl
        (fun sh c => stageCell demoTemplate (fun _ => 0) (fun _ => 1) (fun _ _ _ => (5 : Int))
          c.1 c.2 sh) (fun _ _ _ => 7) ∧
    (∀ x y, ¬ inTileRange demoTemplate demoBox 0 x y →
      (stagedCells demoTemplate demoBox 0).count (x, y) = 0) ∧
    (∀ x y, inTileRange demoTemplate demoBox 0 x y →
      (stagedCells demoTemplate demoBox 0).count (x, y) = 1 ∧
      (∀ n, n < demoTemplate.max_cache → compEnabled demoTemplate (fun _ => 0) n = true →
        stageBlock demoTemplate demoBox (fun _ => 0) (fun _ => 1) (fun _ _ _ => (5 : Int)) 0
          (fun _ _ _ => 7) x y n = (fun _ _ _ => (5 : Int)) x y ((fun _ => 0) n)) ∧
      (∀ n, n < demoTemplate.max_depos → compEnabled demoTemplate (fun _ => 1) n = true →
        stageBlock demoTemplate demoBox (fun _ => 0) (fun _ => 1) (fun _ _ _ => (5 : Int)) 0
          (fun _ _ _ => 7) x y (n + demoTemplate.max_cache) = 0)) :=
  C13_staging_postcondition demoTemplate demoBox (fun _ => 0) (fun _ => 1)
    (fun _ _ _ => (5 : Int)) (fun _ _ _ => 7) 0 (by decide) (by decide)

/-! ## C14 -/

/-- C14: the index handed to `do_deposit` for an enabled cached entry `n` is `n`, for an
enabled deposited entry `n` it is `n + max_cache`; these local indices are pairwise distinct;
at a cell of the tile, staging writes exactly the components that are a local index of an
enabled entry (the other components keep what the shared memory held); and the fold back adds
to field component `idx_depos[n]` the tile component at the local index of the enabled
deposited entry `n`, and reads nothing else. -/
theorem C14_tile_local_indices {R : Type} [AddCommMonoid R] (t : Template) (box : Box)
    (idx_cache idx_depos : Nat → Int) (field shared_ptr : Field R) (tile_id : Int)
    (hx : 1 ≤ t.stencil_x) (hy : 1 ≤ t.stencil_y) :
    (∀ n, n < t.max_cache → compEnabled t idx_cache n = true →
      loc_idx_cache t idx_cache n = n ∧ (0 : Int) ≤ n ∧ (n : Int) < t.max_cache) ∧
    (∀ n, n < t.max_depos → compEnabled t idx_depos n = true →
      loc_idx_depos t idx_depos n = n + t.max_cache ∧
      (t.max_cache : Int) ≤ n + t.max_cache ∧
      (n : Int) + t.max_cache < t.max_cache + t.max_depos) ∧
    (∀ n m, compEnabled t idx_cache n = true → compEnabled t idx_cache m = true →
      loc_idx_cache t idx_cache n = loc_idx_cache t idx_cache m → n = m) ∧
    (∀ n m, compEnabled t idx_depos n = true → compEnabled t idx_depos m = true →
      loc_idx_depos t idx_depos n = loc_idx_depos t idx_depos m → n = m) ∧
    (∀ n m, n < t.max_cache → compEnabled t idx_cache n = true →
      compEnabled t idx_depos m = true →
      loc_idx_cache t idx_cache n ≠ loc_idx_depos t idx_depos m) ∧
    (∀ x y c, inTileRange t box tile_id x y →
      ((∃ n, n < t.max_cache ∧ compEnabled t idx_cache n = true ∧
          loc_idx_cache t idx_cache n = c) ∨
        (∃ n, n < t.max_depos ∧ compEnabled t idx_depos n = true ∧
          loc_idx_depos t idx_depos n = c)) →
      stageBlock t box idx_cache idx_depos field tile_id shared_ptr x y c =
        stagedValue t idx_cache field x y c) ∧
    (∀ x y c,
      ¬ ((∃ n, n < t.max_cache ∧ compEnabled t idx_cache n = true ∧
          loc_idx_cache t idx_cache n = c) ∨
        (∃ n, n < t.max_depos ∧ compEnabled t idx_depos n = true ∧
          loc_idx_depos t idx_depos n = c)) →
      stageBlock t box idx_cache idx_depos field tile_id shared_ptr x y c =
        shared_ptr x y c) ∧
    (∀ (shared_arr f : Field R) x y c,
      foldBackBlock t box idx_depos shared_arr tile_id f x y c =
        f x y c + (if inTileRange t box tile_id x y then
          ((List.range t.max_depos).map (fun n =>
            if compEnabled t idx_depos n = true ∧ idx_depos n = c then
              shared_arr x y (loc_idx_depos t idx_depos n) else 0)).sum
          else 0)) := by
  have hcomp : ∀ c : Int,
      ((∃ n, n < t.max_cache ∧ compEnabled t idx_cache n = true ∧
          loc_idx_cache t idx_cache n = c) ∨
        (∃ n, n < t.max_depos ∧ compEnabled t idx_depos n = true ∧
          loc_idx_depos t idx_depos n = c)) ↔
      (isCacheComp t idx_cache c ∨ isDeposComp t idx_depos c) := by
    intro c
    constructor
    · rintro (⟨n, h1, h2, h3⟩ | ⟨n, h1, h2, h3⟩)
      · rw [loc_idx_cache_enabled h2] at h3
        subst h3
        exact Or.inl ⟨by omega, by omega, by simpa using h2⟩
      · rw [loc_idx_depos_enabled h2] at h3
        subst h3
        refine Or.inr ⟨by omega, by omega, ?_⟩
        have : ((n : Int) + t.max_cache - t.max_cache).toNat = n := by omega
        rw [this]; exact h2
    · rintro (⟨h1, h2, h3⟩ | ⟨h1, h2, h3⟩)
      · exact Or.inl ⟨c.toNat, by omega, h3, by rw [loc_idx_cache_enabled h3]; omega⟩
      · exact Or.inr ⟨(c - t.max_cache).toNat, by omega, h3,
          by rw [loc_idx_depos_enabled h3]; omega⟩
  refine ⟨?_, ?_, ?_, ?_, ?_, ?_, ?_, ?_⟩
  · intro n hn hen
    exact ⟨loc_idx_cache_enabled hen, by omega, by omega⟩
  · intro n hn hen
    exact ⟨loc_idx_depos_enabled hen, by omega, by omega⟩
  · intro n m h1 h2 h
    rw [loc_idx_cache_enabled h1, loc_idx_cache_enabled h2] at h
    omega
  · intro n m h1 h2 h
    rw [loc_idx_depos_enabled h1, loc_idx_depos_enabled h2] at h
    omega
  · intro n m hn h1 h2 h
    rw [loc_idx_cache_enabled h1, loc_idx_depos_enabled h2] at h
    omega
  · intro x y c hr hc
    exact (stageBlock_spec t box idx_cache idx_depos field tile_id shared_ptr hx hy x y c).1
      ⟨hr, (hcomp c).1 hc⟩
  · intro x y c hc
    apply (stageBlock_spec t box idx_cache idx_depos field tile_id shared_ptr hx hy x y c).2
    rintro ⟨-, h⟩
    exact hc ((hcomp c).2 h)
  · intro shared_arr f x y c
    rw [foldBackBlock_apply t box idx_depos shared_arr tile_id f hx hy]
    congr 2
    unfold scratchSum
    congr 1
    apply List.map_congr_left
    intro n _
    by_cases he : compEnabled t idx_depos n = true ∧ idx_depos n = c
    · rw [if_pos he, if_pos he, loc_idx_depos_enabled he.1]
    · rw [if_neg he, if_neg he]

theorem C14_witness :
    (∀ n, n < demoTemplate.max_cache → compEnabled demoTemplate (fun _ => 0) n = true →
      loc_idx_cache demoTemplate (fun _ => 0) n = n ∧ (0 : Int) ≤ n ∧
        (n : Int) < demoTemplate.max_cache) ∧
    (∀ n, n < demoTemplate.max_depos → compEnabled demoTemplate (fun _ => 1) n = true →
      loc_idx_depos demoTemplate (fun _ => 1) n = n + demoTemplate.max_cache ∧
      (demoTemplate.max_cache : Int) ≤ n + demoTemplate.max_cache ∧
      (n : Int) + demoTemplate.max_cache < demoTemplate.max_cache + demoTemplate.max_depos) ∧
    (∀ n m, compEnabled demoTemplate (fun _ => 0) n = true →
      compEnabled demoTemplate (fun _ => 0) m = true →
      loc_idx_cache demoTemplate (fun _ => 0) n = loc_idx_cache demoTemplate (fun _ => 0) m →
      n = m) ∧
    (∀ n m, compEnabled demoTemplate (fun _ => 1) n = true →
      compEnabled demoTemplate (fun _ => 1) m = true →
      loc_idx_depos demoTemplate (fun _ => 1) n = loc_idx_depos demoTemplate (fun _ => 1) m →
      n = m) ∧
    (∀ n m, n < demoTemplate.max_cache → compEnabled demoTemplate (fun _ => 0) n = true →
      compEnabled demoTemplate (fun _ => 1) m = true →
      loc_idx_cache demoTemplate (fun _ => 0) n ≠ loc_idx_depos demoTemplate (fun _ => 1) m) ∧
    (∀ x y c, inTileRange demoTemplate demoBox 0 x y →
      ((∃ n, n < demoTemplate.max_cache ∧ compEnabled demoTemplate (fun _ => 0) n = true ∧
          loc_idx_cache demoTemplate (fun _ => 0) n = c) ∨
        (∃ n, n < demoTemplate.max_depos ∧ compEnabled demoTemplate (fun _ => 1) n = true ∧
          loc_idx_depos demoTemplate (fun _ => 1) n = c)) →
      stageBlock demoTemplate demoBox (fun _ => 0) (fun _ => 1) (fun _ _ _ => (5 : Int)) 0
        (fun _ _ _ => 7) x y c =
        stagedValue demoTemplate (fun _ => 0) (fun _ _ _ => (5 : Int)) x y c) ∧
    (∀ x y c,
      ¬ ((∃ n, n < demoTemplate.max_cache ∧ compEnabled demoTemplate (fun _ => 0) n = true ∧
          loc_idx_cache demoTemplate (fun _ => 0) n = c) ∨
        (∃ n, n < demoTemplate.max_depos ∧ compEnabled demoTemplate (fun _ => 1) n = true ∧
          loc_idx_depos demoTemplate (fun _ => 1) n = c)) →
      stageBlock demoTemplate demoBox (fun _ => 0) (fun _ => 1) (fun _ _ _ => (5 : Int)) 0
        (fun _ _ _ => 7) x y c = (fun _ _ _ => (7 : Int)) x y c) ∧
    (∀ (shared_arr f : Field Int) x y c,
      foldBackBlock demoTemplate demoBox (fun _ => 1) shared_arr 0 f x y c =
        f x y c + (if inTileRange demoTemplate demoBox 0 x y then
          ((List.range demoTemplate.max_depos).map (fun n =>
            if compEnabled demoTemplate (fun _ => 1) n = true ∧ (fun _ => (1 : Int)) n = c then
              shared_arr x y (loc_idx_depos demoTemplate (fun _ => 1) n) else 0)).sum
          else 0)) :=
  C14_tile_local_indices demoTemplate demoBox (fun _ => 0) (fun _ => 1)
    (fun _ _ _ => (5 : Int)) (fun _ _ _ => 7) 0 (by decide) (by decide)

/-! ## C12 -/

theorem offset_bounds {dx dy n w h W H N : Int} (h1 : 0 ≤ dx) (h2 : dx < w) (h3 : 0 ≤ dy)
    (h4 : dy < h) (h5 : 0 ≤ n) (h6 : n < N) (hw : w ≤ W) (hh : h ≤ H) :
    0 ≤ dx + dy * w + n * (w * h) ∧ dx + dy * w + n * (w * h) < W * H * N := by
  have hw0 : 0 < w := by omega
  have hh0 : 0 < h := by omega
  have a1 : 0 ≤ dy * w := mul_nonneg h3 (le_of_lt hw0)
  have a2 : 0 ≤ w * h := mul_nonneg (le_of_lt hw0) (le_of_lt hh0)
  have a3 : 0 ≤ n * (w * h) := mul_nonneg h5 a2
  have a4 : (dy + 1) * w ≤ h * w := mul_le_mul_of_nonneg_right (by omega) (le_of_lt hw0)
  have a5 : (n + 1) * (w * h) ≤ N * (w * h) := mul_le_mul_of_nonneg_right (by omega) a2
  have a6 : w * h ≤ W * H := mul_le_mul hw hh (le_of_lt hh0) (by omega)
  have a7 : N * (w * h) ≤ N * (W * H) := mul_le_mul_of_nonneg_left a6 (by omega)
  constructor
  · omega
  · nlinarith

theorem offset_inj {dx dy n dx' dy' n' w h : Int} (h1 : 0 ≤ dx) (h2 : dx < w) (h3 : 0 ≤ dy)
    (h4 : dy < h) (h1' : 0 ≤ dx') (h2' : dx' < w) (h3' : 0 ≤ dy') (h4' : dy' < h)
    (he : dx + dy * w + n * (w * h) = dx' + dy' * w + n' * (w * h)) :
    dx = dx' ∧ dy = dy' ∧ n = n' := by
  have hw0 : 0 < w := by omega
  have b1 : 0 ≤ dy * w := mul_nonneg h3 (le_of_lt hw0)
  have b1' : 0 ≤ dy' * w := mul_nonneg h3' (le_of_lt hw0)
  have b2 : (dy + 1) * w ≤ h * w := mul_le_mul_of_nonneg_right (by omega) (le_of_lt hw0)
  have b2' : (dy' + 1) * w ≤ h * w := mul_le_mul_of_nonneg_right (by omega) (le_of_lt hw0)
  have c1 : 0 ≤ dy * w + dx := by omega
  have c2 : dy * w + dx < w * h := by nlinarith
  have c1' : 0 ≤ dy' * w + dx' := by omega
  have c2' : dy' * w + dx' < w * h := by nlinarith
  have e1 := tile_index_inj c1 c2 c1' c2'
    (show n * (w * h) + (dy * w + dx) = n' * (w * h) + (dy' * w + dx') by omega)
  have e2 := tile_index_inj h1 h2 h1' h2' e1.2
  exact ⟨e2.2, e2.1, e1.1⟩

/-- C12: for a box that is not empty, a block `tile_id` of the launch and a thread of the
block, every cell at which the staging and fold back loops access the field (the loop values
that pass the test `sx <= hi_x && sy <= hi_y`) is a cell of the box and lies in the range
`[tile_begin, tile_end)` of the view `shared_arr`; and every cell of that range with every
local component below `max_cache + max_depos` has its own offset in the shared memory buffer,
not negative and below `tile_s_x * tile_s_y * (max_cache + max_depos)`. -/
theorem C12_accesses_in_bounds (t : Template) (box : Box) (tile_id : Int)
    (hx : 1 ≤ t.stencil_x) (hy : 1 ≤ t.stencil_y)
    (hne : box.lo_x ≤ box.hi_x ∧ box.lo_y ≤ box.hi_y)
    (hT : 0 ≤ tile_id ∧ tile_id < ntile_x box * ntile_y box) :
    (∀ thread, 0 ≤ thread → thread < threads_per_tile →
      ∀ s ∈ forRange thread (tile_s_x t * tile_s_y t) threads_per_tile,
        (slotCell t box tile_id s).1 ≤ box.hi_x ∧ (slotCell t box tile_id s).2 ≤ box.hi_y →
        box.contains (slotCell t box tile_id s).1 (slotCell t box tile_id s).2 ∧
        inTileRange t box tile_id (slotCell t box tile_id s).1 (slotCell t box tile_id s).2) ∧
    (∀ x y n, inTileRange t box tile_id x y →
      0 ≤ n → n < (t.max_cache : Int) + t.max_depos →
      0 ≤ sharedOffset t box tile_id x y n ∧
      sharedOffset t box tile_id x y n < shared_ptr_size t) ∧
    (∀ x y n x' y' n', inTileRange t box tile_id x y → inTileRange t box tile_id x' y' →
      sharedOffset t box tile_id x y n = sharedOffset t box tile_id x' y' n' →
      x = x' ∧ y = y' ∧ n = n') := by
  refine ⟨?_, ?_, ?_⟩
  · intro thread h0 h1 s hs hguard
    have hs' : s ∈ blockSlots t := by
      rw [mem_forRange _ _ threads_per_tile (by decide)] at hs
      rw [mem_blockSlots]
      omega
    have hr : inTileRange t box tile_id (slotCell t box tile_id s).1
        (slotCell t box tile_id s).2 :=
      (exists_slot_iff t box tile_id _ _ hx hy).1 ⟨s, hs', rfl, hguard.1, hguard.2⟩
    exact ⟨inTileRange_in_box hne.1 hT.1 hr, hr⟩
  · rintro x y n ⟨r1, r2, r3, r4⟩ hn0 hn1
    unfold sharedOffset array3Offset shared_ptr_size
    have hw : tile_end_x t box tile_id - tile_begin_x box tile_id ≤ tile_s_x t := by
      unfold tile_end_x; omega
    have hh : tile_end_y t box tile_id - tile_begin_y box tile_id ≤ tile_s_y t := by
      unfold tile_end_y; omega
    exact offset_bounds (by omega) (by omega) (by omega) (by omega) hn0 hn1 hw hh
  · rintro x y n x' y' n' ⟨r1, r2, r3, r4⟩ ⟨r1', r2', r3', r4'⟩ he
    unfold sharedOffset array3Offset at he
    have := @offset_inj (x - tile_begin_x box tile_id) (y - tile_begin_y box tile_id) n
      (x' - tile_begin_x box tile_id) (y' - tile_begin_y box tile_id) n' _ _
      (by omega) (by omega) (by omega) (by omega) (by omega) (by omega) (by omega) (by omega) he
    omega

theorem C12_witness :
    (∀ thread, 0 ≤ thread → thread < threads_per_tile →
      ∀ s ∈ forRange thread (tile_s_x gridTemplate * tile_s_y gridTemplate) threads_per_tile,
        (slotCell gridTemplate guardedBox 1 s).1 ≤ guardedBox.hi_x ∧
          (slotCell gridTemplate guardedBox 1 s).2 ≤ guardedBox.hi_y →
        guardedBox.contains (slotCell gridTemplate guardedBox 1 s).1
          (slotCell gridTemplate guardedBox 1 s).2 ∧
        inTileRange gridTemplate guardedBox 1 (slotCell gridTemplate guardedBox 1 s).1
          (slotCell gridTemplate guardedBox 1 s).2) ∧
    (∀ x y n, inTileRange gridTemplate guardedBox 1 x y →
      0 ≤ n → n < (gridTemplate.max_cache : Int) + gridTemplate.max_depos →
      0 ≤ sharedOffset gridTemplate guardedBox 1 x y n ∧
      sharedOffset gridTemplate guardedBox 1 x y n < shared_ptr_size gridTemplate) ∧
    (∀ x y n x' y' n', inTileRange gridTemplate guardedBox 1 x y →
      inTileRange gridTemplate guardedBox 1 x' y' →
      sharedOffset gridTemplate guardedBox 1 x y n =
        sharedOffset gridTemplate guardedBox 1 x' y' n' →
      x = x' ∧ y = y' ∧ n = n') :=
  C12_accesses_in_bounds gridTemplate guardedBox 1 (by decide) (by decide) (by decide)
    (by decide)

/-! ## C17 -/

theorem forRange_two : forRange 0 2 1 = [0, 1] := by decide

theorem mem_colourClass (ntx nty px py : Int) (a : Int × Int) :
    a ∈ colourClass ntx nty px py ↔
      (px ≤ a.1 ∧ a.1 < ntx ∧ 2 ∣ a.1 - px) ∧ (py ≤ a.2 ∧ a.2 < nty ∧ 2 ∣ a.2 - py) := by
  obtain ⟨ix, iy⟩ := a
  simp only [colourClass, List.mem_flatMap, List.mem_map,
    mem_forRange _ _ 2 (by decide : (0:Int) < 2), Prod.mk.injEq]
  constructor
  · rintro ⟨x, hx, y, hy, rfl, rfl⟩
    exact ⟨hx, hy⟩
  · rintro ⟨hx, hy⟩
    exact ⟨ix, hx, iy, hy, rfl, rfl⟩

/-- The four colour loop handles the tiles of each colour in the order of `colourClass`. -/
theorem tiledLoop_eq_classes {σ : Type} (body : Nat → σ → σ) (p : Particles) (box : Box)
    (tile : Int) (s : σ) :
    tiledLoop body p box tile s =
      tiledLoopIn (colourClass (host_ntile_x box tile) (host_ntile_y box tile)) body p box
        tile s := by
  unfold tiledLoop tiledLoopIn colourClass tileLoop
  simp only [← foldl_flatMap, ← foldl_map']

/-- The loop over a tile visits the particles of the bin of the tile. -/
theorem tileLoop_eq {σ : Type} (body : Nat → σ → σ) (p : Particles) (box : Box) (tile : Int)
    (a : Int × Int) (ha : a ∈ colourTiles (host_ntile_x box tile) (host_ntile_y box tile))
    (s : σ) :
    tileLoop body p box tile a s =
      ((List.range p.num_particles).filter
        (fun ip => hostBin p box tile ip = a.1 * host_ntile_y box tile + a.2)).foldl
        (fun s ip => body ip s) s := by
  rw [mem_colourTiles] at ha
  obtain ⟨t0, t1⟩ := tile_index_bounds ha.1 ha.2.1 ha.2.2.1 ha.2.2.2
  have e1 : (a.1 * host_ntile_y box tile + a.2 + 1).toNat =
      (a.1 * host_ntile_y box tile + a.2).toNat + 1 := by omega
  have e2 : (((a.1 * host_ntile_y box tile + a.2).toNat : Nat) : Int) =
      a.1 * host_ntile_y box tile + a.2 := Int.toNat_of_nonneg t0
  unfold tileLoop
  simp only
  rw [foldl_map' (fun (i : Int) => (binsPermutation p.num_particles
      (host_ntile_x box tile * host_ntile_y box tile + 1).toNat
      (hostBin p box tile)).getD i.toNat 0) (fun s ip => body ip s),
    e1, bin_slice _ _ _ _ (by omega), e2]

theorem mem_tile_bin {p : Particles} {box : Box} {tile : Int} (ht : 0 < tile)
    (hfit : TileCountsFit box tile) (hbox : StartCellsInBox p box) {a : Int × Int}
    (ha : a ∈ colourTiles (host_ntile_x box tile) (host_ntile_y box tile)) {ip : Nat}
    (hip : ip ∈ (List.range p.num_particles).filter
      (fun ip => hostBin p box tile ip = a.1 * host_ntile_y box tile + a.2)) :
    ip < p.num_particles ∧ p.is_valid ip = true ∧ hostTile p box tile ip = a := by
  rw [mem_colourTiles] at ha
  obtain ⟨t0, t1⟩ := tile_index_bounds ha.1 ha.2.1 ha.2.2.1 ha.2.2.2
  simp only [List.mem_filter, List.mem_range, decide_eq_true_eq] at hip
  obtain ⟨hlt, hbin⟩ := hip
  have hv : p.is_valid ip = true := by
    by_contra hv
    simp only [hostBin, hv] at hbin
    simp only [Bool.false_eq_true, ↓reduceIte] at hbin
    omega
  obtain ⟨ix, iy, b1, b2, b3, b4, ex, ey, hb⟩ := hostBin_valid ht hfit hv (hbox ip hlt hv)
  rw [hb] at hbin
  obtain ⟨i1, i2⟩ := tile_index_inj b3 b4 ha.2.2.1 ha.2.2.2 hbin
  refine ⟨hlt, hv, ?_⟩
  unfold hostTile
  rw [← ex, ← ey, i1, i2]

/-- Two deposits with footprints that share no cell commute. -/
theorem deposit_comm {R : Type} {t : Template} {p : Particles} {D : Nat → Field R → Field R}
    (hD : LocalToFootprint t p D) (i j : Nat)
    (hdis : ∀ x y, ¬ (inFootprint t p i x y ∧ inFootprint t p j x y)) (f : Field R) :
    D j (D i f) = D i (D j f) := by
  funext x y c
  by_cases hi : inFootprint t p i x y
  · have hj : ¬ inFootprint t p j x y := fun hj => hdis x y ⟨hi, hj⟩
    rw [(hD j).1 _ x y c hj]
    apply (hD i).2 f (D j f) _ x y c hi
    intro x' y' c' hi'
    exact ((hD j).1 f x' y' c' (fun hj' => hdis x' y' ⟨hi', hj'⟩)).symm
  · by_cases hj : inFootprint t p j x y
    · rw [(hD i).1 _ x y c hi]
      apply (hD j).2 (D i f) f _ x y c hj
      intro x' y' c' hj'
      exact (hD i).1 f x' y' c' (fun hi' => hdis x' y' ⟨hi', hj'⟩)
    · rw [(hD j).1 _ x y c hj, (hD i).1 _ x y c hi, (hD i).1 _ x y c hi, (hD j).1 _ x y c hj]

theorem foldl_comm_single {α σ : Type} (f : σ → α → σ) (a : α) :
    ∀ (l : List α), (∀ b ∈ l, ∀ s, f (f s a) b = f (f s b) a) →
      ∀ s, l.foldl f (f s a) = f (l.foldl f s) a := by
  intro l
  induction l with
  | nil => intro _ s; rfl
  | cons b l ih =>
    intro h s
    rw [List.foldl_cons, List.foldl_cons, h b (List.mem_cons_self _ _) s]
    exact ih (fun c hc s => h c (List.mem_cons_of_mem _ hc) s) _

theorem foldl_comm_lists {α σ : Type} (f : σ → α → σ) :
    ∀ (l1 l2 : List α), (∀ a ∈ l1, ∀ b ∈ l2, ∀ s, f (f s a) b = f (f s b) a) →
      ∀ s, l2.foldl f (l1.foldl f s) = l1.foldl f (l2.foldl f s) := by
  intro l1
  induction l1 with
  | nil => intro l2 _ s; rfl
  | cons a l1 ih =>
    intro l2 h s
    rw [List.foldl_cons, List.foldl_cons,
      ih l2 (fun c hc b hb s => h c (List.mem_cons_of_mem _ hc) b hb s),
      foldl_comm_single f a l2 (fun b hb s => h a (List.mem_cons_self _ _) b hb s)]

/-- Footprints of particles in two distinct tiles of one colour share no cell. -/
theorem footprints_disjoint_of_same_colour (t : Template) (p : Particles) (box : Box)
    (tile : Int) (ip1 ip2 : Nat)
    (hassert : t.stencil_x ≤ tile ∧ t.stencil_y ≤ tile)
    (hlo1 : box.lo_x ≤ (p.get_start_cell ip1).1 ∧ box.lo_y ≤ (p.get_start_cell ip1).2)
    (hlo2 : box.lo_x ≤ (p.get_start_cell ip2).1 ∧ box.lo_y ≤ (p.get_start_cell ip2).2)
    (hdiff : hostTile p box tile ip1 ≠ hostTile p box tile ip2)
    (hcx : (hostTile p box tile ip1).1 % 2 = (hostTile p box tile ip2).1 % 2)
    (hcy : (hostTile p box tile ip1).2 % 2 = (hostTile p box tile ip2).2 % 2) :
    ∀ x y, ¬ (inFootprint t p ip1 x y ∧ inFootprint t p ip2 x y) := by
  rintro x y ⟨⟨a1, a2, a3, a4⟩, ⟨b1, b2, b3, b4⟩⟩
  have ht : 0 < tile := by omega
  unfold hostTile host_tile_id_x host_tile_id_y at hdiff hcx hcy
  simp only at hcx hcy
  by_cases hx : ((p.get_start_cell ip1).1 - box.lo_x).tdiv tile =
      ((p.get_start_cell ip2).1 - box.lo_x).tdiv tile
  · have hy : ((p.get_start_cell ip1).2 - box.lo_y).tdiv tile ≠
        ((p.get_start_cell ip2).2 - box.lo_y).tdiv tile := by
      intro hy
      exact hdiff (Prod.ext hx hy)
    rcases lt_or_gt_of_ne hy with hlt | hgt
    · have := tile_gap ht hassert.2 (by omega) (by omega) hcy hlt
      omega
    · have := tile_gap ht hassert.2 (by omega) (by omega) hcy.symm hgt
      omega
  · rcases lt_or_gt_of_ne hx with hlt | hgt
    · have := tile_gap ht hassert.1 (by omega) (by omega) hcx hlt
      omega
    · have := tile_gap ht hassert.1 (by omega) (by omega) hcx.symm hgt
      omega

/-- The loops over two distinct tiles of one colour commute. -/
theorem tileLoop_comm {R : Type} (t : Template) (p : Particles) (box : Box) (tile : Int)
    (D : Nat → Field R → Field R) (hs : 1 ≤ t.stencil_x)
    (hassert : t.stencil_x ≤ tile ∧ t.stencil_y ≤ tile) (hfit : TileCountsFit box tile)
    (hbox : StartCellsInBox p box) (hD : LocalToFootprint t p D) (px py : Int) (hpx : px = 0 ∨ px = 1) (hpy : py = 0 ∨ py = 1)
    (a b : Int × Int)
    (ha : a ∈ colourClass (host_ntile_x box tile) (host_ntile_y box tile) px py)
    (hb : b ∈ colourClass (host_ntile_x box tile) (host_ntile_y box tile) px py)
    (f : Field R) :
    tileLoop D p box tile b (tileLoop D p box tile a f) =
      tileLoop D p box tile a (tileLoop D p box tile b f) := by
  by_cases hab : a = b
  · rw [hab]
  have ht : 0 < tile := by omega
  rw [mem_colourClass] at ha hb
  have ha' : a ∈ colourTiles (host_ntile_x box tile) (host_ntile_y box tile) := by
    rw [mem_colourTiles]; omega
  have hb' : b ∈ colourTiles (host_ntile_x box tile) (host_ntile_y box tile) := by
    rw [mem_colourTiles]; omega
  simp only [tileLoop_eq D p box tile a ha', tileLoop_eq D p box tile b hb']
  have key := foldl_comm_lists (fun (s : Field R) ip => D ip s)
    ((List.range p.num_particles).filter
      (fun ip => hostBin p box tile ip = a.1 * host_ntile_y box tile + a.2))
    ((List.range p.num_particles).filter
      (fun ip => hostBin p box tile ip = b.1 * host_ntile_y box tile + b.2))
  apply key
  intro i hi j hj s
  obtain ⟨i1, i2, i3⟩ := mem_tile_bin ht hfit hbox ha' hi
  obtain ⟨j1, j2, j3⟩ := mem_tile_bin ht hfit hbox hb' hj
  have ci := hbox i i1 i2
  have cj := hbox j j1 j2
  apply deposit_comm hD i j
  apply footprints_disjoint_of_same_colour t p box tile i j hassert ⟨ci.1, ci.2.2.1⟩
    ⟨cj.1, cj.2.2.1⟩
  · rw [i3, j3]; exact hab
  · rw [i3, j3]; omega
  · rw [i3, j3]; omega

/-- When a sum `length + tile - 1` overflows `int`, the tile count is not positive. -/
theorem tile_count_nonpos_of_overflow {len tile : Int} (ht : 0 < tile) (h1 : IsInt tile)
    (h2 : IsInt len) (h3 : ¬ IsInt (len + tile - 1)) :
    (wrapInt (len + tile - 1)).tdiv tile ≤ 0 := by
  unfold IsInt at h1 h2 h3
  have hneg : wrapInt (len + tile - 1) ≤ 0 := by
    unfold wrapInt
    omega
  have h := Int.tdiv_nonneg (show 0 ≤ -wrapInt (len + tile - 1) by omega) (le_of_lt ht)
  rw [Int.neg_tdiv] at h
  omega

/-- When a tile count of the CPU strategy overflows, no colour has a tile. -/
theorem colourClass_nil_of_overflow {box : Box} {tile : Int} (ht : 0 < tile)
    (h1 : IsInt tile) (h2 : IsInt box.length0) (h3 : IsInt box.length1)
    (hfit : ¬ TileCountsFit box tile) (px py : Int) (hpx : 0 ≤ px) (hpy : 0 ≤ py) :
    colourClass (host_ntile_x box tile) (host_ntile_y box tile) px py = [] := by
  rw [List.eq_nil_iff_forall_not_mem]
  intro a ha
  rw [mem_colourClass] at ha
  have hor : ¬ IsInt (box.length0 + tile - 1) ∨ ¬ IsInt (box.length1 + tile - 1) := by
    by_contra hc
    push_neg at hc
    exact hfit ⟨hc.1, hc.2⟩
  rcases hor with hx | hy
  · have := tile_count_nonpos_of_overflow ht h1 h2 hx
    unfold host_ntile_x at ha
    omega
  · have := tile_count_nonpos_of_overflow ht h1 h3 hy
    unfold host_ntile_y at ha
    omega

/-- C11: on the CPU, with the tile size at least the stencil size and every start cell of a
valid particle in the box, for a `do_deposit` that reads and writes the field only inside the
stencil footprint of its particle, handling the tiles of every colour in any permuted order
gives the same field as the order of the loops of the code; this is the field the CPU strategy
returns.  The tile size and the lengths of the box are values of `int`. -/
theorem C11_colour_order_independent {R : Type} (t : Template) (p : Particles) (box : Box)
    (tile : Int) (do_deposit : DepositFn R) (idx_cache idx_depos : Nat → Int)
    (field : Field R) (orders : Int → Int → List (Int × Int)) (hs : 1 ≤ t.stencil_x)
    (hassert : t.stencil_x ≤ tile ∧ t.stencil_y ≤ tile) (hbox : StartCellsInBox p box)
    (hint : IsInt tile ∧ IsInt box.length0 ∧ IsInt box.length1)
    (hlocal : LocalToFootprint t p (fun ip f => do_deposit ip f idx_cache idx_depos))
    (horders : ∀ px py, (orders px py).Perm
      (colourClass (host_ntile_x box tile) (host_ntile_y box tile) px py)) :
    tiledLoopIn orders (fun ip f => do_deposit ip f idx_cache idx_depos) p box tile field =
      tiledLoop (fun ip f => do_deposit ip f idx_cache idx_depos) p box tile field ∧
    tiledPath t tile p box do_deposit idx_cache idx_depos field =
      .ok (tiledLoopIn orders (fun ip f => do_deposit ip f idx_cache idx_depos) p box tile
        field) := by
  have key : ∀ (px py : Int), (px = 0 ∨ px = 1) → (py = 0 ∨ py = 1) → ∀ (s : Field R),
      (orders px py).foldl
        (fun s a => tileLoop (fun ip f => do_deposit ip f idx_cache idx_depos) p box tile a s) s
      = (colourClass (host_ntile_x box tile) (host_ntile_y box tile) px py).foldl
        (fun s a => tileLoop (fun ip f => do_deposit ip f idx_cache idx_depos) p box tile a s)
        s := by
    intro px py hpx hpy s
    by_cases hfit : TileCountsFit box tile
    · symm
      apply (horders px py).symm.foldl_eq'
      intro a ha b hb z
      exact tileLoop_comm t p box tile _ hs hassert hfit hbox hlocal px py hpx hpy a b ha hb z
    · have hnil := colourClass_nil_of_overflow (by omega) hint.1 hint.2.1 hint.2.2 hfit px py
        (by omega) (by omega)
      have hord := horders px py
      rw [hnil] at hord
      rw [hord.eq_nil, hnil]
  have main : tiledLoopIn orders (fun ip f => do_deposit ip f idx_cache idx_depos) p box tile
      field = tiledLoop (fun ip f => do_deposit ip f idx_cache idx_depos) p box tile field := by
    rw [tiledLoop_eq_classes]
    unfold tiledLoopIn
    rw [forRange_two]
    simp only [List.foldl_cons, List.foldl_nil]
    rw [key 0 0 (Or.inl rfl) (Or.inl rfl), key 0 1 (Or.inl rfl) (Or.inr rfl),
      key 1 0 (Or.inr rfl) (Or.inl rfl), key 1 1 (Or.inr rfl) (Or.inr rfl)]
  refine ⟨main, ?_⟩
  rw [main]
  unfold tiledPath
  rw [if_pos ⟨hassert.1, hassert.2⟩]

/-- A stencil functor reads and writes only inside the footprint of its particle. -/
theorem stencilDeposit_local {R : Type} [AddCommMonoid R] (t : Template) (p : Particles)
    (w : Nat → (Nat → Int → Int → R) → Nat → Int → Int → R) (idx_cache idx_depos : Nat → Int) :
    LocalToFootprint t p (fun ip f => stencilDeposit t p w ip f idx_cache idx_depos) := by
  intro ip
  constructor
  · intro f x y c hno
    show f x y c + depositTerm t p w ip f idx_cache idx_depos x y c = f x y c
    rw [depositTerm_eq_zero_of_not_footprint t p w ip f idx_cache idx_depos x y c hno, add_zero]
  · intro f g hfg x y c hin
    show f x y c + depositTerm t p w ip f idx_cache idx_depos x y c =
      g x y c + depositTerm t p w ip g idx_cache idx_depos x y c
    rw [hfg x y c hin]
    congr 1
    apply depositTerm_congr
    have : cacheReading t (p.get_start_cell ip) f idx_cache =
        cacheReading t (p.get_start_cell ip) g idx_cache := by
      funext m dx dy
      unfold cacheReading
      split
      · rename_i h
        apply hfg
        exact ⟨by omega, by omega, by omega, by omega⟩
      · rfl
    rw [this]

theorem C11_witness :
    tiledLoopIn
      (fun px py => (colourClass (host_ntile_x guardedBox 4) (host_ntile_y guardedBox 4)
        px py).reverse)
      (fun ip f => stencilDeposit cachedGridTemplate gridParticles readWeight ip f
        (fun _ => 0) (fun _ => 0)) gridParticles guardedBox 4 (fun _ _ _ => 1) =
      tiledLoop (fun ip f => stencilDeposit cachedGridTemplate gridParticles readWeight ip f
        (fun _ => 0) (fun _ => 0)) gridParticles guardedBox 4 (fun _ _ _ => 1) ∧
    tiledPath cachedGridTemplate 4 gridParticles guardedBox
        (stencilDeposit cachedGridTemplate gridParticles readWeight) (fun _ => 0) (fun _ => 0)
        (fun _ _ _ => 1) =
      .ok (tiledLoopIn
        (fun px py => (colourClass (host_ntile_x guardedBox 4) (host_ntile_y guardedBox 4)
          px py).reverse)
        (fun ip f => stencilDeposit cachedGridTemplate gridParticles readWeight ip f
          (fun _ => 0) (fun _ => 0)) gridParticles guardedBox 4 (fun _ _ _ => 1)) :=
  C11_colour_order_independent cachedGridTemplate gridParticles guardedBox 4
    (stencilDeposit cachedGridTemplate gridParticles readWeight) (fun _ => 0) (fun _ => 0)
    (fun _ _ _ => 1)
    (fun px py => (colourClass (host_ntile_x guardedBox 4) (host_ntile_y guardedBox 4)
      px py).reverse)
    (by decide) (by decide)
    (fun ip h _ => by
      have h3 : ip < 80 := h
      interval_cases ip <;> decide)
    (by decide)
    (stencilDeposit_local cachedGridTemplate gridParticles readWeight (fun _ => 0)
      (fun _ => 0))
    (fun _ _ => List.reverse_perm _)

/-! ## C18 -/

theorem countIndex_eq {box : Box} {cell : Int × Int} (hc : box.contains cell.1 cell.2) :
    countIndex box cell = binTile box cell * 64 + binLocId box cell % 64 := by
  obtain ⟨l1, l2⟩ := binLocId_bounds hc
  have e1 : (binLocId box cell).tmod combine_stride = binLocId box cell % 64 :=
    Int.tmod_eq_emod l1 (by decide)
  unfold countIndex
  rw [e1]
  simp only [combine_stride, threads_per_tile, combine_threads]
  omega

theorem headIndex_eq {box : Box} {cell : Int × Int} (hc : box.contains cell.1 cell.2)
    {c : Int} (h0 : 0 ≤ c) :
    headIndex box cell c = binTile box cell * 256 + binLocId box cell % 64 + c % 4 * 64 := by
  obtain ⟨l1, l2⟩ := binLocId_bounds hc
  have e1 : (binLocId box cell).tmod combine_stride = binLocId box cell % 64 :=
    Int.tmod_eq_emod l1 (by decide)
  have e2 : c.tmod combine_threads = c % 4 := Int.tmod_eq_emod h0 (by decide)
  unfold headIndex
  rw [e1, e2]
  simp only [threads_per_tile, combine_stride, combine_threads]
  omega

theorem roundRobin_init (p : Particles) (box : Box) :
    RoundRobinInv p box [] LinkedLists.init (fun _ => []) where
  chain := fun _ => rfl
  mem_done := fun _ _ h => by simp at h
  count_eq := fun _ => by simp [LinkedLists.init]
  length_eq := fun T r j _ _ _ _ => by
    simp only [LinkedLists.init, List.length_nil]
    omega

theorem roundRobin_step {p : Particles} {box : Box} {done : List Nat} {st : LinkedLists}
    {lists : Int → List Nat} (inv : RoundRobinInv p box done st lists) (ip : Nat)
    (hfresh : ip ∉ done) (hg : ip ≠ ll_guard)
    (hc : p.is_valid ip = true →
      box.contains (p.get_start_cell ip).1 (p.get_start_cell ip).2) :
    RoundRobinInv p box (done ++ [ip]) (binParticle p box ip st)
      (nextLists p box ip st lists) := by
  by_cases hv : p.is_valid ip = true
  · have hcell := hc hv
    have hnot : ∀ h, ip ∉ lists h := fun h hm => hfresh (inv.mem_done h ip hm)
    have hst : binParticle p box ip st =
        { ll_count := Function.update st.ll_count (countIndex box (p.get_start_cell ip))
            (st.ll_count (countIndex box (p.get_start_cell ip)) + 1)
          ll_next := Function.update st.ll_next ip (some (st.ll_start
            (headIndex box (p.get_start_cell ip)
              (st.ll_count (countIndex box (p.get_start_cell ip))))))
          ll_start := Function.update st.ll_start
            (headIndex box (p.get_start_cell ip)
              (st.ll_count (countIndex box (p.get_start_cell ip)))) ip } := by
      simp [binParticle, hv]
    have hl : nextLists p box ip st lists = Function.update lists
        (headIndex box (p.get_start_cell ip)
          (st.ll_count (countIndex box (p.get_start_cell ip))))
        (ip :: lists (headIndex box (p.get_start_cell ip)
          (st.ll_count (countIndex box (p.get_start_cell ip))))) := by
      simp [nextLists, hv]
    have c0 : 0 ≤ st.ll_count (countIndex box (p.get_start_cell ip)) := by
      rw [inv.count_eq]; exact Int.ofNat_nonneg _
    have ekey := countIndex_eq hcell
    have ehead := headIndex_eq hcell c0
    obtain ⟨l1, l2⟩ := binLocId_bounds hcell
    rw [hst, hl]
    constructor
    · intro h
      by_cases hh : h = headIndex box (p.get_start_cell ip)
          (st.ll_count (countIndex box (p.get_start_cell ip)))
      · rw [hh]
        simp only [Function.update_same]
        exact ⟨rfl, hg, _, by simp, (inv.chain _).update _ (hnot _)⟩
      · simp only [Function.update_noteq hh]
        exact (inv.chain h).update _ (hnot h)
    · intro h q hq
      by_cases hh : h = headIndex box (p.get_start_cell ip)
          (st.ll_count (countIndex box (p.get_start_cell ip)))
      · rw [hh] at hq
        simp only [Function.update_same, List.mem_cons] at hq
        rcases hq with rfl | hq
        · simp
        · exact List.mem_append_left _ (inv.mem_done _ q hq)
      · simp only [Function.update_noteq hh] at hq
        exact List.mem_append_left _ (inv.mem_done h q hq)
    · intro s
      simp only [Function.update_apply, List.filter_append, List.length_append]
      rw [inv.count_eq, inv.count_eq]
      by_cases hs : s = countIndex box (p.get_start_cell ip)
      · rw [if_pos hs]
        have : usesCounter p box (countIndex box (p.get_start_cell ip)) ip = true := by
          simp [usesCounter, hv]
        simp [List.filter_cons, this, hs]
      · rw [if_neg hs]
        have : usesCounter p box s ip = false := by
          simp [usesCounter, hv, Ne.symm hs]
        simp [List.filter_cons, this]
    · intro T r j hr0 hr1 hj0 hj1
      have old := inv.length_eq T r j hr0 hr1 hj0 hj1
      simp only [Function.update_apply]
      by_cases hk : T * 64 + r = countIndex box (p.get_start_cell ip)
      · rw [if_pos hk]
        rw [hk] at old
        by_cases hh : T * 256 + r + j * 64 = headIndex box (p.get_start_cell ip)
            (st.ll_count (countIndex box (p.get_start_cell ip)))
        · rw [if_pos hh]
          rw [hh] at old
          simp only [List.length_cons]
          push_cast
          omega
        · rw [if_neg hh]
          omega
      · rw [if_neg hk]
        have hh : ¬ T * 256 + r + j * 64 = headIndex box (p.get_start_cell ip)
            (st.ll_count (countIndex box (p.get_start_cell ip))) := by omega
        rw [if_neg hh]
        exact old
  · have hst : binParticle p box ip st = st := by simp [binParticle, hv]
    have hl : nextLists p box ip st lists = lists := by simp [nextLists, hv]
    rw [hst, hl]
    exact
      { chain := inv.chain
        mem_done := fun h q hq => List.mem_append_left _ (inv.mem_done h q hq)
        count_eq := fun s => by
          have : usesCounter p box s ip = false := by simp [usesCounter, hv]
          rw [inv.count_eq]
          simp [List.filter_append, List.filter_cons, this]
        length_eq := inv.length_eq }

theorem binGhost_snoc (p : Particles) (box : Box) (l : List Nat) (a : Nat) :
    binGhost p box (l ++ [a]) =
      (binParticle p box a (binGhost p box l).1,
        nextLists p box a (binGhost p box l).1 (binGhost p box l).2) := by
  simp [binGhost, List.foldl_append]

theorem binGhost_fst (p : Particles) (box : Box) :
    ∀ (l : List Nat), (binGhost p box l).1 = buildLinkedLists p box l := by
  intro l
  induction l using List.reverseRecOn with
  | nil => rfl
  | append_singleton l a ih =>
    rw [binGhost_snoc]
    simp only [buildLinkedLists, List.foldl_append, List.foldl_cons, List.foldl_nil]
    rw [ih]
    rfl

theorem binGhost_inv (p : Particles) (box : Box) :
    ∀ (l : List Nat), l.Nodup → (∀ ip ∈ l, ip ≠ ll_guard) →
      (∀ ip ∈ l, p.is_valid ip = true →
        box.contains (p.get_start_cell ip).1 (p.get_start_cell ip).2) →
      RoundRobinInv p box l (binGhost p box l).1 (binGhost p box l).2 := by
  intro l
  induction l using List.reverseRecOn with
  | nil => intro _ _ _; exact roundRobin_init p box
  | append_singleton l a ih =>
    intro hnd hg hb
    have hnd' := List.nodup_append.1 hnd
    have inv := ih hnd'.1 (fun ip hip => hg ip (List.mem_append_left _ hip))
      (fun ip hip => hb ip (List.mem_append_left _ hip))
    have hfresh : a ∉ l := fun hm => hnd'.2.2 hm (List.mem_singleton_self a)
    rw [binGhost_snoc]
    exact roundRobin_step inv a hfresh (hg a (by simp)) (hb a (by simp))

theorem binGhost_append (p : Particles) (box : Box) (l1 l2 : List Nat) :
    binGhost p box (l1 ++ l2) =
      l2.foldl (fun g ip => (binParticle p box ip g.1, nextLists p box ip g.1 g.2))
        (binGhost p box l1) := by
  simp [binGhost, List.foldl_append]

theorem mem_nextLists (p : Particles) (box : Box) (a : Nat) (st : LinkedLists)
    (lists : Int → List Nat) (h : Int) (x : Nat) (hx : x ∈ lists h) :
    x ∈ nextLists p box a st lists h := by
  unfold nextLists
  split
  · rw [Function.update_apply]
    split
    · rename_i hh
      rw [← hh]
      exact List.mem_cons_of_mem _ hx
    · exact hx
  · exact hx

theorem binGhost_mono (p : Particles) (box : Box) :
    ∀ (l : List Nat) (g : LinkedLists × (Int → List Nat)) (h : Int) (x : Nat), x ∈ g.2 h →
      x ∈ (l.foldl (fun g ip => (binParticle p box ip g.1, nextLists p box ip g.1 g.2)) g).2 h := by
  intro l
  induction l with
  | nil => intro g h x hx; exact hx
  | cons a l ih =>
    intro g h x hx
    rw [List.foldl_cons]
    exact ih _ h x (mem_nextLists p box a g.1 g.2 h x hx)

theorem usesCounter_eq (p : Particles) (box : Box) (T r : Int) (hr0 : 0 ≤ r) (hr1 : r < 64)
    (ip : Nat)
    (hc : p.is_valid ip = true →
      box.contains (p.get_start_cell ip).1 (p.get_start_cell ip).2) :
    usesCounter p box (T * 64 + r) ip = inResidueClass p box T r ip := by
  by_cases hv : p.is_valid ip = true
  · rw [Bool.eq_iff_iff]
    simp only [usesCounter, inResidueClass, Bool.and_eq_true, decide_eq_true_eq]
    rw [countIndex_eq (hc hv)]
    constructor
    · rintro ⟨h1, h2⟩
      exact ⟨h1, by omega, by omega⟩
    · rintro ⟨h1, h2, h3⟩
      exact ⟨h1, by omega⟩
  · simp [usesCounter, inResidueClass, hv]

/-- C18: the binning kernel spreads the valid particles of a tile whose cell id inside the tile
is `r` modulo 64 round robin over the list heads `r`, `r + 64`, `r + 128`, `r + 192` of the
tile. With `lists head` the particles that the walk from `head` visits: the particle that is
the `k`-th of its class to take the counter is in the list of head `r + (k mod 4) * 64` of its
tile; list `j` of a class of `m` particles has `(m + 3 - j) / 4` particles, so the four lengths
sum to `m` and differ by at most one. Start cells of valid particles are in the box. -/
theorem C18_round_robin_load_balancing (p : Particles) (box : Box) (order : List Nat)
    (horder : order.Perm (List.range p.num_particles)) (hn : p.num_particles ≤ ll_guard)
    (hbox : StartCellsInBox p box) :
    ∃ lists : Int → List Nat,
      (∀ (head : Int) (fuel : Nat), p.num_particles ≤ fuel →
        walkList (fun ip l => l ++ [ip]) (buildLinkedLists p box order).ll_next fuel
          ((buildLinkedLists p box order).ll_start head) [] = some (lists head)) ∧
      (∀ pre ip post, order = pre ++ ip :: post → p.is_valid ip = true →
        ip ∈ lists (binTile box (p.get_start_cell ip) * 256 +
          binLocId box (p.get_start_cell ip) % 64 +
          ((pre.filter (inResidueClass p box (binTile box (p.get_start_cell ip))
            (binLocId box (p.get_start_cell ip) % 64))).length : Int) % 4 * 64)) ∧
      (∀ T r : Int, 0 ≤ r → r < 64 →
        (∀ j : Int, 0 ≤ j → j < 4 →
          ((lists (T * 256 + r + j * 64)).length : Int) =
            (((List.range p.num_particles).filter (inResidueClass p box T r)).length
              + 3 - j) / 4) ∧
        (lists (T * 256 + r)).length + (lists (T * 256 + r + 64)).length +
          (lists (T * 256 + r + 128)).length + (lists (T * 256 + r + 192)).length =
          ((List.range p.num_particles).filter (inResidueClass p box T r)).length ∧
        (∀ i j : Int, 0 ≤ i → i < 4 → 0 ≤ j → j < 4 →
          (lists (T * 256 + r + i * 64)).length ≤
            (lists (T * 256 + r + j * 64)).length + 1)) := by
  have hmem : ∀ ip, ip ∈ order ↔ ip < p.num_particles := fun ip => by
    rw [horder.mem_iff]; simp
  have hnd : order.Nodup := horder.nodup_iff.2 (List.nodup_range _)
  have hg : ∀ ip ∈ order, ip ≠ ll_guard := fun ip hip => by
    have := (hmem ip).1 hip; omega
  have hb : ∀ ip ∈ order, p.is_valid ip = true →
      box.contains (p.get_start_cell ip).1 (p.get_start_cell ip).2 :=
    fun ip hip hv => hbox ip ((hmem ip).1 hip) hv
  have inv := binGhost_inv p box order hnd hg hb
  rw [binGhost_fst] at inv
  have hcount : ∀ T r : Int, 0 ≤ r → r < 64 →
      (buildLinkedLists p box order).ll_count (T * 64 + r) =
        (((List.range p.num_particles).filter (inResidueClass p box T r)).length : Int) := by
    intro T r hr0 hr1
    rw [inv.count_eq]
    have e1 : order.filter (usesCounter p box (T * 64 + r)) =
        order.filter (inResidueClass p box T r) :=
      List.filter_congr (fun ip hip => usesCounter_eq p box T r hr0 hr1 ip (hb ip hip))
    rw [e1, (horder.filter _).length_eq]
  have hlen : ∀ T r j : Int, 0 ≤ r → r < 64 → 0 ≤ j → j < 4 →
      (((binGhost p box order).2 (T * 256 + r + j * 64)).length : Int) =
        (((List.range p.num_particles).filter (inResidueClass p box T r)).length
          + 3 - j) / 4 := by
    intro T r j hr0 hr1 hj0 hj1
    rw [inv.length_eq T r j hr0 hr1 hj0 hj1, hcount T r hr0 hr1]
  refine ⟨(binGhost p box order).2, ?_, ?_, ?_⟩
  · intro head fuel hfuel
    have hle : ((binGhost p box order).2 head).length ≤ fuel := by
      have h1 := inv.length_eq (head / 256) (head % 256 % 64) (head % 256 / 64)
        (by omega) (by omega) (by omega) (by omega)
      have h2 : head / 256 * 256 + head % 256 % 64 + head % 256 / 64 * 64 = head := by omega
      rw [h2, inv.count_eq] at h1
      have h3 := List.length_filter_le
        (usesCounter p box (head / 256 * 64 + head % 256 % 64)) order
      have h4 : order.length = p.num_particles := by
        rw [horder.length_eq, List.length_range]
      omega
    rw [walkList_chain _ _ _ _ _ _ (inv.chain head) hle, foldl_log]
    simp
  · intro pre ip post hsplit hv
    have hcell : box.contains (p.get_start_cell ip).1 (p.get_start_cell ip).2 :=
      hb ip (by rw [hsplit]; simp) hv
    have hsub : ∀ q ∈ pre, q ∈ order := fun q hq => by rw [hsplit]; simp [hq]
    have hndp : pre.Nodup := by
      rw [hsplit] at hnd
      exact (List.nodup_append.1 hnd).1
    have invp := binGhost_inv p box pre hndp (fun q hq => hg q (hsub q hq))
      (fun q hq => hb q (hsub q hq))
    have hk : (binGhost p box pre).1.ll_count (countIndex box (p.get_start_cell ip)) =
        ((pre.filter (inResidueClass p box (binTile box (p.get_start_cell ip))
          (binLocId box (p.get_start_cell ip) % 64))).length : Int) := by
      rw [invp.count_eq, countIndex_eq hcell]
      have e1 : pre.filter (usesCounter p box (binTile box (p.get_start_cell ip) * 64 +
          binLocId box (p.get_start_cell ip) % 64)) =
          pre.filter (inResidueClass p box (binTile box (p.get_start_cell ip))
            (binLocId box (p.get_start_cell ip) % 64)) :=
        List.filter_congr (fun q hq => usesCounter_eq p box _ _ (by omega) (by omega) q
          (hb q (hsub q hq)))
      rw [e1]
    have hhead := @headIndex_eq box (p.get_start_cell ip) hcell
      ((binGhost p box pre).1.ll_count (countIndex box (p.get_start_cell ip)))
      (by rw [hk]; exact Int.ofNat_nonneg _)
    rw [hk] at hhead
    have e2 : order = (pre ++ [ip]) ++ post := by rw [hsplit]; simp
    rw [e2, binGhost_append]
    apply binGhost_mono
    rw [binGhost_snoc]
    show ip ∈ nextLists p box ip (binGhost p box pre).1 (binGhost p box pre).2 _
    unfold nextLists
    rw [if_pos hv, hk, hhead, Function.update_same]
    exact List.mem_cons_self _ _
  · intro T r hr0 hr1
    have h0 := hlen T r 0 hr0 hr1 (by omega) (by omega)
    have h1 := hlen T r 1 hr0 hr1 (by omega) (by omega)
    have h2 := hlen T r 2 hr0 hr1 (by omega) (by omega)
    have h3 := hlen T r 3 hr0 hr1 (by omega) (by omega)
    have e0 : T * 256 + r + 0 * 64 = T * 256 + r := by ring
    have e1 : T * 256 + r + 1 * 64 = T * 256 + r + 64 := by ring
    have e2 : T * 256 + r + 2 * 64 = T * 256 + r + 128 := by ring
    have e3 : T * 256 + r + 3 * 64 = T * 256 + r + 192 := by ring
    rw [e0] at h0
    rw [e1] at h1
    rw [e2] at h2
    rw [e3] at h3
    refine ⟨fun j hj0 hj1 => hlen T r j hr0 hr1 hj0 hj1, by omega, ?_⟩
    intro i j hi0 hi1 hj0 hj1
    have hi := hlen T r i hr0 hr1 hi0 hi1
    have hj := hlen T r j hr0 hr1 hj0 hj1
    omega

theorem C18_witness :
    ∃ lists : Int → List Nat,
      (∀ (head : Int) (fuel : Nat), stackedParticles.num_particles ≤ fuel →
        walkList (fun ip l => l ++ [ip])
          (buildLinkedLists stackedParticles cellBox [4, 0, 3, 5, 1, 2]).ll_next fuel
          ((buildLinkedLists stackedParticles cellBox [4, 0, 3, 5, 1, 2]).ll_start head) [] =
            some (lists head)) ∧
      (∀ pre ip post, [4, 0, 3, 5, 1, 2] = pre ++ ip :: post →
        stackedParticles.is_valid ip = true →
        ip ∈ lists (binTile cellBox (stackedParticles.get_start_cell ip) * 256 +
          binLocId cellBox (stackedParticles.get_start_cell ip) % 64 +
          ((pre.filter (inResidueClass stackedParticles cellBox
            (binTile cellBox (stackedParticles.get_start_cell ip))
            (binLocId cellBox (stackedParticles.get_start_cell ip) % 64))).length : Int)
              % 4 * 64)) ∧
      (∀ T r : Int, 0 ≤ r → r < 64 →
        (∀ j : Int, 0 ≤ j → j < 4 →
          ((lists (T * 256 + r + j * 64)).length : Int) =
            (((List.range stackedParticles.num_particles).filter
              (inResidueClass stackedParticles cellBox T r)).length + 3 - j) / 4) ∧
        (lists (T * 256 + r)).length + (lists (T * 256 + r + 64)).length +
          (lists (T * 256 + r + 128)).length + (lists (T * 256 + r + 192)).length =
          ((List.range stackedParticles.num_particles).filter
            (inResidueClass stackedParticles cellBox T r)).length ∧
        (∀ i j : Int, 0 ≤ i → i < 4 → 0 ≤ j → j < 4 →
          (lists (T * 256 + r + i * 64)).length ≤
            (lists (T * 256 + r + j * 64)).length + 1)) :=
  C18_round_robin_load_balancing stackedParticles cellBox [4, 0, 3, 5, 1, 2]
    (by decide) (by decide)
    (fun _ _ _ => by
      show cellBox.contains 0 0
      decide)

end Hipace
